import Mathlib

/-!
# Block-B-blog code generator: annotation parsing, model and file generation

A shallow embedding of `Code/include/Objects.hpp`, `Code/src/FileParser.cpp`,
`Code/src/FileGenerator.cpp` and the handlers of `Code/main.cpp`.

Modelling conventions

* `std::string` is `Str = List Char`; `size_t` values are natural numbers and every
  `size_t` addition or subtraction of the source is taken modulo `2 ^ 64`.
* `std::string::npos` is `2 ^ 64 - 1`.
* `std::string::substr` throws `std::out_of_range` when its position is past the end;
  the embedding returns `none` there.
* Loops run on fuel; running out of fuel is `none` as well, and the theorems show that
  the fuel supplied by the callers is always enough.
* The `clang` declarations are a tree `Decl`: a node carries what the parser reads from the
  declaration, and its children are the declarations that the default traversal of
  `RecursiveASTVisitor` reaches below it.
* A `std::filesystem::path` is kept as its text, which is what `path::string()` returns, and
  two paths are compared as `path::compare` compares them, element by element, in the POSIX
  path grammar: the separator is `/`, there is no root name, a run of separators counts as
  one separator. So `/p//a.h` and `/p/a.h` are equal paths with different texts.
* A `std::unordered_set` or `std::unordered_map` is the list of its elements. The order in
  which such a container is iterated is unspecified: the list fixes one order, and what is
  stated about the include lines of a written file is stated for every order.
* An `int` has 32 bits: the increment of the counter `skipped_parameters` is taken modulo
  `2 ^ 32` into the range `-2147483648 .. 2147483647`.
* Undefined behaviour of the source (`top` or `pop` of an empty stack, an index outside a
  vector, a null pointer dereferenced) is `none`.
-/

namespace CodeGenerator

/-! ## Strings and `size_t` -/

/-- A `std::string`, as its sequence of characters. -/
abbrev Str := List Char

/-- The modulus of `size_t` arithmetic. -/
def sizeMod : Nat := 2 ^ 64

/-- The constant `std::string::npos`, that is `size_t(-1)`. -/
def npos : Nat := 2 ^ 64 - 1

/-- Addition of two `size_t` values. -/
def szAdd (a b : Nat) : Nat := (a + b) % sizeMod

/-- Subtraction of two `size_t` values. -/
def szSub (a b : Nat) : Nat := (a + sizeMod - b % sizeMod) % sizeMod

/-- The C locale `isspace`: space, `\t`, `\n`, `\v`, `\f`, `\r`. -/
def isspace (c : Char) : Bool :=
  c.toNat == 32 || (9 ≤ c.toNat && c.toNat ≤ 13)

/-- The call `s.find(c, pos)` of `std::string` for a character: the first index at or
after `pos` that holds `c`, and `npos` when there is none. -/
def findChar (s : Str) (c : Char) (pos : Nat) : Nat :=
  if (s.drop pos).indexOf c < (s.drop pos).length then pos + (s.drop pos).indexOf c
  else npos

/-- The search of `s.find(pat)` over the suffix `s` that starts at index `i`. -/
def findStrFrom (pat : Str) : Str → Nat → Nat
  | [], i => if pat.isPrefixOf [] then i else npos
  | c :: t, i => if pat.isPrefixOf (c :: t) then i else findStrFrom pat t (i + 1)

/-- The call `s.find(pat)` of `std::string` for a string, from position 0. -/
def findStr (s pat : Str) : Nat := findStrFrom pat s 0

/-- The call `s.substr(pos, count)`: `none` stands for `std::out_of_range`. -/
def substr (s : Str) (pos count : Nat) : Option Str :=
  if s.length < pos then none else some ((s.drop pos).take count)

/-- The erase-remove idiom on `std::isspace`: every whitespace character is removed. -/
def removeSpaces (s : Str) : Str := s.filter (fun c => !isspace c)

/-- The call `line.erase(line.begin(), find_if(..., !isspace))`: leading whitespace is
removed. -/
def eraseLeadingSpaces (line : Str) : Str := line.dropWhile isspace

/-! ## `int` and `std::filesystem::path` -/

/-- The statement `x++` on an `int` of 32 bits: past `2147483647` the value comes out as
`-2147483648`. -/
def intIncrement (x : Int) : Int := (x + 1 + 2147483648) % 4294967296 - 2147483648

/-- The member `path::has_root_directory`: the text starts with a separator. -/
def has_root_directory : Str → Bool
  | c :: _ => c == '/'
  | [] => false

/-- The scan behind `relative_path`: `cur` is the file name read so far and `afterName`
tells that a file name was closed by a separator before. A run of separators closes the
file name in `cur` once; separators before the first file name are the root directory; a
text that ends in a separator after a file name has a last, empty element. -/
def relativePathFrom : Str → Bool → Str → List Str
  | cur, afterName, [] =>
    if cur ≠ [] then [cur] else if afterName then [[]] else []
  | cur, afterName, c :: rest =>
    if c = '/' then
      if cur ≠ [] then cur :: relativePathFrom [] true rest
      else relativePathFrom [] afterName rest
    else relativePathFrom (cur ++ [c]) afterName rest

/-- The elements of `path::relative_path()` in iteration order. -/
def relative_path (p : Str) : List Str := relativePathFrom [] false p

/-- What `path::compare` looks at: the presence of a root directory and the elements of the
relative path (the root name is always empty). -/
def pathParts (p : Str) : Bool × List Str := (has_root_directory p, relative_path p)

/-- The comparison `lhs == rhs` of two `std::filesystem::path`, that is
`lhs.compare(rhs) == 0`. -/
def pathEqual (a b : Str) : Bool := decide (pathParts a = pathParts b)

/-! ## Objects.hpp -/

/-- The `std::variant<std::string, std::vector<Property>>` of a property value; a nested
property is kept as its name and value. -/
inductive PropertyValue where
  | str (s : Str)
  | list (ps : List (Str × PropertyValue))

/-- The struct `Property`. -/
structure Property where
  name : Str
  value : PropertyValue := PropertyValue.str []

/-! ## FileParser.cpp: GetProperties -/

/-- The comma-splitting `while` loop of `GetProperties` together with the statement after
it that adds the last entry. `pos` and `prev` are the loop variables, `acc` is the vector
`properties`. -/
def splitLoop (s : Str) : Nat → Nat → Nat → List Str → Option (List Str)
  | 0, _, _, _ => none
  | fuel + 1, pos, prev, acc =>
    let pos1 := findChar s ',' pos
    if pos1 != npos then
      match substr s prev (szSub pos1 prev) with
      | none => none
      | some e => splitLoop s fuel (szAdd pos1 1) (szAdd pos1 1) (acc ++ [e])
    else
      match substr s prev (szSub pos1 prev) with
      | none => none
      | some e => some (acc ++ [e])

/-- The body of the `for` loop of `GetProperties`: one entry becomes one property. -/
def parseEntry (property : Str) : Option Property :=
  let equalsPos := findChar property '=' 0
  match substr property 0 equalsPos, substr property (szAdd equalsPos 1) npos with
  | some name, some value =>
    some { name := removeSpaces name, value := PropertyValue.str (removeSpaces value) }
  | _, _ => none

/-- The `for` loop of `GetProperties` over the entries, appending to `result`. -/
def parseEntries : List Str → List Property → Option (List Property)
  | [], result => some result
  | property :: rest, result =>
    match parseEntry property with
    | none => none
    | some p => parseEntries rest (result ++ [p])

/-- The function `ASTFileParser::GetProperties`, on the line that `GetLineAbove` read. -/
def GetProperties (line0 keyword : Str) : Option (List Property) :=
  let line := eraseLeadingSpaces line0
  if findStr line keyword != 0 then some []
  else
    let openBracePos := findChar line '(' 0
    let closeBracePos := findChar line ')' openBracePos
    match substr line (szAdd openBracePos 1) (szSub (szSub closeBracePos openBracePos) 1) with
    | none => none
    | some propertiesString =>
      match splitLoop propertiesString (propertiesString.length + 1) 0 0 [] with
      | none => none
      | some properties => parseEntries properties [{ name := keyword }]

/-! ## Closed forms used by the proofs -/

/-- The pieces of `s` between the occurrences of `c`. -/
def splitOnChar (c : Char) : Str → List Str
  | [] => [[]]
  | x :: xs =>
    if x = c then [] :: splitOnChar c xs
    else
      match splitOnChar c xs with
      | [] => [[x]]
      | h :: t => (x :: h) :: t

/-- The property that the loop body `parseEntry` builds from one entry. -/
def entryProperty (e : Str) : Property :=
  { name := removeSpaces (e.take (e.indexOf '='))
    value := PropertyValue.str (removeSpaces
      (if e.indexOf '=' < e.length then e.drop (e.indexOf '=' + 1) else e)) }

/-- The text that `GetProperties` takes for the parenthesised list of a trimmed line. -/
def directiveList (line : Str) : Str :=
  if line.indexOf '(' < line.length then
    (line.drop (line.indexOf '(' + 1)).take ((line.drop (line.indexOf '(' + 1)).indexOf ')')
  else line

/-! ## Objects.hpp: Object, Variable, Function, Class -/

/-- The struct `Object`; the `std::filesystem::path` is kept as its text. -/
structure Object where
  name : Str := []
  fullNamespace : Str := []
  path : Str := []
  properties : List Property := []

/-- The struct `Variable`. -/
structure Variable extends Object where
  type : Str := "int".toList

/-- The constructor `Variable(std::string type, std::string name)`. -/
def Variable.make (type name : Str) : Variable :=
  { name := name, fullNamespace := [], path := [], properties := [], type := type }

/-- The struct `Function`. -/
structure Function extends Object where
  returnType : Str := "void".toList
  parameters : List Variable := []
  isConstruptor : Bool := false

/-- The range-for of `AddVariable`: is there a parameter whose name equals `name`? -/
def hasParameterNamed : List Variable → Str → Bool
  | [], _ => false
  | parameter :: rest, name =>
    if parameter.name = name then true else hasParameterNamed rest name

/-- The member function `Function::AddVariable`. -/
def Function.AddVariable (f : Function) (var : Variable) : Function :=
  if hasParameterNamed f.parameters var.name then f
  else { f with parameters := f.parameters ++ [var] }

/-- The struct `Class`; `variables_` is the member `variables`. -/
structure Class extends Object where
  variables_ : List Variable := []
  functions : List Function := []

/-- The data members of `ASTFileParser`; `variables_` is the member `variables` and the
file handle is left out. The `int` member `skipped_parameters` holds a value of the range
`-2147483648 .. 2147483647` and is changed through `intIncrement` only. -/
structure ASTFileParser where
  skipped_parameters : Int := 0
  classes : List Class := []
  functions : List Function := []
  variables_ : List Variable := []
  classStack : List Nat := []
  functionStack : List Function := []
  path : Str := []

/-! ## FileGenerator.hpp: FullFunction, File and the registry -/

/-- The struct `FullFunction`; `prefixText` is the member `prefix`. -/
structure FullFunction where
  prefixText : Str := []
  header : Function := {}
  body : List Str := []

/-- A `std::unordered_map`, as the list of its entries. -/
abbrev UMap (κ ν : Type) := List (κ × ν)

/-- The struct `File`. The `std::unordered_set` of include paths is the list of its
elements, each in the spelling it was inserted with. -/
structure File where
  includes : List Str := []
  header : List Str := []
  functions : UMap Str FullFunction := []

/-- The call `m.find(k)` of an unordered map. -/
def umapFind {ν : Type} : UMap Str ν → Str → Option ν
  | [], _ => none
  | (k1, v) :: rest, k => if k1 = k then some v else umapFind rest k

/-- The access `m[k]` of an unordered map followed by the update `f` through the returned
reference: an absent key is first inserted with the value-initialised `dflt`. -/
def umapUpdate {ν : Type} (dflt : ν) : UMap Str ν → Str → (ν → ν) → UMap Str ν
  | [], k, f => [(k, f dflt)]
  | (k1, v) :: rest, k, f =>
    if k1 = k then (k1, f v) :: rest else (k1, v) :: umapUpdate dflt rest k f

/-- The call `s.insert(p)` of a `std::unordered_set<std::filesystem::path>`: nothing is
inserted when the set holds a path equal to `p`, and the element that is there keeps its
spelling. -/
def usetInsert (s : List Str) (p : Str) : List Str :=
  if s.any (fun q => pathEqual q p) then s else s ++ [p]

/-- The statements `auto &function = files[F].functions[K]; ...` with the updates `f` made
through the reference `function`. -/
def updateFunction (files : UMap Str File) (fileName functionName : Str)
    (f : FullFunction → FullFunction) : UMap Str File :=
  umapUpdate {} files fileName
    (fun file => { file with functions := umapUpdate {} file.functions functionName f })

/-- The call `function.body.emplace_back(line)`. -/
def emplaceBody (line : Str) (function : FullFunction) : FullFunction :=
  { function with body := function.body ++ [line] }

/-- The expression `files[F].functions[K]` read without creating anything. -/
def lookupFunction (files : UMap Str File) (fileName functionName : Str) :
    Option FullFunction :=
  match umapFind files fileName with
  | none => none
  | some file => umapFind file.functions functionName

/-! ## FileGenerator.cpp -/

/-- The function `FileGenerator::GetFileInclude(const std::filesystem::path&)`. -/
def GetFileInclude (path : Str) : Str :=
  "#include \"".toList ++ path ++ "\"".toList

/-- The function `FileGenerator::GetProperty`: `none` is the null pointer. -/
def GetProperty : List Property → Str → Option Property
  | [], _ => none
  | p :: rest, name => if p.name = name then some p else GetProperty rest name

/-- The six handler slots of `FileGenerator`; `σ` is everything a handler can change (the
registry and the globals of the program), `none` is an empty `std::function`. A handler
takes the state and the entity; it is taken not to reassign the slots themselves. -/
structure FileGenerator (σ : Type) where
  ParseFile : Option (σ → ASTFileParser → σ) := none
  ParseClass : Option (σ → Class → σ) := none
  ParseMember : Option (σ → Variable → σ) := none
  ParseMethod : Option (σ → Function → σ) := none
  ParseVariable : Option (σ → Variable → σ) := none
  ParseFunction : Option (σ → Function → σ) := none

/-- The statement `if (slot) { slot(*this, x); }`. -/
def callSlot {σ α : Type} (slot : Option (σ → α → σ)) (s : σ) (x : α) : σ :=
  match slot with
  | some handler => handler s x
  | none => s

/-- The function `FileGenerator::Parse`. -/
def FileGenerator.Parse {σ : Type} (g : FileGenerator σ) (parser : ASTFileParser) (s : σ) : σ :=
  let s1 := callSlot g.ParseFile s parser
  let s2 := parser.functions.foldl (fun st function => callSlot g.ParseFunction st function) s1
  let s3 := parser.variables_.foldl (fun st var => callSlot g.ParseVariable st var) s2
  parser.classes.foldl (fun st class_ =>
    let t1 := callSlot g.ParseClass st class_
    let t2 := class_.functions.foldl (fun u function => callSlot g.ParseMethod u function) t1
    class_.variables_.foldl (fun u var => callSlot g.ParseMember u var) t2) s3

/-- The parameter loop of `WriteFiles`: `i` runs over `0 .. size - 1` and the separator is
written when `i != size - 1`. -/
def writeParameters (out : Str) (parameters : List Variable) : Str :=
  (List.range parameters.length).foldl (fun o i =>
    match parameters[i]? with
    | none => o
    | some p =>
      let o1 := o ++ p.type ++ " ".toList ++ p.name
      if i != parameters.length - 1 then o1 ++ ", ".toList else o1) out

/-- The body of the loop of `WriteFiles` over the functions of a file. -/
def writeFunction (out : Str) (function : Str × FullFunction) : Str :=
  let o1 := if !function.2.prefixText.isEmpty then out ++ function.2.prefixText else out
  let o2 := o1 ++ function.2.header.returnType ++ " ".toList ++ function.1 ++ "(".toList
  let o3 := writeParameters o2 function.2.header.parameters
  let o4 := o3 ++ ")".toList ++ "\n".toList ++ "\x7b".toList ++ "\n".toList
  let o5 := function.2.body.foldl (fun o line => o ++ line ++ "\n".toList) o4
  let o6 := o5 ++ "\x7d".toList ++ "\n".toList
  o6 ++ "\n".toList

/-- The two output streams that the body of `WriteFiles` writes for one file. -/
structure Streams where
  output : Str := []
  cout : Str := []

/-- The body of the loop of `WriteFiles` for one file whose stream opened. The loops over
the unordered containers take the elements in the order of the lists of `file_data`; the
source leaves that order unspecified. -/
def writeFile (file_data : File) : Streams :=
  let s0 : Streams := {}
  let s1 := file_data.includes.foldl
    (fun s incl => { s with output := s.output ++ GetFileInclude incl ++ "\n".toList }) s0
  let s2 := { s1 with cout := s1.cout ++ "\n".toList }
  let s3 := file_data.header.foldl
    (fun s line => { s with output := s.output ++ line ++ "\n".toList }) s2
  let s4 := { s3 with output := s3.output ++ "\n".toList }
  file_data.functions.foldl (fun s function => { s with output := writeFunction s.output function }) s4

/-- The function `FileGenerator::WriteFiles`: the content of every file that could be
opened, under its key, and the text sent to `std::cout`. -/
def WriteFiles (canOpen : Str → Bool) (files : UMap Str File) : List (Str × Str) × Str :=
  files.foldl (fun acc file =>
    if canOpen file.1 then
      (acc.1 ++ [(file.1, (writeFile file.2).output)], acc.2 ++ (writeFile file.2).cout)
    else acc) ([], [])

/-! ## main.cpp: the handlers -/

/-- The state the handlers work on: the static registry `FileGenerator::files` and the
global pointer `currentClass` (`none` is the null pointer). -/
structure GenState where
  files : UMap Str File := []
  currentClass : Option Class := none

/-- The name of the generated bindings file. -/
def luaBindingsFile : Str := "LuaBindings.cpp.gen".toList

/-- The name of the generated function. -/
def createBindings : Str := "CreateBindings".toList

/-- The parameter that every handler adds to the generated function. -/
def luaStateParameter : Variable := Variable.make "sol::state&".toList "lua_state".toList

/-- The string `userTypeCreation` of `HandleClass`. -/
def userTypeCreation (class_ : Class) : Str :=
  "sol::usertype<".toList ++ class_.fullNamespace ++ "> ".toList ++ class_.name ++
    "_table = lua_state.new_usertype<".toList ++ class_.fullNamespace ++ ">(\"".toList ++
    class_.name ++ "\", sol::constructors<".toList ++ class_.fullNamespace ++ "()>\x7b\x7d);".toList

/-- The statements shared by the three handlers once the property was found: the include
is inserted, the parameter is added and the line is appended to the body. -/
def contribute (files : UMap Str File) (path line : Str) : UMap Str File :=
  let files1 := umapUpdate {} files luaBindingsFile
    (fun file => { file with includes := usetInsert file.includes path })
  updateFunction files1 luaBindingsFile createBindings
    (fun function =>
      emplaceBody line { function with header := function.header.AddVariable luaStateParameter })

/-- The handler `HandleClass`. -/
def HandleClass (st : GenState) (class_ : Class) : GenState :=
  let st1 := { st with currentClass := some class_ }
  if (GetProperty class_.properties "LuaClass".toList).isSome then
    { st1 with files := contribute st1.files class_.path (userTypeCreation class_) }
  else st1

/-- The handler `HandleMember`; `none` is the dereference of a null `currentClass`. -/
def HandleMember (st : GenState) (var : Variable) : Option GenState :=
  if (GetProperty var.properties "LuaInspect".toList).isSome then
    match st.currentClass with
    | none => none
    | some c =>
      let propertyCreation := c.name ++ "_table[\"".toList ++ var.name ++ "\"] = &".toList ++
        var.fullNamespace ++ ";".toList
      some { st with files := contribute st.files var.path propertyCreation }
  else some st

/-- The handler `HandleMethod`; `none` is the dereference of a null `currentClass`. -/
def HandleMethod (st : GenState) (function : Function) : Option GenState :=
  if (GetProperty function.properties "LuaInspect".toList).isSome then
    match st.currentClass with
    | none => none
    | some c =>
      let propertyCreation := c.name ++ "_table[\"".toList ++ function.name ++
        "\"] = &".toList ++ function.fullNamespace ++ "();".toList
      some { st with files := contribute st.files function.path propertyCreation }
  else some st

/-- The generator that `main` sets up: `HandleClass`, `HandleMember` and `HandleMethod`
installed, the other slots empty. The state is `none` once a handler has dereferenced a
null `currentClass`. -/
def mainGenerator : FileGenerator (Option GenState) :=
  { ParseClass := some (fun s class_ => s.map (fun st => HandleClass st class_))
    ParseMember := some (fun s var => s.bind (fun st => HandleMember st var))
    ParseMethod := some (fun s function => s.bind (fun st => HandleMethod st function)) }

/-! ## FileParser.cpp: the declaration source -/

/-- The kinds of declaration that `RecursiveASTVisitor::TraverseDecl` dispatches on: the
seven kinds whose `Traverse*` the parser overrides, and `Other` for every kind that keeps
the default traversal (translation unit, namespace, ...). -/
inductive DeclKind where
  | CXXRecord
  | Field
  | CXXMethod
  | CXXConstructor
  | ParmVar
  | Var
  | Function
  | Other
  deriving DecidableEq

/-- What the parser reads from one `clang` declaration: `getNameAsString`,
`getQualifiedNameAsString`, the line that `GetLineAbove` reads, the source text of
`getSourceRange`, and the name of the file entry of its location (`none` when the location
has no file entry). -/
structure DeclInfo where
  name : Str := []
  qualifiedName : Str := []
  lineAbove : Str := []
  source : Str := []
  file : Option Str := none

/-- A declaration with the declarations that the default traversal of its subtree reaches,
in traversal order. -/
inductive Decl where
  | mk (kind : DeclKind) (info : DeclInfo) (children : List Decl)

/-- The call `s.rfind(c, pos)` of `std::string`: the last index at or before `pos` that
holds `c`, and `npos` when there is none. -/
def rfindChar (s : Str) (c : Char) (pos : Nat) : Nat :=
  if (s.take (pos + 1)).reverse.indexOf c < (s.take (pos + 1)).length then
    (s.take (pos + 1)).length - 1 - (s.take (pos + 1)).reverse.indexOf c
  else npos

/-- Does the regular expression `static\s+` match at the start of `s`? -/
def staticMatches (s : Str) : Bool :=
  "static".toList.isPrefixOf s && (s.drop 6).head?.any isspace

/-- The call `std::regex_replace(s, std::regex("static\\s+"), "")`, scanning from left to
right. `skip` counts the characters of a matched `static` still to drop, and `spaces` tells
that the scan is inside the `\s+` of a match, which takes every whitespace that follows. -/
def regexReplaceStatic : Str → Nat → Bool → Str
  | [], _, _ => []
  | _ :: t, skip + 1, _ => regexReplaceStatic t skip true
  | c :: t, 0, spaces =>
    if spaces && isspace c then regexReplaceStatic t 0 true
    else if staticMatches (c :: t) then regexReplaceStatic t 5 true
    else c :: regexReplaceStatic t 0 false

/-- The function `ASTFileParser::GetTypeAsString`. The call `substr(0, n)` cannot throw. -/
def GetTypeAsString (decl : DeclInfo) : Str :=
  let typeString :=
    decl.source.take (rfindChar decl.source ' ' (findStr decl.source decl.name))
  regexReplaceStatic typeString 0 false

/-- The function `ASTFileParser::DeclIsIncluded`. The comparison
`FileEntryRef->getName().str() != path` converts the name to a path and compares two
paths. -/
def DeclIsIncluded (st : ASTFileParser) (decl : DeclInfo) : Bool :=
  match decl.file with
  | some fileName => !pathEqual fileName st.path
  | none => false

/-! ## FileParser.cpp: the Traverse functions

Every function takes `base`, the call of the `RecursiveASTVisitor` function of the same
name (the default traversal of the subtree), and returns the parser after the call; `none`
stands for undefined behaviour: `top` or `pop` of an empty stack, or an index outside
`classes`. The `bool` that the source returns is always `true` and is left out. -/

/-- The function `ASTFileParser::TraverseCXXRecordDecl`. -/
def TraverseCXXRecordDecl (base : ASTFileParser → Option ASTFileParser) (decl : DeclInfo)
    (st : ASTFileParser) : Option ASTFileParser :=
  if DeclIsIncluded st decl then some st
  else
    match GetProperties decl.lineAbove "CGCLASS".toList with
    | none => none
    | some properties =>
      if properties.isEmpty then some st
      else
        let newClass : Class :=
          { name := decl.name, fullNamespace := decl.qualifiedName, path := st.path,
            properties := properties }
        let st1 := { st with
          classes := st.classes ++ [newClass]
          classStack := st.classes.length :: st.classStack }
        match base st1 with
        | none => none
        | some st2 =>
          match st2.classStack with
          | [] => none
          | _ :: rest => some { st2 with classStack := rest }

/-- The function `ASTFileParser::TraverseFieldDecl`. -/
def TraverseFieldDecl (base : ASTFileParser → Option ASTFileParser) (decl : DeclInfo)
    (st : ASTFileParser) : Option ASTFileParser :=
  if DeclIsIncluded st decl then some st
  else
    match GetProperties decl.lineAbove "CGMEMBER".toList with
    | none => none
    | some properties =>
      if properties.isEmpty then some st
      else
        match st.classStack with
        | [] => none
        | top :: _ =>
          match st.classes[top]? with
          | none => none
          | some owner =>
            let var : Variable :=
              { name := decl.name, fullNamespace := decl.qualifiedName, path := st.path,
                type := GetTypeAsString decl, properties := properties }
            base { st with
              classes := st.classes.set top { owner with variables_ := owner.variables_ ++ [var] } }

/-- The teardown of a method or constructor: the function on top of the open-function stack
is appended to the class on top of the open-class stack and popped. -/
def attachToClass (st : ASTFileParser) : Option ASTFileParser :=
  match st.classStack, st.functionStack with
  | top :: _, function :: rest =>
    match st.classes[top]? with
    | none => none
    | some owner =>
      some { st with
        classes := st.classes.set top { owner with functions := owner.functions ++ [function] }
        functionStack := rest }
  | _, _ => none

/-- The function `ASTFileParser::TraverseCXXMethodDecl`. -/
def TraverseCXXMethodDecl (base : ASTFileParser → Option ASTFileParser) (decl : DeclInfo)
    (st : ASTFileParser) : Option ASTFileParser :=
  if DeclIsIncluded st decl then some st
  else
    match GetProperties decl.lineAbove "CGMETHOD".toList with
    | none => none
    | some properties =>
      if properties.isEmpty then some st
      else
        let function : Function :=
          { name := decl.name, fullNamespace := decl.qualifiedName, path := st.path,
            returnType := GetTypeAsString decl, properties := properties }
        match base { st with functionStack := function :: st.functionStack } with
        | none => none
        | some st2 => attachToClass st2

/-- The function `ASTFileParser::TraverseParmVarDecl`. -/
def TraverseParmVarDecl (base : ASTFileParser → Option ASTFileParser) (decl : DeclInfo)
    (st : ASTFileParser) : Option ASTFileParser :=
  if DeclIsIncluded st decl then some st
  else
    match st.functionStack with
    | function :: rest =>
      let var : Variable :=
        { name := decl.name, fullNamespace := decl.qualifiedName, path := st.path,
          type := GetTypeAsString decl }
      base { st with
        functionStack := { function with parameters := function.parameters ++ [var] } :: rest }
    | [] => base { st with skipped_parameters := intIncrement st.skipped_parameters }

/-- The function `ASTFileParser::TraverseCXXConstructorDecl`. -/
def TraverseCXXConstructorDecl (base : ASTFileParser → Option ASTFileParser) (decl : DeclInfo)
    (st : ASTFileParser) : Option ASTFileParser :=
  if DeclIsIncluded st decl then some st
  else
    match GetProperties decl.lineAbove "CGCONSTRUCTOR".toList with
    | none => none
    | some properties =>
      if properties.isEmpty then some st
      else
        let function : Function :=
          { name := decl.name, fullNamespace := decl.qualifiedName, path := st.path,
            returnType := "void".toList, isConstruptor := true, properties := properties }
        match base { st with functionStack := function :: st.functionStack } with
        | none => none
        | some st2 => attachToClass st2

/-- The function `ASTFileParser::TraverseVarDecl`. -/
def TraverseVarDecl (base : ASTFileParser → Option ASTFileParser) (decl : DeclInfo)
    (st : ASTFileParser) : Option ASTFileParser :=
  if DeclIsIncluded st decl then some st
  else
    match GetProperties decl.lineAbove "CGVARIABLE".toList with
    | none => none
    | some properties =>
      if properties.isEmpty then some st
      else
        let var : Variable :=
          { name := decl.name, fullNamespace := decl.qualifiedName, path := st.path,
            type := GetTypeAsString decl, properties := properties }
        base { st with variables_ := st.variables_ ++ [var] }

/-- The function `ASTFileParser::TraverseFunctionDecl`. -/
def TraverseFunctionDecl (base : ASTFileParser → Option ASTFileParser) (decl : DeclInfo)
    (st : ASTFileParser) : Option ASTFileParser :=
  if DeclIsIncluded st decl then some st
  else
    match GetProperties decl.lineAbove "CGFUNCTION".toList with
    | none => none
    | some properties =>
      if properties.isEmpty then some st
      else
        let function : Function :=
          { name := decl.name, fullNamespace := decl.qualifiedName, path := st.path,
            returnType := GetTypeAsString decl, properties := properties }
        match base { st with functionStack := function :: st.functionStack } with
        | none => none
        | some st2 =>
          match st2.functionStack with
          | [] => none
          | top :: rest =>
            some { st2 with functions := st2.functions ++ [top], functionStack := rest }

/-- The dispatch of `RecursiveASTVisitor::TraverseDecl` on the kind of the declaration. -/
def traverseKind (kind : DeclKind) (base : ASTFileParser → Option ASTFileParser)
    (decl : DeclInfo) (st : ASTFileParser) : Option ASTFileParser :=
  match kind with
  | DeclKind.CXXRecord => TraverseCXXRecordDecl base decl st
  | DeclKind.Field => TraverseFieldDecl base decl st
  | DeclKind.CXXMethod => TraverseCXXMethodDecl base decl st
  | DeclKind.CXXConstructor => TraverseCXXConstructorDecl base decl st
  | DeclKind.ParmVar => TraverseParmVarDecl base decl st
  | DeclKind.Var => TraverseVarDecl base decl st
  | DeclKind.Function => TraverseFunctionDecl base decl st
  | DeclKind.Other => base st

mutual
/-- The call `TraverseDecl(d)` of the visitor on the parser `st`. -/
def TraverseDecl : Decl → ASTFileParser → Option ASTFileParser
  | Decl.mk kind info children, st => traverseKind kind (traverseChildren children) info st
/-- The default traversal of a subtree: each declaration it reaches is traversed in turn. -/
def traverseChildren : List Decl → ASTFileParser → Option ASTFileParser
  | [], st => some st
  | d :: ds, st =>
    match TraverseDecl d st with
    | none => none
    | some st1 => traverseChildren ds st1
end

/-- The traversal of `ASTConsumer::HandleTranslationUnit`: a new parser for the main file
`path` traverses the translation unit. -/
def parseUnit (path : Str) (unit : Decl) : Option ASTFileParser :=
  TraverseDecl unit { path := path }

/-- The function `ASTConsumer::HandleTranslationUnit` on the static vector `parsers`: a
parser that found nothing is not kept. -/
def HandleTranslationUnit (parsers : List ASTFileParser) (path : Str) (unit : Decl) :
    Option (List ASTFileParser) :=
  match parseUnit path unit with
  | none => none
  | some parser =>
    if parser.classes.isEmpty && parser.variables_.isEmpty && parser.functions.isEmpty then
      some parsers
    else some (parsers ++ [parser])

/-! ## Specification-side definitions -/

/-- One invocation of a handler by the dispatcher, with the entity it is invoked on. -/
inductive Call where
  | unit (parser : ASTFileParser)
  | function (f : Function)
  | var (v : Variable)
  | class_ (c : Class)
  | method (f : Function)
  | member (v : Variable)

/-- The dispatch order in the words of the specification: the unit once, each top-level
function, each top-level variable, and for each class the class, its methods and its member
variables. -/
def dispatchOrderSpec (parser : ASTFileParser) : List Call :=
  [Call.unit parser] ++ parser.functions.map Call.function ++
    parser.variables_.map Call.var ++
    (parser.classes.map (fun c =>
      [Call.class_ c] ++ c.functions.map Call.method ++ c.variables_.map Call.member)).flatten

/-- Is the handler slot that a call goes to set? -/
def FileGenerator.isSet {σ : Type} (g : FileGenerator σ) : Call → Bool
  | Call.unit _ => g.ParseFile.isSome
  | Call.function _ => g.ParseFunction.isSome
  | Call.var _ => g.ParseVariable.isSome
  | Call.class_ _ => g.ParseClass.isSome
  | Call.method _ => g.ParseMethod.isSome
  | Call.member _ => g.ParseMember.isSome

/-- The effect of one call on the state: the handler of its slot runs on its entity. -/
def FileGenerator.invoke {σ : Type} (g : FileGenerator σ) (s : σ) : Call → σ
  | Call.unit parser => callSlot g.ParseFile s parser
  | Call.function f => callSlot g.ParseFunction s f
  | Call.var v => callSlot g.ParseVariable s v
  | Call.class_ c => callSlot g.ParseClass s c
  | Call.method f => callSlot g.ParseMethod s f
  | Call.member v => callSlot g.ParseMember s v

/-- A handler that records its invocation in a log, installed when `enabled` holds. -/
def recordingSlot {α : Type} (enabled : Bool) (mk : α → Call) :
    Option (List Call → α → List Call) :=
  if enabled then some (fun log x => log ++ [mk x]) else none

/-- The generator whose set handlers do nothing but record their invocation; the six flags
choose the slots that are set. -/
def recorder (onFile onClass onMember onMethod onVariable onFunction : Bool) :
    FileGenerator (List Call) :=
  { ParseFile := recordingSlot onFile Call.unit
    ParseClass := recordingSlot onClass Call.class_
    ParseMember := recordingSlot onMember Call.member
    ParseMethod := recordingSlot onMethod Call.method
    ParseVariable := recordingSlot onVariable Call.var
    ParseFunction := recordingSlot onFunction Call.function }

/-- The text of one function block in the words of the specification: the prefix, the
return type, a space, the key, the parameters as `type name` joined by `, ` between
parentheses, a line with the opening brace, the body lines, a line with the closing brace
and an empty line. -/
def functionBlockSpec (key : Str) (g : FullFunction) : Str :=
  g.prefixText ++ g.header.returnType ++ " ".toList ++ key ++ "(".toList ++
    ", ".toList.intercalate (g.header.parameters.map (fun p => p.type ++ " ".toList ++ p.name)) ++
    ")".toList ++ "\n".toList ++ "\x7b".toList ++ "\n".toList ++
    (g.body.map (fun line => line ++ "\n".toList)).flatten ++
    "\x7d".toList ++ "\n".toList ++ "\n".toList

/-- The layout of a file in the words of the specification: the include lines, one blank
line, the header lines, one blank line, the function blocks. -/
def fileLayoutSpec (file : File) : Str :=
  (file.includes.map (fun p => GetFileInclude p ++ "\n".toList)).flatten ++ "\n".toList ++
    (file.header.map (fun line => line ++ "\n".toList)).flatten ++ "\n".toList ++
    (file.functions.map (fun e => functionBlockSpec e.1 e.2)).flatten

/-- The text of the parameters from index `i` on, as the parameter loop writes it: a
separator follows every parameter but the one at index `total - 1`. -/
def parametersFrom (total : Nat) : Nat → List Variable → Str
  | _, [] => []
  | i, p :: rest =>
    p.type ++ " ".toList ++ p.name ++ (if i != total - 1 then ", ".toList else []) ++
      parametersFrom total (i + 1) rest

/-- The common head of the annotated `Traverse*` functions: a declaration of another file
and a declaration without properties for `keyword` leave the parser as it is; otherwise
`body` runs on the properties. -/
def annotatedStep (st : ASTFileParser) (decl : DeclInfo) (keyword : Str)
    (body : List Property → Option ASTFileParser) : Option ASTFileParser :=
  if DeclIsIncluded st decl then some st
  else
    match GetProperties decl.lineAbove keyword with
    | none => none
    | some properties => if properties.isEmpty then some st else body properties

/-- Two states of the open-function stack with the same open functions: both are empty, or
they agree below the top and the top of the second is the top of the first with parameters
appended. -/
def sameOpen : List Function → List Function → Prop
  | [], [] => True
  | f :: r, g :: r2 => r2 = r ∧ ∃ extra, g = { f with parameters := f.parameters ++ extra }
  | _, _ => False

/-- What a `Traverse*` step keeps: the open-class stack, the open functions, the classes
made so far (the list only grows) and the path. -/
def StacksKept (st st2 : ASTFileParser) : Prop :=
  st2.classStack = st.classStack ∧ sameOpen st.functionStack st2.functionStack ∧
    st.classes.length ≤ st2.classes.length ∧ st2.path = st.path

/-- The kinds whose `Traverse*` reads the top of the open-class stack. -/
def needsClass (kind : DeclKind) : Bool :=
  kind == DeclKind.Field || kind == DeclKind.CXXMethod || kind == DeclKind.CXXConstructor

mutual
/-- A declaration tree in which fields, methods and constructors occur only as children of
class-like declarations; `underRecord` tells that the parent is class-like. Every line read
by `GetLineAbove` is a `std::string`, so shorter than `npos`. -/
def Decl.scoped (underRecord : Bool) : Decl → Bool
  | Decl.mk kind info children =>
    decide (info.lineAbove.length < npos) && (!needsClass kind || underRecord) &&
      scopedChildren (kind == DeclKind.CXXRecord) children
/-- Every declaration of the list is `scoped`. -/
def scopedChildren (underRecord : Bool) : List Decl → Bool
  | [] => true
  | d :: ds => d.scoped underRecord && scopedChildren underRecord ds
end

/-- Every index on the open-class stack is an index of `classes`. -/
def ClassStackValid (st : ASTFileParser) : Prop :=
  ∀ i ∈ st.classStack, i < st.classes.length

/-- The record that `TraverseParmVarDecl` makes of a parameter declaration. -/
def parameterOf (path : Str) (decl : DeclInfo) : Variable :=
  { name := decl.name, fullNamespace := decl.qualifiedName, path := path,
    type := GetTypeAsString decl }

/-- The record that `TraverseFieldDecl` and `TraverseVarDecl` make of a declaration with
the properties `ps`. -/
def variableOf (path : Str) (decl : DeclInfo) (ps : List Property) : Variable :=
  { name := decl.name, fullNamespace := decl.qualifiedName, path := path,
    type := GetTypeAsString decl, properties := ps }

/-- The record that `TraverseCXXMethodDecl` and `TraverseFunctionDecl` make of a declaration
with the properties `ps`, once it holds the parameters `parameters`. -/
def functionOf (path : Str) (decl : DeclInfo) (ps : List Property)
    (parameters : List Variable) : Function :=
  { name := decl.name, fullNamespace := decl.qualifiedName, path := path,
    returnType := GetTypeAsString decl, properties := ps, parameters := parameters }

/-- The record that `TraverseCXXConstructorDecl` makes of a declaration with the properties
`ps`, once it holds the parameters `parameters`. -/
def constructorOf (path : Str) (decl : DeclInfo) (ps : List Property)
    (parameters : List Variable) : Function :=
  { name := decl.name, fullNamespace := decl.qualifiedName, path := path,
    returnType := "void".toList, isConstruptor := true, properties := ps,
    parameters := parameters }

/-- The record that `TraverseCXXRecordDecl` makes of a declaration with the properties `ps`,
once it holds the fields `fields` and the methods `methods`. -/
def classOf (path : Str) (decl : DeclInfo) (ps : List Property) (fields : List Variable)
    (methods : List Function) : Class :=
  { name := decl.name, fullNamespace := decl.qualifiedName, path := path, properties := ps,
    variables_ := fields, functions := methods }

/-- A parameter declaration without declarations below it. -/
def parmLeaf (decl : DeclInfo) : Decl := Decl.mk DeclKind.ParmVar decl []

/-- A function record with properties whose parameters have none. -/
def FunctionAnnotated (f : Function) : Prop :=
  f.properties ≠ [] ∧ ∀ q ∈ f.parameters, q.properties = []

/-- A class record with properties whose fields have properties and whose methods are
`FunctionAnnotated`. -/
def ClassAnnotated (c : Class) : Prop :=
  c.properties ≠ [] ∧ (∀ v ∈ c.variables_, v.properties ≠ []) ∧
    ∀ f ∈ c.functions, FunctionAnnotated f

/-- The properties of the records of a parser: every class, every function (of a class, of
the top level, or still open) and every field and top-level variable has a non-empty
property list, and every parameter has an empty one. -/
def ModelAnnotated (parser : ASTFileParser) : Prop :=
  (∀ c ∈ parser.classes, ClassAnnotated c) ∧ (∀ f ∈ parser.functions, FunctionAnnotated f) ∧
    (∀ v ∈ parser.variables_, v.properties ≠ []) ∧
    (∀ f ∈ parser.functionStack, FunctionAnnotated f)

/-- The unit of the end-to-end scenario: the class `Foo` below the line
`CGCLASS(LuaClass)`, with the member `bar` below the line `CGMEMBER(LuaInspect)`, in the
file `path`. -/
def fooUnit (path : Str) : Decl :=
  Decl.mk DeclKind.Other {}
    [Decl.mk DeclKind.CXXRecord
      { name := "Foo".toList, qualifiedName := "Foo".toList,
        lineAbove := "CGCLASS(LuaClass)".toList, source := "class Foo".toList,
        file := some path }
      [Decl.mk DeclKind.Field
        { name := "bar".toList, qualifiedName := "Foo::bar".toList,
          lineAbove := "    CGMEMBER(LuaInspect)".toList, source := "int bar".toList,
          file := some path } []]]

/-- The member `bar` of the end-to-end scenario, as a record of the model. -/
def barVariable (path : Str) : Variable :=
  { name := "bar".toList, fullNamespace := "Foo::bar".toList, path := path,
    type := "int".toList,
    properties := [{ name := "CGMEMBER".toList },
      { name := "LuaInspect".toList, value := PropertyValue.str "LuaInspect".toList }] }

/-- The class `Foo` of the end-to-end scenario, as a record of the model. -/
def fooClass (path : Str) : Class :=
  { name := "Foo".toList, fullNamespace := "Foo".toList, path := path,
    properties := [{ name := "CGCLASS".toList },
      { name := "LuaClass".toList, value := PropertyValue.str "LuaClass".toList }],
    variables_ := [barVariable path] }

/-- The value of the global `currentClass` in a state of the dispatch: `none` is the null
pointer (or a state after a fault). -/
def observedClass (s : Option GenState) : Option Class :=
  s.bind (fun st => st.currentClass)

/-- The generator of `main` under observation: the three handlers are those of
`mainGenerator`, and the member and method handlers also record, on entry, the entity they
are invoked on and the value of `currentClass` that they are about to read. -/
def observingGenerator : FileGenerator (Option GenState × List (Call × Option Class)) :=
  { ParseClass := some (fun s class_ => (callSlot mainGenerator.ParseClass s.1 class_, s.2))
    ParseMember := some (fun s var =>
      (callSlot mainGenerator.ParseMember s.1 var, s.2 ++ [(Call.member var, observedClass s.1)]))
    ParseMethod := some (fun s function =>
      (callSlot mainGenerator.ParseMethod s.1 function,
        s.2 ++ [(Call.method function, observedClass s.1)])) }

/-! ## Lemmas on paths -/

theorem pathEqual_iff (a b : Str) : pathEqual a b = true ↔ pathParts a = pathParts b := by
  unfold pathEqual
  exact decide_eq_true_iff

theorem pathEqual_eq_false_iff (a b : Str) :
    pathEqual a b = false ↔ pathParts a ≠ pathParts b := by
  unfold pathEqual
  exact decide_eq_false_iff_not

theorem pathEqual_self (a : Str) : pathEqual a a = true :=
  (pathEqual_iff a a).mpr rfl

theorem pathEqual_symm (a b : Str) (h : pathEqual a b = true) : pathEqual b a = true :=
  (pathEqual_iff b a).mpr ((pathEqual_iff a b).mp h).symm

theorem pathEqual_trans (a b c : Str) (h1 : pathEqual a b = true) (h2 : pathEqual b c = true) :
    pathEqual a c = true :=
  (pathEqual_iff a c).mpr (((pathEqual_iff a b).mp h1).trans ((pathEqual_iff b c).mp h2))

/-! ## Lemmas on strings -/

theorem npos_eq : npos = 18446744073709551615 := by decide

theorem sizeMod_eq : sizeMod = 18446744073709551616 := by decide

theorem findStrFrom_ge (pat s : Str) (i : Nat) :
    findStrFrom pat s i = npos ∨ i ≤ findStrFrom pat s i := by
  induction s generalizing i with
  | nil =>
    unfold findStrFrom
    split
    · exact Or.inr (Nat.le_refl i)
    · exact Or.inl rfl
  | cons c t ih =>
    unfold findStrFrom
    split
    · exact Or.inr (Nat.le_refl i)
    · rcases ih (i + 1) with h | h
      · exact Or.inl h
      · exact Or.inr (by omega)

theorem findStr_eq_zero_iff (s pat : Str) : findStr s pat = 0 ↔ pat <+: s := by
  unfold findStr
  cases s with
  | nil =>
    unfold findStrFrom
    by_cases h : pat.isPrefixOf [] = true
    · rw [if_pos h]
      exact ⟨fun _ => List.isPrefixOf_iff_prefix.mp h, fun _ => rfl⟩
    · rw [if_neg h]
      constructor
      · intro h0
        rw [npos_eq] at h0
        exact absurd h0 (by decide)
      · intro hp
        exact absurd (List.isPrefixOf_iff_prefix.mpr hp) h
  | cons c t =>
    unfold findStrFrom
    by_cases h : pat.isPrefixOf (c :: t) = true
    · rw [if_pos h]
      exact ⟨fun _ => List.isPrefixOf_iff_prefix.mp h, fun _ => rfl⟩
    · rw [if_neg h]
      constructor
      · intro h0
        rcases findStrFrom_ge pat t (0 + 1) with h1 | h1
        · rw [h1, npos_eq] at h0
          exact absurd h0 (by decide)
        · omega
      · intro hp
        exact absurd (List.isPrefixOf_iff_prefix.mpr hp) h

theorem substr_of_le (s : Str) (pos count : Nat) (h : pos ≤ s.length) :
    substr s pos count = some ((s.drop pos).take count) := by
  unfold substr
  rw [if_neg (by omega)]

theorem findChar_of_mem (s : Str) (c : Char) (pos : Nat) (h : c ∈ s.drop pos) :
    findChar s c pos = pos + (s.drop pos).indexOf c := by
  unfold findChar
  rw [if_pos (List.indexOf_lt_length.mpr h)]

theorem findChar_of_not_mem (s : Str) (c : Char) (pos : Nat) (h : c ∉ s.drop pos) :
    findChar s c pos = npos := by
  unfold findChar
  rw [if_neg (by rw [List.indexOf_lt_length]; exact h)]

theorem drop_indexOf (c : Char) (l : Str) (h : c ∈ l) :
    l.drop (l.indexOf c) = c :: l.drop (l.indexOf c + 1) := by
  have hlt : l.indexOf c < l.length := List.indexOf_lt_length.mpr h
  rw [List.drop_eq_getElem_cons hlt, List.getElem_indexOf hlt]

/-! ## Lemmas on the comma split -/

theorem splitOnChar_ne_nil (c : Char) (s : Str) : splitOnChar c s ≠ [] := by
  cases s with
  | nil => simp [splitOnChar]
  | cons x xs =>
    unfold splitOnChar
    split
    · simp
    · split <;> simp

theorem splitOnChar_of_not_mem (c : Char) (s : Str) (h : c ∉ s) : splitOnChar c s = [s] := by
  induction s with
  | nil => rfl
  | cons x xs ih =>
    have hx : x ≠ c := fun e => h (by rw [e]; exact List.mem_cons_self c xs)
    have hxs : c ∉ xs := fun e => h (List.mem_cons_of_mem x e)
    unfold splitOnChar
    rw [if_neg hx, ih hxs]

theorem splitOnChar_cons (c x : Char) (xs : Str) :
    splitOnChar c (x :: xs) =
      if x = c then [] :: splitOnChar c xs
      else
        match splitOnChar c xs with
        | [] => [[x]]
        | h :: t => (x :: h) :: t := by
  rw [splitOnChar]

theorem splitOnChar_of_mem (c : Char) (s : Str) (h : c ∈ s) :
    splitOnChar c s = s.take (s.indexOf c) :: splitOnChar c (s.drop (s.indexOf c + 1)) := by
  induction s with
  | nil => exact absurd h (List.not_mem_nil c)
  | cons x xs ih =>
    by_cases hx : x = c
    · rw [splitOnChar_cons, if_pos hx, List.indexOf_cons_eq xs hx]
      rfl
    · have hxs : c ∈ xs := by
        rcases List.mem_cons.mp h with e | e
        · exact absurd e.symm hx
        · exact e
      rw [splitOnChar_cons, if_neg hx, ih hxs, List.indexOf_cons_ne xs hx]
      rfl

theorem splitOnChar_length_le (c : Char) (s : Str) :
    ∀ e ∈ splitOnChar c s, e.length ≤ s.length := by
  induction s with
  | nil =>
    intro e he
    simp [splitOnChar] at he
    simp [he]
  | cons x xs ih =>
    intro e he
    unfold splitOnChar at he
    split at he
    · rcases List.mem_cons.mp he with h1 | h1
      · simp [h1]
      · have := ih e h1
        simp only [List.length_cons]
        omega
    · split at he
      · simp at he
        simp [he]
      · rename_i h t heq
        rcases List.mem_cons.mp he with h1 | h1
        · have := ih h (by rw [heq]; exact List.mem_cons_self h t)
          simp only [h1, List.length_cons]
          omega
        · have := ih e (by rw [heq]; exact List.mem_cons_of_mem h h1)
          simp only [List.length_cons]
          omega

theorem splitLoop_eq (s : Str) (hs : s.length < npos) :
    ∀ (fuel pos : Nat) (acc : List Str), pos ≤ s.length → s.length - pos < fuel →
      splitLoop s fuel pos pos acc = some (acc ++ splitOnChar ',' (s.drop pos)) := by
  intro fuel
  induction fuel with
  | zero => intro pos acc _ h; omega
  | succ fuel ih =>
    intro pos acc hpos hfuel
    unfold splitLoop
    by_cases hm : ',' ∈ s.drop pos
    · have hlt : (s.drop pos).indexOf ',' < (s.drop pos).length := List.indexOf_lt_length.mpr hm
      have hlen : (s.drop pos).length = s.length - pos := List.length_drop pos s
      have hfind := findChar_of_mem s ',' pos hm
      rw [npos_eq] at hs
      have hne : (findChar s ',' pos != npos) = true := by
        rw [hfind, npos_eq]
        simp only [bne_iff_ne, ne_eq]
        omega
      have hsub : szSub (findChar s ',' pos) pos = (s.drop pos).indexOf ',' := by
        rw [hfind]
        simp only [szSub, sizeMod_eq]
        omega
      have hadd : szAdd (findChar s ',' pos) 1 = pos + (s.drop pos).indexOf ',' + 1 := by
        rw [hfind]
        simp only [szAdd, sizeMod_eq]
        omega
      simp only [hne, if_true, hsub, hadd, substr_of_le s pos _ hpos]
      rw [ih _ _ (by omega) (by omega), splitOnChar_of_mem ',' _ hm]
      simp only [List.drop_drop, List.append_assoc, List.singleton_append]
      have e1 : pos + (List.indexOf ',' (List.drop pos s) + 1)
          = pos + List.indexOf ',' (List.drop pos s) + 1 := by omega
      rw [e1]
    · have hfind := findChar_of_not_mem s ',' pos hm
      have hlen : (s.drop pos).length = s.length - pos := List.length_drop pos s
      have hne : (findChar s ',' pos != npos) = false := by
        rw [hfind]
        simp
      rw [npos_eq] at hs
      have hsub : szSub (findChar s ',' pos) pos = 18446744073709551615 - pos := by
        rw [hfind]
        simp only [szSub, sizeMod_eq, npos_eq]
        omega
      simp only [hne, hsub, substr_of_le s pos _ hpos]
      rw [List.take_of_length_le (by omega), splitOnChar_of_not_mem ',' _ hm]
      simp

/-! ## Lemmas on GetProperties -/

theorem parseEntry_eq (e : Str) (he : e.length < npos) :
    parseEntry e = some (entryProperty e) := by
  rw [npos_eq] at he
  unfold parseEntry entryProperty
  by_cases hm : '=' ∈ e
  · have hlt : e.indexOf '=' < e.length := List.indexOf_lt_length.mpr hm
    have hfind : findChar e '=' 0 = e.indexOf '=' := by
      rw [findChar_of_mem e '=' 0 (by simpa using hm)]
      simp
    have hadd : szAdd (e.indexOf '=') 1 = e.indexOf '=' + 1 := by
      simp only [szAdd, sizeMod_eq]
      omega
    simp only [hfind, hadd, substr_of_le e 0 _ (Nat.zero_le _),
      substr_of_le e (e.indexOf '=' + 1) _ (show e.indexOf '=' + 1 ≤ e.length from hlt),
      if_pos hlt, List.drop_zero]
    rw [List.take_of_length_le (l := List.drop (List.indexOf '=' e + 1) e)
      (by rw [List.length_drop, npos_eq]; omega)]
  · have hnl : ¬ e.indexOf '=' < e.length := by
      rw [List.indexOf_lt_length]
      exact hm
    have hidx : e.indexOf '=' = e.length := List.indexOf_eq_length.mpr hm
    have hfind : findChar e '=' 0 = npos :=
      findChar_of_not_mem e '=' 0 (by simpa using hm)
    have hadd : szAdd npos 1 = 0 := by decide
    simp only [hfind, hadd, substr_of_le e 0 _ (Nat.zero_le _), if_neg hnl, List.drop_zero]
    rw [List.take_of_length_le (l := e) (by rw [npos_eq]; omega), hidx, List.take_length]

theorem parseEntries_eq (es : List Str) (hes : ∀ e ∈ es, e.length < npos) :
    ∀ result : List Property,
      parseEntries es result = some (result ++ es.map entryProperty) := by
  induction es with
  | nil => intro result; simp [parseEntries]
  | cons e rest ih =>
    intro result
    unfold parseEntries
    rw [parseEntry_eq e (hes e (List.mem_cons_self e rest))]
    simp only
    rw [ih (fun x hx => hes x (List.mem_cons_of_mem e hx))]
    simp

theorem directiveString_eq (line : Str) (hl : line.length < npos) :
    substr line (szAdd (findChar line '(' 0) 1)
        (szSub (szSub (findChar line ')' (findChar line '(' 0)) (findChar line '(' 0)) 1)
      = some (directiveList line) := by
  rw [npos_eq] at hl
  unfold directiveList
  by_cases hm : '(' ∈ line
  · have hlt : line.indexOf '(' < line.length := List.indexOf_lt_length.mpr hm
    have hopen : findChar line '(' 0 = line.indexOf '(' := by
      rw [findChar_of_mem line '(' 0 (by simpa using hm)]
      simp
    have hadd : szAdd (line.indexOf '(') 1 = line.indexOf '(' + 1 := by
      simp only [szAdd, sizeMod_eq]
      omega
    have hdrop := drop_indexOf '(' line hm
    have hrlen : (line.drop (line.indexOf '(' + 1)).length = line.length - (line.indexOf '(' + 1) :=
      List.length_drop _ _
    rw [hopen, hadd,
      substr_of_le line _ _ (show line.indexOf '(' + 1 ≤ line.length from hlt), if_pos hlt]
    by_cases hc : ')' ∈ line.drop (line.indexOf '(' + 1)
    · have hc2 : ')' ∈ line.drop (line.indexOf '(') := by
        rw [hdrop]
        exact List.mem_cons_of_mem _ hc
      have hclt := List.indexOf_lt_length.mpr hc
      have hidx : (line.drop (line.indexOf '(')).indexOf ')'
          = (line.drop (line.indexOf '(' + 1)).indexOf ')' + 1 := by
        rw [hdrop, List.indexOf_cons_ne _ (by decide)]
      rw [findChar_of_mem line ')' _ hc2, hidx]
      have hsub : szSub (szSub (line.indexOf '(' + ((line.drop (line.indexOf '(' + 1)).indexOf ')' + 1))
          (line.indexOf '(')) 1 = (line.drop (line.indexOf '(' + 1)).indexOf ')' := by
        simp only [szSub, sizeMod_eq]
        omega
      rw [hsub]
    · have hc2 : ')' ∉ line.drop (line.indexOf '(') := by
        rw [hdrop]
        intro hmem
        rcases List.mem_cons.mp hmem with e | e
        · exact absurd e (by decide)
        · exact hc e
      rw [findChar_of_not_mem line ')' _ hc2]
      have hsub : szSub (szSub npos (line.indexOf '(')) 1
          = 18446744073709551615 - line.indexOf '(' - 1 := by
        simp only [szSub, sizeMod_eq, npos_eq]
        omega
      rw [hsub, List.take_of_length_le (by omega), List.indexOf_eq_length.mpr hc,
        List.take_length]
  · have hnl : ¬ line.indexOf '(' < line.length := by
      rw [List.indexOf_lt_length]
      exact hm
    have hopen : findChar line '(' 0 = npos :=
      findChar_of_not_mem line '(' 0 (by simpa using hm)
    have hclose : findChar line ')' npos = npos := by
      apply findChar_of_not_mem
      rw [List.drop_eq_nil_of_le (by rw [npos_eq]; omega)]
      exact List.not_mem_nil _
    have hadd : szAdd npos 1 = 0 := by decide
    have hsub : szSub (szSub npos npos) 1 = npos := by decide
    rw [hopen, hclose, hadd, hsub, substr_of_le line 0 _ (Nat.zero_le _), if_neg hnl,
      List.drop_zero, List.take_of_length_le (by rw [npos_eq]; omega)]

theorem directiveList_length_le (line : Str) : (directiveList line).length ≤ line.length := by
  unfold directiveList
  split
  · simp only [List.length_take, List.length_drop]
    omega
  · exact Nat.le_refl _

theorem eraseLeadingSpaces_length_le (line : Str) :
    (eraseLeadingSpaces line).length ≤ line.length := by
  unfold eraseLeadingSpaces
  induction line with
  | nil => simp
  | cons c t ih =>
    rw [List.dropWhile_cons]
    split
    · simp only [List.length_cons]
      omega
    · exact Nat.le_refl _

/-- The closed form of `GetProperties`: no call of `substr` throws, the loops end, and the
result is the sentinel followed by one property per comma-separated entry. -/
theorem GetProperties_eq (line keyword : Str) (hl : line.length < npos) :
    GetProperties line keyword =
      some (if keyword <+: eraseLeadingSpaces line then
        { name := keyword, value := PropertyValue.str [] } ::
          (splitOnChar ',' (directiveList (eraseLeadingSpaces line))).map entryProperty
      else []) := by
  have hl2 : (eraseLeadingSpaces line).length < npos :=
    Nat.lt_of_le_of_lt (eraseLeadingSpaces_length_le line) hl
  have hl3 : (directiveList (eraseLeadingSpaces line)).length < npos :=
    Nat.lt_of_le_of_lt (directiveList_length_le _) hl2
  unfold GetProperties
  by_cases hp : keyword <+: eraseLeadingSpaces line
  · have h0 : findStr (eraseLeadingSpaces line) keyword = 0 :=
      (findStr_eq_zero_iff _ _).mpr hp
    simp only [h0, bne_self_eq_false, Bool.false_eq_true, if_false, if_pos hp,
      directiveString_eq _ hl2]
    rw [splitLoop_eq _ hl3 _ 0 [] (Nat.zero_le _) (by omega)]
    simp only [List.drop_zero, List.nil_append]
    rw [parseEntries_eq _ (fun e he =>
      Nat.lt_of_le_of_lt (splitOnChar_length_le ',' _ e he) hl3)]
    rfl
  · have h0 : findStr (eraseLeadingSpaces line) keyword ≠ 0 :=
      fun h => hp ((findStr_eq_zero_iff _ _).mp h)
    have h1 : (findStr (eraseLeadingSpaces line) keyword != 0) = true := by
      simpa using h0
    simp only [h1, if_true, if_neg hp]

theorem eraseLeadingSpaces_append (ws t : Str) (hws : ∀ c ∈ ws, isspace c = true)
    (ht : ∀ c ∈ t.head?, isspace c = false) : eraseLeadingSpaces (ws ++ t) = t := by
  unfold eraseLeadingSpaces
  rw [List.dropWhile_append_of_pos hws]
  cases t with
  | nil => rfl
  | cons c r =>
    have hc : isspace c = false := ht c (by simp)
    rw [List.dropWhile_cons]
    simp [hc]

theorem removeSpaces_no_space (s : Str) : ∀ c ∈ removeSpaces s, isspace c = false := by
  intro c hc
  unfold removeSpaces at hc
  have := (List.mem_filter.mp hc).2
  simpa using this

/-! ## The property parser -/

/-- C1: for a keyword `K` without whitespace or parentheses and a line made of leading
whitespace, `K`, and a parenthesised list, `GetProperties` returns a non-empty list whose
first element has the name `K` and the empty string as its value. -/
theorem GetProperties_directive_head (ws K inner rest : Str)
    (hws : ∀ c ∈ ws, isspace c = true)
    (hK : ∀ c ∈ K, isspace c = false ∧ c ≠ '(' ∧ c ≠ ')')
    (hlen : (ws ++ (K ++ ('(' :: (inner ++ (')' :: rest))))).length < npos) :
    ∃ tail, GetProperties (ws ++ (K ++ ('(' :: (inner ++ (')' :: rest))))) K
      = some ({ name := K, value := PropertyValue.str [] } :: tail) := by
  have htrim : eraseLeadingSpaces (ws ++ (K ++ ('(' :: (inner ++ (')' :: rest)))))
      = K ++ ('(' :: (inner ++ (')' :: rest))) := by
    apply eraseLeadingSpaces_append ws _ hws
    intro c hc
    cases K with
    | nil =>
      simp only [List.nil_append, List.head?_cons, Option.mem_def, Option.some.injEq] at hc
      rw [← hc]
      decide
    | cons k K1 =>
      simp only [List.cons_append, List.head?_cons, Option.mem_def, Option.some.injEq] at hc
      rw [← hc]
      exact (hK k (List.mem_cons_self k K1)).1
  rw [GetProperties_eq _ _ hlen, htrim, if_pos (List.prefix_append K _)]
  exact ⟨_, rfl⟩

theorem GetProperties_directive_head_witness :
    ∃ tail, GetProperties "  CGCLASS(LuaClass)".toList "CGCLASS".toList
      = some ({ name := "CGCLASS".toList, value := PropertyValue.str [] } :: tail) :=
  GetProperties_directive_head "  ".toList "CGCLASS".toList "LuaClass".toList []
    (by decide) (by decide) (by decide)

/-- C2: when the line, after its leading whitespace is removed, does not start with the
keyword, `GetProperties` returns the empty list; the empty line is such a line for every
non-empty keyword. -/
theorem GetProperties_keyword_mismatch (line K : Str)
    (h : ¬ K <+: eraseLeadingSpaces line) : GetProperties line K = some [] := by
  have h0 : findStr (eraseLeadingSpaces line) K ≠ 0 :=
    fun e => h ((findStr_eq_zero_iff _ _).mp e)
  have h1 : (findStr (eraseLeadingSpaces line) K != 0) = true := by
    simpa using h0
  unfold GetProperties
  simp only [h1, if_true]

theorem GetProperties_keyword_mismatch_witness :
    GetProperties [] "CGCLASS".toList = some []
      ∧ GetProperties "  class Foo".toList "CGCLASS".toList = some [] :=
  ⟨GetProperties_keyword_mismatch [] "CGCLASS".toList (by decide),
    GetProperties_keyword_mismatch "  class Foo".toList "CGCLASS".toList (by decide)⟩

/-- C3 (the code at the failing input): the entry `b` of `CGMEMBER(a=1,b)` has no `=`, and
the property parsed from it has the value `b`, not the empty string. -/
theorem GetProperties_entry_without_equals :
    GetProperties "CGMEMBER(a=1,b)".toList "CGMEMBER".toList
      = some [{ name := "CGMEMBER".toList, value := PropertyValue.str [] },
              { name := "a".toList, value := PropertyValue.str "1".toList },
              { name := "b".toList, value := PropertyValue.str "b".toList }] := by
  rfl

/-- C4 (the code at the failing input): the line `CGCLASS` has the keyword and no
parentheses, and `GetProperties` returns two properties, not the empty list. -/
theorem GetProperties_without_parentheses :
    GetProperties "CGCLASS".toList "CGCLASS".toList
      = some [{ name := "CGCLASS".toList, value := PropertyValue.str [] },
              { name := "CGCLASS".toList, value := PropertyValue.str "CGCLASS".toList }] := by
  rfl

/-- C5: for a keyword without whitespace, `GetProperties` returns a list, and no name and
no string value of a property in it contains a whitespace character. -/
theorem GetProperties_tokens_without_whitespace (line K : Str)
    (hK : ∀ c ∈ K, isspace c = false) (hlen : line.length < npos) :
    ∃ ps, GetProperties line K = some ps ∧
      ∀ p ∈ ps, (∀ c ∈ p.name, isspace c = false) ∧
        (∀ s, p.value = PropertyValue.str s → ∀ c ∈ s, isspace c = false) := by
  refine ⟨_, GetProperties_eq line K hlen, ?_⟩
  intro p hp
  split at hp
  · rcases List.mem_cons.mp hp with h1 | h1
    · subst h1
      refine ⟨hK, ?_⟩
      intro s hs c hc
      simp only [PropertyValue.str.injEq] at hs
      rw [← hs] at hc
      exact absurd hc (List.not_mem_nil c)
    · obtain ⟨e, _, he⟩ := List.mem_map.mp h1
      subst he
      refine ⟨removeSpaces_no_space _, ?_⟩
      intro s hs
      simp only [entryProperty, PropertyValue.str.injEq] at hs
      rw [← hs]
      exact removeSpaces_no_space _
  · exact absurd hp (List.not_mem_nil p)

theorem GetProperties_tokens_without_whitespace_witness :
    ∃ ps, GetProperties "CGMEMBER( a b = 1 2 , c d )".toList "CGMEMBER".toList = some ps ∧
      ∀ p ∈ ps, (∀ c ∈ p.name, isspace c = false) ∧
        (∀ s, p.value = PropertyValue.str s → ∀ c ∈ s, isspace c = false) :=
  GetProperties_tokens_without_whitespace "CGMEMBER( a b = 1 2 , c d )".toList
    "CGMEMBER".toList (by decide) (by decide)

/-! ## Function::AddVariable -/

theorem hasParameterNamed_iff (ps : List Variable) (n : Str) :
    hasParameterNamed ps n = true ↔ ∃ p ∈ ps, p.name = n := by
  induction ps with
  | nil => simp [hasParameterNamed]
  | cons q r ih =>
    unfold hasParameterNamed
    by_cases hq : q.name = n
    · simp [hq]
    · simp [hq, ih]

theorem AddVariable_of_present (f : Function) (v : Variable)
    (h : ∃ p ∈ f.parameters, p.name = v.name) : f.AddVariable v = f := by
  unfold Function.AddVariable
  rw [if_pos ((hasParameterNamed_iff _ _).mpr h)]

theorem AddVariable_of_absent (f : Function) (v : Variable)
    (h : ∀ p ∈ f.parameters, p.name ≠ v.name) :
    f.AddVariable v = { f with parameters := f.parameters ++ [v] } := by
  unfold Function.AddVariable
  have hn : ¬ hasParameterNamed f.parameters v.name = true := by
    rw [hasParameterNamed_iff]
    rintro ⟨p, hp, e⟩
    exact h p hp e
  rw [if_neg hn]

/-- C6: `Function::AddVariable` leaves the function unchanged when a parameter already has
the name of the variable and otherwise appends the variable as the last parameter; a second
insertion under a used name changes nothing, and pairwise distinct parameter names stay
pairwise distinct. -/
theorem AddVariable_spec (f : Function) (v : Variable) :
    ((∃ p ∈ f.parameters, p.name = v.name) → f.AddVariable v = f) ∧
    ((∀ p ∈ f.parameters, p.name ≠ v.name) →
      f.AddVariable v = { f with parameters := f.parameters ++ [v] }) ∧
    (∀ w : Variable, w.name = v.name →
      (f.AddVariable v).AddVariable w = f.AddVariable v ∧
      ((f.AddVariable v).AddVariable w).parameters.length
        = (f.AddVariable v).parameters.length) ∧
    ((f.parameters.map (fun p => p.name)).Nodup →
      ((f.AddVariable v).parameters.map (fun p => p.name)).Nodup) := by
  refine ⟨AddVariable_of_present f v, AddVariable_of_absent f v, ?_, ?_⟩
  · intro w hw
    have hpres : ∃ p ∈ (f.AddVariable v).parameters, p.name = w.name := by
      by_cases h : ∃ p ∈ f.parameters, p.name = v.name
      · rw [AddVariable_of_present f v h]
        obtain ⟨p, hp, e⟩ := h
        exact ⟨p, hp, e.trans hw.symm⟩
      · have h2 : ∀ p ∈ f.parameters, p.name ≠ v.name := fun p hp e => h ⟨p, hp, e⟩
        rw [AddVariable_of_absent f v h2]
        exact ⟨v, by simp, hw.symm⟩
    rw [AddVariable_of_present _ w hpres]
    exact ⟨rfl, rfl⟩
  · intro hnd
    by_cases h : ∃ p ∈ f.parameters, p.name = v.name
    · rw [AddVariable_of_present f v h]
      exact hnd
    · have h2 : ∀ p ∈ f.parameters, p.name ≠ v.name := fun p hp e => h ⟨p, hp, e⟩
      rw [AddVariable_of_absent f v h2]
      simp only [List.map_append, List.map_cons, List.map_nil]
      rw [List.nodup_append]
      refine ⟨hnd, List.nodup_singleton _, ?_⟩
      intro a ha hb
      rw [List.mem_singleton] at hb
      obtain ⟨p, hp, e⟩ := List.mem_map.mp ha
      exact h2 p hp (e.trans hb)

theorem AddVariable_spec_witness :
    (({ parameters := [Variable.make "int".toList "a".toList] } : Function).AddVariable
        (Variable.make "float".toList "a".toList)).parameters
      = [Variable.make "int".toList "a".toList] ∧
    (({ parameters := [Variable.make "int".toList "a".toList] } : Function).AddVariable
        (Variable.make "float".toList "b".toList)).parameters
      = [Variable.make "int".toList "a".toList, Variable.make "float".toList "b".toList] :=
  ⟨congrArg Function.parameters
      ((AddVariable_spec { parameters := [Variable.make "int".toList "a".toList] }
        (Variable.make "float".toList "a".toList)).1
        ⟨Variable.make "int".toList "a".toList, by simp, rfl⟩),
    congrArg Function.parameters
      ((AddVariable_spec { parameters := [Variable.make "int".toList "a".toList] }
        (Variable.make "float".toList "b".toList)).2.1
        (by
          intro p hp
          rw [List.mem_singleton.mp hp]
          decide))⟩

/-! ## FileGenerator::Parse -/

theorem callSlot_of_not_set {σ α : Type} (slot : Option (σ → α → σ)) (s : σ) (x : α)
    (h : slot.isSome = false) : callSlot slot s x = s := by
  cases slot with
  | none => rfl
  | some handler => simp at h

theorem invoke_of_not_set {σ : Type} (g : FileGenerator σ) (s : σ) (c : Call)
    (h : g.isSet c = false) : g.invoke s c = s := by
  cases c <;> exact callSlot_of_not_set _ s _ h

theorem foldl_invoke_filter {σ : Type} (g : FileGenerator σ) (calls : List Call) :
    ∀ s : σ, (calls.filter g.isSet).foldl g.invoke s = calls.foldl g.invoke s := by
  induction calls with
  | nil => intro s; rfl
  | cons c rest ih =>
    intro s
    by_cases h : g.isSet c = true
    · rw [List.filter_cons_of_pos h, List.foldl_cons, List.foldl_cons, ih]
    · have h2 : g.isSet c = false := by simpa using h
      rw [List.filter_cons_of_neg h, List.foldl_cons, invoke_of_not_set g s c h2, ih]

theorem foldl_invoke_classes {σ : Type} (g : FileGenerator σ) (classes : List Class) :
    ∀ s : σ,
      classes.foldl (fun st class_ =>
        class_.variables_.foldl (fun u var => callSlot g.ParseMember u var)
          (class_.functions.foldl (fun u function => callSlot g.ParseMethod u function)
            (callSlot g.ParseClass st class_))) s
      = (classes.map (fun c =>
          [Call.class_ c] ++ c.functions.map Call.method ++
            c.variables_.map Call.member)).flatten.foldl g.invoke s := by
  induction classes with
  | nil => intro s; rfl
  | cons c rest ih =>
    intro s
    rw [List.foldl_cons, ih, List.map_cons, List.flatten_cons, List.foldl_append,
      List.foldl_append, List.foldl_append, List.foldl_map, List.foldl_map]
    rfl

theorem Parse_eq_foldl {σ : Type} (g : FileGenerator σ) (parser : ASTFileParser) (s : σ) :
    g.Parse parser s = (dispatchOrderSpec parser).foldl g.invoke s := by
  unfold FileGenerator.Parse dispatchOrderSpec
  simp only []
  rw [foldl_invoke_classes, List.foldl_append, List.foldl_append, List.foldl_append,
    List.foldl_map, List.foldl_map]
  rfl

theorem recorder_invoke (a b c d e f : Bool) (log : List Call) (x : Call) :
    (recorder a b c d e f).isSet x = true →
      (recorder a b c d e f).invoke log x = log ++ [x] := by
  intro h
  cases x <;> simp only [FileGenerator.isSet, recorder, recordingSlot] at h <;>
    simp only [FileGenerator.invoke, recorder, recordingSlot] <;>
    split at h <;> simp_all [callSlot]

theorem foldl_recorder (a b c d e f : Bool) (calls : List Call)
    (h : ∀ x ∈ calls, (recorder a b c d e f).isSet x = true) :
    ∀ log : List Call, calls.foldl (recorder a b c d e f).invoke log = log ++ calls := by
  induction calls with
  | nil => intro log; simp
  | cons x rest ih =>
    intro log
    rw [List.foldl_cons, recorder_invoke a b c d e f log x (h x (List.mem_cons_self x rest)),
      ih (fun y hy => h y (List.mem_cons_of_mem x hy))]
    simp

/-- C7: `FileGenerator::Parse` runs exactly the calls of the prescribed order whose handler
slot is set, in that order: its result is the prescribed call list, filtered by the set
slots, applied from left to right; with recording handlers the log grows by exactly that
filtered list, for every choice of the six slots. -/
theorem Parse_dispatch_order (parser : ASTFileParser) :
    (∀ (σ : Type) (g : FileGenerator σ) (s : σ),
      g.Parse parser s = ((dispatchOrderSpec parser).filter g.isSet).foldl g.invoke s) ∧
    (∀ (onFile onClass onMember onMethod onVariable onFunction : Bool) (log : List Call),
      (recorder onFile onClass onMember onMethod onVariable onFunction).Parse parser log
        = log ++ (dispatchOrderSpec parser).filter
            (recorder onFile onClass onMember onMethod onVariable onFunction).isSet) := by
  constructor
  · intro σ g s
    rw [foldl_invoke_filter, Parse_eq_foldl]
  · intro a b c d e f log
    rw [Parse_eq_foldl, ← foldl_invoke_filter]
    exact foldl_recorder a b c d e f _ (fun x hx => (List.mem_filter.mp hx).2) log

/-! ## The registry -/

theorem umapFind_update_same {ν : Type} (dflt : ν) (m : UMap Str ν) (k : Str) (f : ν → ν) :
    umapFind (umapUpdate dflt m k f) k = some (f ((umapFind m k).getD dflt)) := by
  induction m with
  | nil => simp [umapUpdate, umapFind]
  | cons e rest ih =>
    obtain ⟨k1, v⟩ := e
    unfold umapUpdate
    by_cases h : k1 = k
    · simp [h, umapFind]
    · rw [if_neg h]
      simp only [umapFind, if_neg h]
      exact ih

theorem umapFind_update_other {ν : Type} (dflt : ν) (m : UMap Str ν) (k k2 : Str)
    (f : ν → ν) (hk : k2 ≠ k) :
    umapFind (umapUpdate dflt m k f) k2 = umapFind m k2 := by
  induction m with
  | nil => simp [umapUpdate, umapFind, hk.symm]
  | cons e rest ih =>
    obtain ⟨k1, v⟩ := e
    unfold umapUpdate
    by_cases h : k1 = k
    · have h2 : ¬ k1 = k2 := fun e => hk (e.symm.trans h)
      simp [h, umapFind, hk.symm]
    · rw [if_neg h]
      by_cases h3 : k1 = k2
      · simp [umapFind, h3]
      · simp only [umapFind, if_neg h3]
        exact ih

theorem umapUpdate_update {ν : Type} (dflt : ν) (m : UMap Str ν) (k : Str) (f g : ν → ν) :
    umapUpdate dflt (umapUpdate dflt m k f) k g = umapUpdate dflt m k (fun v => g (f v)) := by
  induction m with
  | nil => simp [umapUpdate]
  | cons e rest ih =>
    obtain ⟨k1, v⟩ := e
    by_cases h : k1 = k
    · simp [umapUpdate, h]
    · simp only [umapUpdate, if_neg h]
      rw [ih]

theorem lookupFunction_update_same (files : UMap Str File) (F K : Str)
    (f : FullFunction → FullFunction) :
    lookupFunction (updateFunction files F K f) F K
      = some (f ((lookupFunction files F K).getD {})) := by
  unfold lookupFunction updateFunction
  rw [umapFind_update_same]
  simp only [umapFind_update_same]
  cases umapFind files F with
  | none => simp [umapFind]
  | some file => simp

theorem lookupFunction_update_other (files : UMap Str File) (F K F2 K2 : Str)
    (f : FullFunction → FullFunction) (h : F2 ≠ F ∨ K2 ≠ K) :
    lookupFunction (updateFunction files F K f) F2 K2 = lookupFunction files F2 K2 := by
  unfold lookupFunction updateFunction
  by_cases hF : F2 = F
  · subst hF
    have hK : K2 ≠ K := by
      rcases h with h | h
      · exact absurd rfl h
      · exact h
    rw [umapFind_update_same]
    simp only [umapFind_update_other _ _ _ _ _ hK]
    cases umapFind files F2 with
    | none => simp [umapFind]
    | some file => simp
  · rw [umapFind_update_other _ _ _ _ _ hF]

/-- C8: two invocations that each append a line to `files[F].functions[K].body` leave one
entry for `(F, K)` whose body is the earlier body followed by both lines in invocation
order, with the prefix and header of the entry kept; the two accesses amount to a single
access that appends both lines, and every other file and function entry reads as before. -/
theorem registry_accumulates (files : UMap Str File) (F K l1 l2 : Str) :
    lookupFunction (updateFunction (updateFunction files F K (emplaceBody l1)) F K
        (emplaceBody l2)) F K
      = some { (lookupFunction files F K).getD {} with
          body := ((lookupFunction files F K).getD {}).body ++ [l1, l2] } ∧
    updateFunction (updateFunction files F K (emplaceBody l1)) F K (emplaceBody l2)
      = updateFunction files F K (fun g => { g with body := g.body ++ [l1, l2] }) ∧
    (∀ F2 K2 : Str, F2 ≠ F ∨ K2 ≠ K →
      lookupFunction (updateFunction (updateFunction files F K (emplaceBody l1)) F K
          (emplaceBody l2)) F2 K2 = lookupFunction files F2 K2) ∧
    (∀ F2 : Str, F2 ≠ F →
      umapFind (updateFunction (updateFunction files F K (emplaceBody l1)) F K
          (emplaceBody l2)) F2 = umapFind files F2) := by
  have hcomb : updateFunction (updateFunction files F K (emplaceBody l1)) F K (emplaceBody l2)
      = updateFunction files F K (fun g => { g with body := g.body ++ [l1, l2] }) := by
    unfold updateFunction
    rw [umapUpdate_update]
    congr 1
    funext file
    simp only [umapUpdate_update]
    congr 2
    funext g
    simp [emplaceBody]
  refine ⟨?_, hcomb, ?_, ?_⟩
  · rw [hcomb, lookupFunction_update_same]
  · intro F2 K2 h
    rw [hcomb, lookupFunction_update_other _ _ _ _ _ _ h]
  · intro F2 h
    rw [hcomb]
    unfold updateFunction
    rw [umapFind_update_other _ _ _ _ _ h]

theorem registry_accumulates_witness :
    lookupFunction (updateFunction (updateFunction [] "f.gen".toList "Make".toList
        (emplaceBody "a;".toList)) "f.gen".toList "Make".toList (emplaceBody "b;".toList))
      "f.gen".toList "Make".toList
      = some { body := ["a;".toList, "b;".toList] } ∧
    lookupFunction (updateFunction (updateFunction [] "f.gen".toList "Make".toList
        (emplaceBody "a;".toList)) "f.gen".toList "Make".toList (emplaceBody "b;".toList))
      "f.gen".toList "Other".toList = none :=
  ⟨(registry_accumulates [] "f.gen".toList "Make".toList "a;".toList "b;".toList).1,
    (registry_accumulates [] "f.gen".toList "Make".toList "a;".toList "b;".toList).2.2.1
      "f.gen".toList "Other".toList (Or.inr (by decide))⟩

theorem lookupFunction_update_includes (files : UMap Str File) (F F2 K2 : Str)
    (h : File → List Str) :
    lookupFunction (umapUpdate {} files F (fun file => { file with includes := h file }))
      F2 K2 = lookupFunction files F2 K2 := by
  unfold lookupFunction
  by_cases hF : F2 = F
  · subst hF
    rw [umapFind_update_same]
    cases umapFind files F2 with
    | none => simp [umapFind]
    | some file => simp
  · rw [umapFind_update_other _ _ _ _ _ hF]

theorem lookupFunction_contribute (files : UMap Str File) (path line : Str) :
    lookupFunction (contribute files path line) luaBindingsFile createBindings
      = some (emplaceBody line
          { (lookupFunction files luaBindingsFile createBindings).getD {} with
            header := ((lookupFunction files luaBindingsFile createBindings).getD {}).header.AddVariable
              luaStateParameter }) := by
  unfold contribute
  simp only []
  rw [lookupFunction_update_same, lookupFunction_update_includes]

/-- The handlers of `main.cpp` accumulate: after `HandleClass` on a class with `LuaClass`
and `HandleMember` on a member with `LuaInspect`, the body of `CreateBindings` is the
earlier body followed by the line of the class and the line of the member. -/
theorem handlers_accumulate (st : GenState) (c : Class) (v : Variable)
    (hc : (GetProperty c.properties "LuaClass".toList).isSome = true)
    (hv : (GetProperty v.properties "LuaInspect".toList).isSome = true) :
    ∃ st2, HandleMember (HandleClass st c) v = some st2 ∧
      (lookupFunction st2.files luaBindingsFile createBindings).map (fun g => g.body)
        = some (((lookupFunction st.files luaBindingsFile createBindings).getD {}).body ++
            [userTypeCreation c,
              c.name ++ "_table[\"".toList ++ v.name ++ "\"] = &".toList ++
                v.fullNamespace ++ ";".toList]) := by
  have h1 : HandleMember (HandleClass st c) v
      = some { files := contribute (contribute st.files c.path (userTypeCreation c)) v.path
                 (c.name ++ "_table[\"".toList ++ v.name ++ "\"] = &".toList ++
                   v.fullNamespace ++ ";".toList)
               currentClass := some c } := by
    unfold HandleMember HandleClass
    simp only [hc, hv, if_true]
  refine ⟨_, h1, ?_⟩
  simp only []
  rw [lookupFunction_contribute, lookupFunction_contribute]
  simp [emplaceBody]

/-! ## FileGenerator::WriteFiles -/

theorem parametersFrom_append (total : Nat) (l1 l2 : List Variable) :
    ∀ i : Nat, parametersFrom total i (l1 ++ l2)
      = parametersFrom total i l1 ++ parametersFrom total (i + l1.length) l2 := by
  induction l1 with
  | nil => intro i; simp [parametersFrom]
  | cons p rest ih =>
    intro i
    have e : i + (p :: rest).length = i + 1 + rest.length := by
      simp only [List.length_cons]
      omega
    rw [e, List.cons_append, parametersFrom, parametersFrom, ih (i + 1)]
    simp only [List.append_assoc]

theorem writeParameters_take (out : Str) (ps : List Variable) :
    ∀ n : Nat, n ≤ ps.length →
      (List.range n).foldl (fun o i =>
        match ps[i]? with
        | none => o
        | some p =>
          let o1 := o ++ p.type ++ " ".toList ++ p.name
          if i != ps.length - 1 then o1 ++ ", ".toList else o1) out
      = out ++ parametersFrom ps.length 0 (ps.take n) := by
  intro n
  induction n with
  | zero => intro _; simp [parametersFrom]
  | succ n ih =>
    intro hn
    have hlt : n < ps.length := hn
    rw [List.range_succ, List.foldl_append, ih (by omega), List.foldl_cons, List.foldl_nil,
      List.getElem?_eq_getElem hlt, List.take_succ, List.getElem?_eq_getElem hlt,
      parametersFrom_append]
    simp only [Option.toList, parametersFrom, List.length_take, Nat.min_eq_left (Nat.le_of_lt hlt),
      Nat.zero_add, List.append_nil]
    split <;> simp [List.append_assoc]

theorem parametersFrom_eq_intercalate (total : Nat) (ps : List Variable) :
    ∀ i : Nat, i + ps.length = total →
      parametersFrom total i ps
        = ", ".toList.intercalate (ps.map (fun p => p.type ++ " ".toList ++ p.name)) := by
  induction ps with
  | nil => intro i _; rfl
  | cons p rest ih =>
    intro i hi
    cases rest with
    | nil =>
      have e : (i != total - 1) = false := by
        simp only [List.length_cons, List.length_nil] at hi
        simp only [bne_eq_false_iff_eq]
        omega
      simp [parametersFrom, e, List.intercalate]
    | cons q rest2 =>
      have e : (i != total - 1) = true := by
        simp only [List.length_cons] at hi
        simp only [bne_iff_ne, ne_eq]
        omega
      have hrec := ih (i + 1) (by simp only [List.length_cons] at hi ⊢; omega)
      rw [parametersFrom, hrec]
      simp [e, List.intercalate, List.intersperse, List.append_assoc]

theorem writeParameters_eq (out : Str) (ps : List Variable) :
    writeParameters out ps
      = out ++ ", ".toList.intercalate (ps.map (fun p => p.type ++ " ".toList ++ p.name)) := by
  unfold writeParameters
  rw [writeParameters_take out ps ps.length (Nat.le_refl _), List.take_length,
    parametersFrom_eq_intercalate ps.length ps 0 (by omega)]

theorem foldl_lines (lines : List Str) :
    ∀ out : Str, lines.foldl (fun o line => o ++ line ++ "\n".toList) out
      = out ++ (lines.map (fun line => line ++ "\n".toList)).flatten := by
  induction lines with
  | nil => intro out; simp
  | cons l rest ih =>
    intro out
    rw [List.foldl_cons, ih]
    simp [List.append_assoc]

theorem writeFunction_eq (out key : Str) (g : FullFunction) :
    writeFunction out (key, g) = out ++ functionBlockSpec key g := by
  have hpre : (if (!g.prefixText.isEmpty) = true then out ++ g.prefixText else out)
      = out ++ g.prefixText := by
    cases hp : g.prefixText with
    | nil => simp
    | cons c r => simp
  unfold writeFunction functionBlockSpec
  simp only [hpre, writeParameters_eq, foldl_lines]
  simp only [List.append_assoc]

theorem writeFunction_entry (out : Str) (e : Str × FullFunction) :
    writeFunction out e = out ++ functionBlockSpec e.1 e.2 := by
  obtain ⟨key, g⟩ := e
  exact writeFunction_eq out key g

theorem foldl_output {α : Type} (h : α → Str) (xs : List α) :
    ∀ s : Streams, xs.foldl (fun st x => { st with output := st.output ++ h x }) s
      = { s with output := s.output ++ (xs.map h).flatten } := by
  induction xs with
  | nil => intro s; simp
  | cons x rest ih =>
    intro s
    rw [List.foldl_cons, ih]
    simp [List.append_assoc]

theorem writeFile_eq (file : File) :
    writeFile file =
      { output := (file.includes.map (fun p => GetFileInclude p ++ "\n".toList)).flatten ++
          (file.header.map (fun line => line ++ "\n".toList)).flatten ++ "\n".toList ++
          (file.functions.map (fun e => functionBlockSpec e.1 e.2)).flatten
        cout := "\n".toList } := by
  unfold writeFile
  simp only [writeFunction_entry, List.append_assoc]
  rw [foldl_output (fun p => GetFileInclude p ++ "\n".toList)]
  simp only []
  rw [foldl_output (fun line => line ++ "\n".toList)]
  simp only []
  rw [foldl_output (fun e : Str × FullFunction => functionBlockSpec e.1 e.2)]
  simp [List.append_assoc]

/-- C9: the text that `WriteFiles` emits for the function entry `(K, g)` is the block of
the specification (prefix, return type, space, `K`, the parameters joined by `, ` between
parentheses, brace line, body lines, brace line, empty line); it carries the map key and
does not depend on `g.header.name`; and the functions part of a file is the sequence of
these blocks. -/
theorem WriteFiles_function_block (out K : Str) (g : FullFunction) :
    writeFunction out (K, g) = out ++ functionBlockSpec K g ∧
    (∀ n : Str, writeFunction out (K, { g with header := { g.header with name := n } })
      = writeFunction out (K, g)) ∧
    (∀ file : File, (writeFile file).output
      = (writeFile { file with functions := [] }).output ++
          (file.functions.map (fun e => functionBlockSpec e.1 e.2)).flatten) := by
  refine ⟨writeFunction_eq out K g, ?_, ?_⟩
  · intro n
    rw [writeFunction_eq, writeFunction_eq]
    rfl
  · intro file
    rw [writeFile_eq, writeFile_eq]
    simp

/-- C10 (the code at the failing input): for a file with one include and one header line
the blank line after the includes goes to `std::cout`; the text written to the file has no
blank line between the include line and the header line, unlike the specified layout. -/
theorem WriteFiles_separator_missing :
    (writeFile { includes := ["a.h".toList], header := ["int x;".toList] }).output
      = "#include \"a.h\"\nint x;\n\n".toList ∧
    (writeFile { includes := ["a.h".toList], header := ["int x;".toList] }).cout
      = "\n".toList ∧
    fileLayoutSpec { includes := ["a.h".toList], header := ["int x;".toList] }
      = "#include \"a.h\"\n\nint x;\n\n".toList ∧
    (writeFile { includes := ["a.h".toList], header := ["int x;".toList] }).output
      ≠ fileLayoutSpec { includes := ["a.h".toList], header := ["int x;".toList] } := by
  refine ⟨by rfl, by rfl, by rfl, by decide⟩

/-! ## The scope tracker: induction over the declaration tree -/

theorem annotatedStep_cases (st st2 : ASTFileParser) (decl : DeclInfo) (keyword : Str)
    (body : List Property → Option ASTFileParser)
    (h : annotatedStep st decl keyword body = some st2) :
    st2 = st ∨ ∃ ps, DeclIsIncluded st decl = false ∧
      GetProperties decl.lineAbove keyword = some ps ∧ ps ≠ [] ∧ body ps = some st2 := by
  unfold annotatedStep at h
  by_cases hi : DeclIsIncluded st decl = true
  · rw [if_pos hi] at h
    exact Or.inl (Option.some.inj h).symm
  · rw [if_neg hi] at h
    cases hg : GetProperties decl.lineAbove keyword with
    | none => rw [hg] at h; exact absurd h (by simp)
    | some ps =>
      rw [hg] at h
      simp only [] at h
      by_cases he : ps.isEmpty = true
      · rw [if_pos he] at h
        exact Or.inl (Option.some.inj h).symm
      · rw [if_neg he] at h
        refine Or.inr ⟨ps, by simpa using hi, rfl, ?_, h⟩
        intro hnil
        exact he (by rw [hnil]; rfl)

theorem annotatedStep_of_annotated (st : ASTFileParser) (decl : DeclInfo) (keyword : Str)
    (body : List Property → Option ASTFileParser) (ps : List Property)
    (hi : DeclIsIncluded st decl = false)
    (hg : GetProperties decl.lineAbove keyword = some ps) (hne : ps ≠ []) :
    annotatedStep st decl keyword body = body ps := by
  unfold annotatedStep
  have he : ¬ ps.isEmpty = true := by
    cases ps with
    | nil => exact absurd rfl hne
    | cons a r => simp
  rw [hi, hg]
  simp only [Bool.false_eq_true, if_false, if_neg he]

mutual
theorem TraverseDecl_rel (P : ASTFileParser → ASTFileParser → Prop)
    (hrefl : ∀ s, P s s) (htrans : ∀ a b c, P a b → P b c → P a c)
    (hstep : ∀ kind base decl, (∀ s s2, base s = some s2 → P s s2) →
      ∀ st st2, traverseKind kind base decl st = some st2 → P st st2) :
    ∀ (d : Decl) (st st2 : ASTFileParser), TraverseDecl d st = some st2 → P st st2
  | Decl.mk kind info children, st, st2, h => by
    rw [TraverseDecl] at h
    exact hstep kind (traverseChildren children) info
      (fun s s2 hs => traverseChildren_rel P hrefl htrans hstep children s s2 hs) st st2 h
theorem traverseChildren_rel (P : ASTFileParser → ASTFileParser → Prop)
    (hrefl : ∀ s, P s s) (htrans : ∀ a b c, P a b → P b c → P a c)
    (hstep : ∀ kind base decl, (∀ s s2, base s = some s2 → P s s2) →
      ∀ st st2, traverseKind kind base decl st = some st2 → P st st2) :
    ∀ (ds : List Decl) (st st2 : ASTFileParser), traverseChildren ds st = some st2 → P st st2
  | [], st, st2, h => by
    rw [traverseChildren] at h
    rw [← Option.some.inj h]
    exact hrefl st
  | d :: ds, st, st2, h => by
    rw [traverseChildren] at h
    cases hd : TraverseDecl d st with
    | none => rw [hd] at h; exact absurd h (by simp)
    | some st1 =>
      rw [hd] at h
      exact htrans st st1 st2 (TraverseDecl_rel P hrefl htrans hstep d st st1 hd)
        (traverseChildren_rel P hrefl htrans hstep ds st1 st2 h)
end

/-! ## The scope tracker: the stacks -/

theorem sameOpen_refl (fs : List Function) : sameOpen fs fs := by
  cases fs with
  | nil => exact True.intro
  | cons f r => exact ⟨rfl, [], by simp⟩

theorem sameOpen_nil_inv (l : List Function) (h : sameOpen [] l) : l = [] := by
  cases l with
  | nil => rfl
  | cons g r => exact absurd h (by simp [sameOpen])

theorem sameOpen_cons_inv (f : Function) (r l : List Function) (h : sameOpen (f :: r) l) :
    ∃ extra, l = { f with parameters := f.parameters ++ extra } :: r := by
  cases l with
  | nil => exact absurd h (by simp [sameOpen])
  | cons g r2 =>
    obtain ⟨hr, extra, hg⟩ := h
    exact ⟨extra, by rw [hr, hg]⟩

theorem sameOpen_trans (a b c : List Function) (h1 : sameOpen a b) (h2 : sameOpen b c) :
    sameOpen a c := by
  cases a with
  | nil =>
    rw [sameOpen_nil_inv b h1] at h2
    rw [sameOpen_nil_inv c h2]
    exact True.intro
  | cons f r =>
    obtain ⟨e1, hb⟩ := sameOpen_cons_inv f r b h1
    rw [hb] at h2
    obtain ⟨e2, hc⟩ := sameOpen_cons_inv _ r c h2
    rw [hc]
    exact ⟨rfl, e1 ++ e2, by simp⟩

theorem sameOpen_of_appended (f : Function) (v : Variable) (r l : List Function)
    (h : sameOpen ({ f with parameters := f.parameters ++ [v] } :: r) l) :
    sameOpen (f :: r) l := by
  obtain ⟨extra, hx⟩ := sameOpen_cons_inv _ _ _ h
  rw [hx]
  exact ⟨rfl, v :: extra, by simp⟩

theorem StacksKept_refl (s : ASTFileParser) : StacksKept s s :=
  ⟨rfl, sameOpen_refl _, Nat.le_refl _, rfl⟩

theorem StacksKept_trans (a b c : ASTFileParser) (h1 : StacksKept a b) (h2 : StacksKept b c) :
    StacksKept a c :=
  ⟨h2.1.trans h1.1, sameOpen_trans _ _ _ h1.2.1 (h2.2.1), Nat.le_trans h1.2.2.1 h2.2.2.1,
    h2.2.2.2.trans h1.2.2.2⟩

theorem attachToClass_some (st r : ASTFileParser) (h : attachToClass st = some r) :
    ∃ top cs function rest owner, st.classStack = top :: cs ∧
      st.functionStack = function :: rest ∧ st.classes[top]? = some owner ∧
      r = { st with
        classes := st.classes.set top { owner with functions := owner.functions ++ [function] }
        functionStack := rest } := by
  unfold attachToClass at h
  split at h
  · rename_i top cs function rest hcs hfs
    split at h
    · exact absurd h (by simp)
    · rename_i owner ho
      exact ⟨top, cs, function, rest, owner, hcs, hfs, ho, (Option.some.inj h).symm⟩
  · exact absurd h (by simp)

theorem TraverseCXXRecordDecl_kept (base : ASTFileParser → Option ASTFileParser)
    (decl : DeclInfo) (hb : ∀ s s2, base s = some s2 → StacksKept s s2)
    (st st2 : ASTFileParser) (h : TraverseCXXRecordDecl base decl st = some st2) :
    StacksKept st st2 := by
  rcases annotatedStep_cases st st2 decl "CGCLASS".toList _ h with h1 | ⟨ps, _, _, _, h1⟩
  · rw [h1]; exact StacksKept_refl st
  · simp only [] at h1
    split at h1
    · exact absurd h1 (by simp)
    · rename_i mid hmid
      obtain ⟨k1, k2, k3, k4⟩ := hb _ _ hmid
      split at h1
      · exact absurd h1 (by simp)
      · rename_i top rest hcs
        rw [← Option.some.inj h1]
        simp only [] at k1 k2 k3 k4
        rw [hcs] at k1
        refine ⟨?_, k2, ?_, k4⟩
        · simp only []
          exact (List.cons.inj k1).2
        · simp only [List.length_append, List.length_cons, List.length_nil] at k3
          simp only []
          omega

theorem TraverseFieldDecl_kept (base : ASTFileParser → Option ASTFileParser)
    (decl : DeclInfo) (hb : ∀ s s2, base s = some s2 → StacksKept s s2)
    (st st2 : ASTFileParser) (h : TraverseFieldDecl base decl st = some st2) :
    StacksKept st st2 := by
  rcases annotatedStep_cases st st2 decl "CGMEMBER".toList _ h with h1 | ⟨ps, _, _, _, h1⟩
  · rw [h1]; exact StacksKept_refl st
  · simp only [] at h1
    split at h1
    · exact absurd h1 (by simp)
    · split at h1
      · exact absurd h1 (by simp)
      · obtain ⟨k1, k2, k3, k4⟩ := hb _ _ h1
        simp only [List.length_set] at k1 k2 k3 k4
        exact ⟨k1, k2, k3, k4⟩

theorem pushed_function_kept (base : ASTFileParser → Option ASTFileParser)
    (hb : ∀ s s2, base s = some s2 → StacksKept s s2) (function : Function)
    (st mid : ASTFileParser)
    (h : base { st with functionStack := function :: st.functionStack } = some mid) :
    mid.classStack = st.classStack ∧ st.classes.length ≤ mid.classes.length ∧
      mid.path = st.path ∧ ∃ extra, mid.functionStack =
        { function with parameters := function.parameters ++ extra } :: st.functionStack := by
  obtain ⟨k1, k2, k3, k4⟩ := hb _ _ h
  exact ⟨k1, k3, k4, sameOpen_cons_inv _ _ _ k2⟩

theorem attachToClass_kept (function : Function) (st mid st2 : ASTFileParser)
    (hmid : mid.classStack = st.classStack ∧ st.classes.length ≤ mid.classes.length ∧
      mid.path = st.path ∧ ∃ extra, mid.functionStack =
        { function with parameters := function.parameters ++ extra } :: st.functionStack)
    (h : attachToClass mid = some st2) : StacksKept st st2 := by
  obtain ⟨k1, k3, k4, extra, k2⟩ := hmid
  obtain ⟨top, cs, f, rest, owner, hcs, hfs, _, hr⟩ := attachToClass_some mid st2 h
  rw [k2] at hfs
  rw [hr]
  refine ⟨k1, ?_, ?_, k4⟩
  · simp only []
    rw [← (List.cons.inj hfs).2]
    exact sameOpen_refl _
  · simp only [List.length_set]
    exact k3

theorem TraverseCXXMethodDecl_kept (base : ASTFileParser → Option ASTFileParser)
    (decl : DeclInfo) (hb : ∀ s s2, base s = some s2 → StacksKept s s2)
    (st st2 : ASTFileParser) (h : TraverseCXXMethodDecl base decl st = some st2) :
    StacksKept st st2 := by
  rcases annotatedStep_cases st st2 decl "CGMETHOD".toList _ h with h1 | ⟨ps, _, _, _, h1⟩
  · rw [h1]; exact StacksKept_refl st
  · simp only [] at h1
    split at h1
    · exact absurd h1 (by simp)
    · rename_i mid hmid
      exact attachToClass_kept _ st mid st2 (pushed_function_kept base hb _ st mid hmid) h1

theorem TraverseCXXConstructorDecl_kept (base : ASTFileParser → Option ASTFileParser)
    (decl : DeclInfo) (hb : ∀ s s2, base s = some s2 → StacksKept s s2)
    (st st2 : ASTFileParser) (h : TraverseCXXConstructorDecl base decl st = some st2) :
    StacksKept st st2 := by
  rcases annotatedStep_cases st st2 decl "CGCONSTRUCTOR".toList _ h with h1 | ⟨ps, _, _, _, h1⟩
  · rw [h1]; exact StacksKept_refl st
  · simp only [] at h1
    split at h1
    · exact absurd h1 (by simp)
    · rename_i mid hmid
      exact attachToClass_kept _ st mid st2 (pushed_function_kept base hb _ st mid hmid) h1

theorem TraverseFunctionDecl_kept (base : ASTFileParser → Option ASTFileParser)
    (decl : DeclInfo) (hb : ∀ s s2, base s = some s2 → StacksKept s s2)
    (st st2 : ASTFileParser) (h : TraverseFunctionDecl base decl st = some st2) :
    StacksKept st st2 := by
  rcases annotatedStep_cases st st2 decl "CGFUNCTION".toList _ h with h1 | ⟨ps, _, _, _, h1⟩
  · rw [h1]; exact StacksKept_refl st
  · simp only [] at h1
    split at h1
    · exact absurd h1 (by simp)
    · rename_i mid hmid
      obtain ⟨k1, k3, k4, extra, k2⟩ := pushed_function_kept base hb _ st mid hmid
      split at h1
      · exact absurd h1 (by simp)
      · rename_i top rest hfs
        rw [k2] at hfs
        rw [← Option.some.inj h1]
        refine ⟨k1, ?_, k3, k4⟩
        simp only []
        rw [← (List.cons.inj hfs).2]
        exact sameOpen_refl _

theorem TraverseVarDecl_kept (base : ASTFileParser → Option ASTFileParser)
    (decl : DeclInfo) (hb : ∀ s s2, base s = some s2 → StacksKept s s2)
    (st st2 : ASTFileParser) (h : TraverseVarDecl base decl st = some st2) :
    StacksKept st st2 := by
  rcases annotatedStep_cases st st2 decl "CGVARIABLE".toList _ h with h1 | ⟨ps, _, _, _, h1⟩
  · rw [h1]; exact StacksKept_refl st
  · obtain ⟨k1, k2, k3, k4⟩ := hb _ _ h1
    exact ⟨k1, k2, k3, k4⟩

theorem TraverseParmVarDecl_kept (base : ASTFileParser → Option ASTFileParser)
    (decl : DeclInfo) (hb : ∀ s s2, base s = some s2 → StacksKept s s2)
    (st st2 : ASTFileParser) (h : TraverseParmVarDecl base decl st = some st2) :
    StacksKept st st2 := by
  unfold TraverseParmVarDecl at h
  split at h
  · rw [← Option.some.inj h]; exact StacksKept_refl st
  · split at h
    · rename_i function rest hfs
      obtain ⟨k1, k2, k3, k4⟩ := hb _ _ h
      simp only [] at k1 k2 k3 k4
      refine ⟨k1, ?_, k3, k4⟩
      rw [hfs]
      exact sameOpen_of_appended _ _ _ _ k2
    · rename_i hfs
      obtain ⟨k1, k2, k3, k4⟩ := hb _ _ h
      exact ⟨k1, k2, k3, k4⟩

theorem traverseKind_kept (kind : DeclKind) (base : ASTFileParser → Option ASTFileParser)
    (decl : DeclInfo) (hb : ∀ s s2, base s = some s2 → StacksKept s s2)
    (st st2 : ASTFileParser) (h : traverseKind kind base decl st = some st2) :
    StacksKept st st2 := by
  cases kind with
  | CXXRecord => exact TraverseCXXRecordDecl_kept base decl hb st st2 h
  | Field => exact TraverseFieldDecl_kept base decl hb st st2 h
  | CXXMethod => exact TraverseCXXMethodDecl_kept base decl hb st st2 h
  | CXXConstructor => exact TraverseCXXConstructorDecl_kept base decl hb st st2 h
  | ParmVar => exact TraverseParmVarDecl_kept base decl hb st st2 h
  | Var => exact TraverseVarDecl_kept base decl hb st st2 h
  | Function => exact TraverseFunctionDecl_kept base decl hb st st2 h
  | Other => exact hb st st2 h

theorem TraverseDecl_kept (d : Decl) (st st2 : ASTFileParser)
    (h : TraverseDecl d st = some st2) : StacksKept st st2 :=
  TraverseDecl_rel StacksKept StacksKept_refl StacksKept_trans traverseKind_kept d st st2 h

theorem traverseChildren_kept (ds : List Decl) (st st2 : ASTFileParser)
    (h : traverseChildren ds st = some st2) : StacksKept st st2 :=
  traverseChildren_rel StacksKept StacksKept_refl StacksKept_trans traverseKind_kept ds st st2 h

/-! ## The scope tracker: no fault on scoped trees -/

theorem ClassStackValid_of_kept (st st2 : ASTFileParser) (hv : ClassStackValid st)
    (hk : StacksKept st st2) : ClassStackValid st2 := by
  intro i hi
  rw [hk.1] at hi
  exact Nat.lt_of_lt_of_le (hv i hi) hk.2.2.1

theorem ClassStackValid_push (st : ASTFileParser) (c : Class) (hv : ClassStackValid st) :
    ClassStackValid { st with
      classes := st.classes ++ [c]
      classStack := st.classes.length :: st.classStack } := by
  intro i hi
  simp only [List.length_append, List.length_cons, List.length_nil]
  rcases List.mem_cons.mp hi with e | e
  · omega
  · have := hv i e
    omega

theorem GetProperties_isSome (line keyword : Str) (hl : line.length < npos) :
    ∃ ps, GetProperties line keyword = some ps :=
  ⟨_, GetProperties_eq line keyword hl⟩

theorem annotatedStep_total (st : ASTFileParser) (decl : DeclInfo) (keyword : Str)
    (body : List Property → Option ASTFileParser) (hl : decl.lineAbove.length < npos)
    (hbody : ∀ ps, ps ≠ [] → ∃ r, body ps = some r) :
    ∃ r, annotatedStep st decl keyword body = some r := by
  unfold annotatedStep
  split
  · exact ⟨st, rfl⟩
  · obtain ⟨ps, hps⟩ := GetProperties_isSome decl.lineAbove keyword hl
    rw [hps]
    simp only []
    split
    · exact ⟨st, rfl⟩
    · rename_i he
      exact hbody ps (fun hnil => he (by rw [hnil]; rfl))

theorem attachToClass_total (function : Function) (st mid : ASTFileParser)
    (hv : ClassStackValid st) (hcs : st.classStack ≠ [])
    (hmid : mid.classStack = st.classStack ∧ st.classes.length ≤ mid.classes.length ∧
      mid.path = st.path ∧ ∃ extra, mid.functionStack =
        { function with parameters := function.parameters ++ extra } :: st.functionStack) :
    ∃ r, attachToClass mid = some r := by
  obtain ⟨k1, k3, _, extra, k2⟩ := hmid
  cases hst : st.classStack with
  | nil => exact absurd hst hcs
  | cons top cs =>
    have htop : top < mid.classes.length :=
      Nat.lt_of_lt_of_le (hv top (by rw [hst]; exact List.mem_cons_self top cs)) k3
    unfold attachToClass
    rw [k1, hst, k2]
    simp only [List.getElem?_eq_getElem htop]
    exact ⟨_, rfl⟩

theorem traverseKind_total (kind : DeclKind) (base : ASTFileParser → Option ASTFileParser)
    (decl : DeclInfo) (st : ASTFileParser) (b : Bool)
    (hl : decl.lineAbove.length < npos) (hneeds : needsClass kind = true → b = true)
    (hv : ClassStackValid st) (hcs : b = true → st.classStack ≠ [])
    (hbk : ∀ s s2, base s = some s2 → StacksKept s s2)
    (hbt : ∀ s, ClassStackValid s → ((kind == DeclKind.CXXRecord) = true → s.classStack ≠ []) →
      ∃ s2, base s = some s2) :
    ∃ st2, traverseKind kind base decl st = some st2 := by
  cases kind with
  | CXXRecord =>
    apply annotatedStep_total st decl "CGCLASS".toList _ hl
    intro ps _
    simp only []
    obtain ⟨mid, hmid⟩ := hbt _ (ClassStackValid_push st _ hv) (fun _ => by simp)
    rw [hmid]
    simp only []
    have hk := (hbk _ _ hmid).1
    simp only [] at hk
    rw [hk]
    exact ⟨_, rfl⟩
  | Field =>
    apply annotatedStep_total st decl "CGMEMBER".toList _ hl
    intro ps _
    simp only []
    cases hst : st.classStack with
    | nil => exact absurd hst (hcs (hneeds rfl))
    | cons top cs =>
      have htop : top < st.classes.length := hv top (by rw [hst]; exact List.mem_cons_self top cs)
      simp only [List.getElem?_eq_getElem htop]
      apply hbt
      · intro i hi
        simp only [List.length_set]
        exact hv i (by rw [hst]; exact hi)
      · intro hk
        exact absurd hk (by decide)
  | CXXMethod =>
    apply annotatedStep_total st decl "CGMETHOD".toList _ hl
    intro ps _
    simp only []
    obtain ⟨mid, hmid⟩ := hbt { st with functionStack := _ :: st.functionStack } hv
      (fun hk => absurd hk (by decide))
    rw [hmid]
    exact attachToClass_total _ st mid hv (hcs (hneeds rfl))
      (pushed_function_kept base hbk _ st mid hmid)
  | CXXConstructor =>
    apply annotatedStep_total st decl "CGCONSTRUCTOR".toList _ hl
    intro ps _
    simp only []
    obtain ⟨mid, hmid⟩ := hbt { st with functionStack := _ :: st.functionStack } hv
      (fun hk => absurd hk (by decide))
    rw [hmid]
    exact attachToClass_total _ st mid hv (hcs (hneeds rfl))
      (pushed_function_kept base hbk _ st mid hmid)
  | ParmVar =>
    unfold traverseKind TraverseParmVarDecl
    simp only []
    split
    · exact ⟨st, rfl⟩
    · split
      · exact hbt _ hv (fun hk => absurd hk (by decide))
      · exact hbt _ hv (fun hk => absurd hk (by decide))
  | Var =>
    apply annotatedStep_total st decl "CGVARIABLE".toList _ hl
    intro ps _
    exact hbt _ hv (fun hk => absurd hk (by decide))
  | Function =>
    apply annotatedStep_total st decl "CGFUNCTION".toList _ hl
    intro ps _
    simp only []
    obtain ⟨mid, hmid⟩ := hbt { st with functionStack := _ :: st.functionStack } hv
      (fun hk => absurd hk (by decide))
    rw [hmid]
    obtain ⟨_, _, _, extra, k2⟩ := pushed_function_kept base hbk _ st mid hmid
    simp only [k2]
    exact ⟨_, rfl⟩
  | Other => exact hbt st hv (fun hk => absurd hk (by decide))

mutual
theorem TraverseDecl_total : ∀ (d : Decl) (b : Bool) (st : ASTFileParser),
    d.scoped b = true → ClassStackValid st → (b = true → st.classStack ≠ []) →
      ∃ st2, TraverseDecl d st = some st2
  | Decl.mk kind info children, b, st, hs, hv, hcs => by
    rw [Decl.scoped] at hs
    simp only [Bool.and_eq_true, decide_eq_true_eq, Bool.or_eq_true, Bool.not_eq_true'] at hs
    obtain ⟨⟨hl, hn⟩, hch⟩ := hs
    rw [TraverseDecl]
    apply traverseKind_total kind _ info st b hl _ hv hcs
      (fun s s2 h => traverseChildren_kept children s s2 h)
    · intro s hsv hsc
      exact traverseChildren_total children (kind == DeclKind.CXXRecord) s hch hsv hsc
    · intro hk
      rcases hn with h1 | h1
      · rw [h1] at hk
        exact absurd hk (by decide)
      · exact h1
theorem traverseChildren_total : ∀ (ds : List Decl) (b : Bool) (st : ASTFileParser),
    scopedChildren b ds = true → ClassStackValid st → (b = true → st.classStack ≠ []) →
      ∃ st2, traverseChildren ds st = some st2
  | [], _, st, _, _, _ => ⟨st, by rw [traverseChildren]⟩
  | d :: ds, b, st, hs, hv, hcs => by
    rw [scopedChildren] at hs
    simp only [Bool.and_eq_true] at hs
    obtain ⟨st1, h1⟩ := TraverseDecl_total d b st hs.1 hv hcs
    have hk := TraverseDecl_kept d st st1 h1
    obtain ⟨st2, h2⟩ := traverseChildren_total ds b st1 hs.2
      (ClassStackValid_of_kept st st1 hv hk) (fun hb => by rw [hk.1]; exact hcs hb)
    exact ⟨st2, by rw [traverseChildren, h1]; exact h2⟩
end

/-- C13 (counterexample): in the unit `/p/a.h` the free function `int f(int x)` below the
line `CGFUNCTION()` is open when `TraverseParmVarDecl` runs on `x`; the step starts with
the record of `f` without parameters on the open-function stack and returns with the
parameter `x` in that record, so the open-function stack is not as it was on entry. -/
theorem parameter_step_changes_function_stack :
    (Decl.mk DeclKind.Function
        { name := "f".toList, lineAbove := "CGFUNCTION()".toList,
          source := "int f(int x)".toList, file := some "/p/a.h".toList }
        [Decl.mk DeclKind.ParmVar { name := "x".toList, source := "int x".toList, file := some "/p/a.h".toList } []]).scoped
      false = true ∧
    TraverseDecl (Decl.mk DeclKind.ParmVar { name := "x".toList, source := "int x".toList, file := some "/p/a.h".toList } [])
        { path := "/p/a.h".toList
          functionStack :=
            [{ name := "f".toList, path := "/p/a.h".toList, returnType := "int".toList
               properties := [{ name := "CGFUNCTION".toList }, { name := [] }] }] }
      = some
          { path := "/p/a.h".toList
            functionStack :=
              [{ name := "f".toList, path := "/p/a.h".toList, returnType := "int".toList
                 properties := [{ name := "CGFUNCTION".toList }, { name := [] }]
                 parameters :=
                   [{ name := "x".toList, path := "/p/a.h".toList, type := "int".toList }] }] } ∧
    ({ path := "/p/a.h".toList
       functionStack :=
         [{ name := "f".toList, path := "/p/a.h".toList, returnType := "int".toList
            properties := [{ name := "CGFUNCTION".toList }, { name := [] }]
            parameters :=
              [{ name := "x".toList, path := "/p/a.h".toList, type := "int".toList }] }] }
        : ASTFileParser).functionStack
      ≠ ({ path := "/p/a.h".toList
           functionStack :=
             [{ name := "f".toList, path := "/p/a.h".toList, returnType := "int".toList
                properties := [{ name := "CGFUNCTION".toList }, { name := [] }] }] }
          : ASTFileParser).functionStack ∧
    parseUnit "/p/a.h".toList
        (Decl.mk DeclKind.Other {}
          [Decl.mk DeclKind.Function
            { name := "f".toList, lineAbove := "CGFUNCTION()".toList,
              source := "int f(int x)".toList, file := some "/p/a.h".toList }
            [Decl.mk DeclKind.ParmVar { name := "x".toList, source := "int x".toList, file := some "/p/a.h".toList } []]])
      = some
          { path := "/p/a.h".toList
            functions :=
              [{ name := "f".toList, path := "/p/a.h".toList, returnType := "int".toList
                 properties := [{ name := "CGFUNCTION".toList }, { name := [] }]
                 parameters :=
                   [{ name := "x".toList, path := "/p/a.h".toList, type := "int".toList }] }] } := by
  refine ⟨by decide, by rfl, ?_, by rfl⟩
  intro h
  have h2 := congrArg (fun l : List Function => l.map (fun f => f.parameters.length)) h
  exact absurd h2 (by decide)

/-- C13 (amended): on a scoped tree every `Traverse*` step returns, with the open-class
stack exactly as on entry and with the same open functions (the function stack agrees below
its top, and its top has at most gained parameters); hence a whole unit processed from
empty stacks ends with both stacks empty. -/
theorem Traverse_keeps_stacks (d : Decl) :
    (∀ (b : Bool) (st : ASTFileParser), d.scoped b = true → ClassStackValid st →
      (b = true → st.classStack ≠ []) →
      ∃ st2, TraverseDecl d st = some st2 ∧ st2.classStack = st.classStack ∧
        sameOpen st.functionStack st2.functionStack ∧
        st2.functionStack.length = st.functionStack.length) ∧
    (∀ path : Str, d.scoped false = true →
      ∃ parser, parseUnit path d = some parser ∧ parser.classStack = [] ∧
        parser.functionStack = []) := by
  constructor
  · intro b st hs hv hcs
    obtain ⟨st2, h⟩ := TraverseDecl_total d b st hs hv hcs
    have hk := TraverseDecl_kept d st st2 h
    refine ⟨st2, h, hk.1, hk.2.1, ?_⟩
    cases hfs : st.functionStack with
    | nil =>
      have := hk.2.1
      rw [hfs] at this
      rw [sameOpen_nil_inv _ this]
    | cons f r =>
      have := hk.2.1
      rw [hfs] at this
      obtain ⟨extra, hx⟩ := sameOpen_cons_inv f r _ this
      rw [hx]
      rfl
  · intro path hs
    have hv : ClassStackValid { path := path } := by
      intro i hi
      exact absurd hi (List.not_mem_nil i)
    obtain ⟨st2, h⟩ := TraverseDecl_total d false { path := path } hs hv
      (fun hb => absurd hb (by decide))
    have hk := TraverseDecl_kept d _ st2 h
    exact ⟨st2, h, hk.1, sameOpen_nil_inv _ hk.2.1⟩

theorem Traverse_keeps_stacks_witness :
    ∃ parser,
      parseUnit "/p/a.h".toList
        (Decl.mk DeclKind.Other {}
          [Decl.mk DeclKind.CXXRecord { name := "A".toList, lineAbove := "CGCLASS()".toList }
            [Decl.mk DeclKind.CXXMethod
              { name := "m".toList, lineAbove := "CGMETHOD()".toList,
                source := "void m(int x)".toList }
              [Decl.mk DeclKind.ParmVar { name := "x".toList, source := "int x".toList } []]]])
        = some parser ∧ parser.classStack = [] ∧ parser.functionStack = [] :=
  (Traverse_keeps_stacks _).2 "/p/a.h".toList (by decide)

/-! ## The scope tracker: skipped declarations -/

theorem DeclIsIncluded_of_other_file (st : ASTFileParser) (decl : DeclInfo) (fileName : Str)
    (hf : decl.file = some fileName) (hne : pathEqual fileName st.path = false) :
    DeclIsIncluded st decl = true := by
  unfold DeclIsIncluded
  rw [hf]
  simp only [hne, Bool.not_false]

theorem traverseKind_of_included (kind : DeclKind) (hk : kind ≠ DeclKind.Other)
    (base : ASTFileParser → Option ASTFileParser) (decl : DeclInfo) (st : ASTFileParser)
    (hi : DeclIsIncluded st decl = true) : traverseKind kind base decl st = some st := by
  cases kind with
  | CXXRecord => simp only [traverseKind, TraverseCXXRecordDecl, hi, if_true]
  | Field => simp only [traverseKind, TraverseFieldDecl, hi, if_true]
  | CXXMethod => simp only [traverseKind, TraverseCXXMethodDecl, hi, if_true]
  | CXXConstructor => simp only [traverseKind, TraverseCXXConstructorDecl, hi, if_true]
  | ParmVar => simp only [traverseKind, TraverseParmVarDecl, hi, if_true]
  | Var => simp only [traverseKind, TraverseVarDecl, hi, if_true]
  | Function => simp only [traverseKind, TraverseFunctionDecl, hi, if_true]
  | Other => exact absurd rfl hk

/-- C19 (counterexample): a linkage specification or namespace has no `Traverse*` override.
Here it is opened in the header `/p/begin.h`, which the unit `/p/a.h` includes, and it holds
the annotated class `A` of the unit: its file differs from the path of the unit, yet its
subtree is visited and the state changes, the class `A` is recorded. -/
theorem declaration_without_override_traversed :
    DeclIsIncluded { path := "/p/a.h".toList } { file := some "/p/begin.h".toList } = true ∧
    TraverseDecl
        (Decl.mk DeclKind.Other { file := some "/p/begin.h".toList }
          [Decl.mk DeclKind.CXXRecord
            { name := "A".toList, qualifiedName := "A".toList, lineAbove := "CGCLASS()".toList,
              source := "class A".toList, file := some "/p/a.h".toList } []])
        { path := "/p/a.h".toList }
      = some { path := "/p/a.h".toList
               classes := [{ name := "A".toList, fullNamespace := "A".toList,
                             path := "/p/a.h".toList
                             properties := [{ name := "CGCLASS".toList }, { name := [] }] }] } := by
  refine ⟨by decide, by rfl⟩

/-- C19 (amended): for a declaration of each of the seven kinds that have a `Traverse*`
step in the parser, whose file entry is known and whose file name is not equal, as a path,
to the path of the unit, the step returns the parser unchanged (classes, functions,
variables, both stacks and the skipped-parameter count), whatever the default traversal of
the subtree would do: the subtree is not visited. A declaration of another kind is handed
to the default traversal whatever its file. The comparison is the one of paths: the file
name `/p//a.h` is equal to the unit path `/p/a.h`, and such a declaration is not skipped. -/
theorem included_declaration_skipped (kind : DeclKind) (decl : DeclInfo)
    (children : List Decl) (st : ASTFileParser) (fileName : Str)
    (hk : kind ≠ DeclKind.Other) (hf : decl.file = some fileName)
    (hne : pathEqual fileName st.path = false) :
    TraverseDecl (Decl.mk kind decl children) st = some st ∧
    (∀ base : ASTFileParser → Option ASTFileParser,
      traverseKind kind base decl st = some st) ∧
    (∀ (base : ASTFileParser → Option ASTFileParser) (d : DeclInfo) (s : ASTFileParser),
      traverseKind DeclKind.Other base d s = base s) ∧
    pathEqual "/p//a.h".toList "/p/a.h".toList = true ∧
    DeclIsIncluded { path := "/p/a.h".toList } { file := some "/p//a.h".toList } = false := by
  have hi := DeclIsIncluded_of_other_file st decl fileName hf hne
  refine ⟨?_, fun base => traverseKind_of_included kind hk base decl st hi,
    fun base d s => rfl, by decide, by decide⟩
  rw [TraverseDecl]
  exact traverseKind_of_included kind hk _ decl st hi

theorem included_declaration_skipped_witness :
    TraverseDecl
        (Decl.mk DeclKind.CXXRecord
          { name := "A".toList, lineAbove := "CGCLASS()".toList, file := some "/p/b.h".toList }
          [Decl.mk DeclKind.Field { name := "x".toList, lineAbove := "CGMEMBER()".toList } []])
        { path := "/p/a.h".toList }
      = some { path := "/p/a.h".toList } :=
  (included_declaration_skipped DeclKind.CXXRecord _ _ { path := "/p/a.h".toList }
    "/p/b.h".toList (by decide) rfl (by decide)).1

/-! ## The scope tracker: annotated declarations -/

theorem TraverseCXXRecordDecl_annotated (base : ASTFileParser → Option ASTFileParser)
    (decl : DeclInfo) (st : ASTFileParser) (ps : List Property)
    (hi : DeclIsIncluded st decl = false)
    (hg : GetProperties decl.lineAbove "CGCLASS".toList = some ps) (hne : ps ≠ []) :
    TraverseCXXRecordDecl base decl st =
      match base { st with
          classes := st.classes ++ [classOf st.path decl ps [] []]
          classStack := st.classes.length :: st.classStack } with
      | none => none
      | some st2 =>
        match st2.classStack with
        | [] => none
        | _ :: rest => some { st2 with classStack := rest } :=
  annotatedStep_of_annotated st decl _ _ ps hi hg hne

theorem TraverseFieldDecl_annotated (base : ASTFileParser → Option ASTFileParser)
    (decl : DeclInfo) (st : ASTFileParser) (ps : List Property) (top : Nat) (cs : List Nat)
    (owner : Class) (hi : DeclIsIncluded st decl = false)
    (hg : GetProperties decl.lineAbove "CGMEMBER".toList = some ps) (hne : ps ≠ [])
    (hcs : st.classStack = top :: cs) (ho : st.classes[top]? = some owner) :
    TraverseFieldDecl base decl st =
      base { st with
        classes := st.classes.set top
          { owner with variables_ := owner.variables_ ++ [variableOf st.path decl ps] } } := by
  have h := annotatedStep_of_annotated st decl "CGMEMBER".toList
    (fun properties =>
      match st.classStack with
      | [] => none
      | top :: _ =>
        match st.classes[top]? with
        | none => none
        | some owner =>
          base { st with
            classes := st.classes.set top
              { owner with
                variables_ := owner.variables_ ++ [variableOf st.path decl properties] } })
    ps hi hg hne
  have e : TraverseFieldDecl base decl st = annotatedStep st decl "CGMEMBER".toList
    (fun properties =>
      match st.classStack with
      | [] => none
      | top :: _ =>
        match st.classes[top]? with
        | none => none
        | some owner =>
          base { st with
            classes := st.classes.set top
              { owner with
                variables_ := owner.variables_ ++ [variableOf st.path decl properties] } }) :=
    rfl
  rw [e, h]
  simp only [hcs, ho]

theorem TraverseCXXMethodDecl_annotated (base : ASTFileParser → Option ASTFileParser)
    (decl : DeclInfo) (st : ASTFileParser) (ps : List Property)
    (hi : DeclIsIncluded st decl = false)
    (hg : GetProperties decl.lineAbove "CGMETHOD".toList = some ps) (hne : ps ≠ []) :
    TraverseCXXMethodDecl base decl st =
      match base { st with functionStack := functionOf st.path decl ps [] :: st.functionStack } with
      | none => none
      | some st2 => attachToClass st2 :=
  annotatedStep_of_annotated st decl _ _ ps hi hg hne

theorem TraverseCXXConstructorDecl_annotated (base : ASTFileParser → Option ASTFileParser)
    (decl : DeclInfo) (st : ASTFileParser) (ps : List Property)
    (hi : DeclIsIncluded st decl = false)
    (hg : GetProperties decl.lineAbove "CGCONSTRUCTOR".toList = some ps) (hne : ps ≠ []) :
    TraverseCXXConstructorDecl base decl st =
      match base { st with
          functionStack := constructorOf st.path decl ps [] :: st.functionStack } with
      | none => none
      | some st2 => attachToClass st2 :=
  annotatedStep_of_annotated st decl _ _ ps hi hg hne

theorem TraverseFunctionDecl_annotated (base : ASTFileParser → Option ASTFileParser)
    (decl : DeclInfo) (st : ASTFileParser) (ps : List Property)
    (hi : DeclIsIncluded st decl = false)
    (hg : GetProperties decl.lineAbove "CGFUNCTION".toList = some ps) (hne : ps ≠ []) :
    TraverseFunctionDecl base decl st =
      match base { st with functionStack := functionOf st.path decl ps [] :: st.functionStack } with
      | none => none
      | some st2 =>
        match st2.functionStack with
        | [] => none
        | top :: rest =>
          some { st2 with functions := st2.functions ++ [top], functionStack := rest } :=
  annotatedStep_of_annotated st decl _ _ ps hi hg hne

theorem TraverseVarDecl_annotated (base : ASTFileParser → Option ASTFileParser)
    (decl : DeclInfo) (st : ASTFileParser) (ps : List Property)
    (hi : DeclIsIncluded st decl = false)
    (hg : GetProperties decl.lineAbove "CGVARIABLE".toList = some ps) (hne : ps ≠ []) :
    TraverseVarDecl base decl st =
      base { st with variables_ := st.variables_ ++ [variableOf st.path decl ps] } :=
  annotatedStep_of_annotated st decl _ _ ps hi hg hne

theorem TraverseParmVarDecl_open (base : ASTFileParser → Option ASTFileParser)
    (decl : DeclInfo) (st : ASTFileParser) (function : Function) (rest : List Function)
    (hi : DeclIsIncluded st decl = false) (hfs : st.functionStack = function :: rest) :
    TraverseParmVarDecl base decl st =
      base { st with
        functionStack :=
          { function with parameters := function.parameters ++ [parameterOf st.path decl] } ::
            rest } := by
  unfold TraverseParmVarDecl
  rw [hi, hfs]
  rfl

theorem traverseChildren_parameters (parms : List DeclInfo) (rest : List Function) :
    ∀ (st : ASTFileParser) (function : Function),
      (∀ q ∈ parms, DeclIsIncluded st q = false) →
      traverseChildren (parms.map parmLeaf) { st with functionStack := function :: rest }
        = some { st with
            functionStack :=
              { function with
                parameters := function.parameters ++ parms.map (parameterOf st.path) } ::
                rest } := by
  induction parms with
  | nil =>
    intro st function _
    simp [traverseChildren]
  | cons q qs ih =>
    intro st function hin
    have hq : DeclIsIncluded { st with functionStack := function :: rest } q = false :=
      hin q (List.mem_cons_self q qs)
    rw [List.map_cons, traverseChildren, parmLeaf, TraverseDecl, traverseKind,
      TraverseParmVarDecl_open _ q _ function rest hq rfl, traverseChildren]
    simp only []
    have h2 := ih st { function with parameters := function.parameters ++ [parameterOf st.path q] }
      (fun x hx => hin x (List.mem_cons_of_mem q hx))
    simp only [] at h2
    rw [h2]
    simp [List.append_assoc]

theorem TraverseDecl_method_with_parameters (m : DeclInfo) (parms : List DeclInfo)
    (psM : List Property) (st : ASTFileParser) (top : Nat) (cs : List Nat) (owner : Class)
    (hm : DeclIsIncluded st m = false)
    (hgm : GetProperties m.lineAbove "CGMETHOD".toList = some psM) (hnm : psM ≠ [])
    (hin : ∀ q ∈ parms, DeclIsIncluded st q = false)
    (hcs : st.classStack = top :: cs) (ho : st.classes[top]? = some owner) :
    TraverseDecl (Decl.mk DeclKind.CXXMethod m (parms.map parmLeaf)) st
      = some { st with
          classes := st.classes.set top
            { owner with
              functions := owner.functions ++
                [functionOf st.path m psM (parms.map (parameterOf st.path))] } } := by
  rw [TraverseDecl, traverseKind, TraverseCXXMethodDecl_annotated _ m st psM hm hgm hnm,
    traverseChildren_parameters parms st.functionStack st _ hin]
  simp only [attachToClass, hcs, ho]
  simp [functionOf]

theorem TraverseDecl_function_with_parameters (f : DeclInfo) (parms : List DeclInfo)
    (psF : List Property) (st : ASTFileParser)
    (hf : DeclIsIncluded st f = false)
    (hgf : GetProperties f.lineAbove "CGFUNCTION".toList = some psF) (hnf : psF ≠ [])
    (hin : ∀ q ∈ parms, DeclIsIncluded st q = false) :
    TraverseDecl (Decl.mk DeclKind.Function f (parms.map parmLeaf)) st
      = some { st with
          functions := st.functions ++
            [functionOf st.path f psF (parms.map (parameterOf st.path))] } := by
  rw [TraverseDecl, traverseKind, TraverseFunctionDecl_annotated _ f st psF hf hgf hnf,
    traverseChildren_parameters parms st.functionStack st _ hin]
  simp [functionOf]

/-- A unit that holds one annotated class with one annotated method with `n` parameters
gives a model with exactly one class, which has exactly one function, whose parameters are
the `n` declared ones in declaration order, each with its name and, as its type, the text
that `GetTypeAsString` returns; the lines above the parameters play no part. -/
theorem class_with_one_method (path : Str) (unitInfo c m : DeclInfo) (parms : List DeclInfo)
    (psC psM : List Property)
    (hc : DeclIsIncluded { path := path } c = false)
    (hgc : GetProperties c.lineAbove "CGCLASS".toList = some psC) (hnc : psC ≠ [])
    (hm : DeclIsIncluded { path := path } m = false)
    (hgm : GetProperties m.lineAbove "CGMETHOD".toList = some psM) (hnm : psM ≠ [])
    (hin : ∀ q ∈ parms, DeclIsIncluded { path := path } q = false) :
    parseUnit path
        (Decl.mk DeclKind.Other unitInfo
          [Decl.mk DeclKind.CXXRecord c [Decl.mk DeclKind.CXXMethod m (parms.map parmLeaf)]])
      = some { path := path
               classes := [classOf path c psC []
                 [functionOf path m psM (parms.map (parameterOf path))]] } := by
  have key := TraverseDecl_method_with_parameters m parms psM
    { path := path, classes := [classOf path c psC [] []], classStack := [0] }
    0 [] (classOf path c psC [] []) hm hgm hnm hin rfl rfl
  rw [parseUnit, TraverseDecl, traverseKind, traverseChildren, TraverseDecl, traverseKind,
    TraverseCXXRecordDecl_annotated _ c _ psC hc hgc hnc, traverseChildren]
  simp only [List.nil_append, List.length_nil]
  rw [key]
  simp [traverseChildren, classOf]

theorem class_with_one_method_witness :
    parseUnit "/p/a.h".toList
        (Decl.mk DeclKind.Other {}
          [Decl.mk DeclKind.CXXRecord { name := "A".toList, lineAbove := "CGCLASS()".toList }
            [Decl.mk DeclKind.CXXMethod
              { name := "m".toList, lineAbove := "CGMETHOD()".toList,
                source := "void m(int x, float y)".toList }
              ([{ name := "x".toList, lineAbove := "CGMEMBER()".toList, source := "int x".toList },
                { name := "y".toList, source := "float y".toList }].map parmLeaf)]])
      = some { path := "/p/a.h".toList
               classes := [classOf "/p/a.h".toList
                 { name := "A".toList, lineAbove := "CGCLASS()".toList }
                 [{ name := "CGCLASS".toList }, { name := [] }] []
                 [functionOf "/p/a.h".toList
                   { name := "m".toList, lineAbove := "CGMETHOD()".toList,
                     source := "void m(int x, float y)".toList }
                   [{ name := "CGMETHOD".toList }, { name := [] }]
                   ([{ name := "x".toList, lineAbove := "CGMEMBER()".toList,
                       source := "int x".toList },
                     { name := "y".toList, source := "float y".toList }].map
                     (parameterOf "/p/a.h".toList))]] } :=
  class_with_one_method "/p/a.h".toList {} _ _ _ _ _ rfl rfl (by simp) rfl rfl (by simp)
    (by decide)

/-- C14: the unit `/p/a.h` holds the class `Foo` under the line `CGCLASS()` with the one
method `void add(int i, double x)` under the line `CGMETHOD()`. The model has exactly one
class with exactly one function with the two parameters `i` and `x` in declaration order,
but the type recorded for `i` is the text `int i` and not the type spelling `int`: the name
`i` is first found inside `int`. The type recorded for `x` is the spelling `double`. -/
theorem class_with_one_method_type_of_parameter :
    parseUnit "/p/a.h".toList
        (Decl.mk DeclKind.Other {}
          [Decl.mk DeclKind.CXXRecord
            { name := "Foo".toList, qualifiedName := "Foo".toList,
              lineAbove := "CGCLASS()".toList, source := "class Foo".toList,
              file := some "/p/a.h".toList }
            [Decl.mk DeclKind.CXXMethod
              { name := "add".toList, qualifiedName := "Foo::add".toList,
                lineAbove := "CGMETHOD()".toList, source := "void add(int i, double x)".toList,
                file := some "/p/a.h".toList }
              [Decl.mk DeclKind.ParmVar
                 { name := "i".toList, qualifiedName := "i".toList, source := "int i".toList,
                   file := some "/p/a.h".toList } [],
               Decl.mk DeclKind.ParmVar
                 { name := "x".toList, qualifiedName := "x".toList,
                   source := "double x".toList, file := some "/p/a.h".toList } []]]])
      = some
        { path := "/p/a.h".toList
          classes :=
            [{ name := "Foo".toList, fullNamespace := "Foo".toList, path := "/p/a.h".toList
               properties := [{ name := "CGCLASS".toList }, { name := [] }]
               functions :=
                 [{ name := "add".toList, fullNamespace := "Foo::add".toList
                    path := "/p/a.h".toList
                    properties := [{ name := "CGMETHOD".toList }, { name := [] }]
                    returnType := "void".toList
                    parameters :=
                      [{ name := "i".toList, fullNamespace := "i".toList
                         path := "/p/a.h".toList, type := "int i".toList },
                       { name := "x".toList, fullNamespace := "x".toList
                         path := "/p/a.h".toList, type := "double".toList }] }] }] } ∧
    "int i".toList ≠ "int".toList := by
  refine ⟨by rfl, by decide⟩

theorem TraverseDecl_field_leaf (decl : DeclInfo) (st : ASTFileParser) (ps : List Property)
    (top : Nat) (cs : List Nat) (owner : Class) (hi : DeclIsIncluded st decl = false)
    (hg : GetProperties decl.lineAbove "CGMEMBER".toList = some ps) (hne : ps ≠ [])
    (hcs : st.classStack = top :: cs) (ho : st.classes[top]? = some owner) :
    TraverseDecl (Decl.mk DeclKind.Field decl []) st
      = some { st with
          classes := st.classes.set top
            { owner with variables_ := owner.variables_ ++ [variableOf st.path decl ps] } } := by
  rw [TraverseDecl, traverseKind, TraverseFieldDecl_annotated _ decl st ps top cs owner hi hg hne
    hcs ho, traverseChildren]

/-- C15: an annotated field is attached to the class whose index is on top of the
open-class stack and to no other class. For an annotated class `A` that contains an
annotated nested class `B` with the annotated field `g`, followed by the annotated field
`f` of `A`, the model is `[A, B]` with `f` the only field of `A` and `g` the only field of
`B`. -/
theorem fields_attach_to_innermost_class (path : Str) (unitInfo a b g f : DeclInfo)
    (psA psB psG psF : List Property)
    (ha : DeclIsIncluded { path := path } a = false)
    (hga : GetProperties a.lineAbove "CGCLASS".toList = some psA) (hna : psA ≠ [])
    (hb : DeclIsIncluded { path := path } b = false)
    (hgb : GetProperties b.lineAbove "CGCLASS".toList = some psB) (hnb : psB ≠ [])
    (hg : DeclIsIncluded { path := path } g = false)
    (hgg : GetProperties g.lineAbove "CGMEMBER".toList = some psG) (hng : psG ≠ [])
    (hf : DeclIsIncluded { path := path } f = false)
    (hgf : GetProperties f.lineAbove "CGMEMBER".toList = some psF) (hnf : psF ≠ []) :
    (∀ (st : ASTFileParser) (top : Nat) (cs : List Nat) (owner : Class),
      st.path = path → st.classStack = top :: cs → st.classes[top]? = some owner →
      TraverseDecl (Decl.mk DeclKind.Field f []) st
        = some { st with
            classes := st.classes.set top
              { owner with variables_ := owner.variables_ ++ [variableOf path f psF] } }) ∧
    (∀ (m : DeclInfo) (parms : List DeclInfo) (psM : List Property) (st : ASTFileParser)
        (top : Nat) (cs : List Nat) (owner : Class),
      DeclIsIncluded st m = false →
      GetProperties m.lineAbove "CGMETHOD".toList = some psM → psM ≠ [] →
      (∀ q ∈ parms, DeclIsIncluded st q = false) →
      st.classStack = top :: cs → st.classes[top]? = some owner →
      TraverseDecl (Decl.mk DeclKind.CXXMethod m (parms.map parmLeaf)) st
        = some { st with
            classes := st.classes.set top
              { owner with
                functions := owner.functions ++
                  [functionOf st.path m psM (parms.map (parameterOf st.path))] } }) ∧
    parseUnit path
        (Decl.mk DeclKind.Other unitInfo
          [Decl.mk DeclKind.CXXRecord a
            [Decl.mk DeclKind.CXXRecord b [Decl.mk DeclKind.Field g []],
             Decl.mk DeclKind.Field f []]])
      = some { path := path
               classes := [classOf path a psA [variableOf path f psF] [],
                           classOf path b psB [variableOf path g psG] []] } := by
  refine ⟨?_, ?_, ?_⟩
  · intro st top cs owner hp hcs ho
    have hi : DeclIsIncluded st f = false := by
      unfold DeclIsIncluded at hf ⊢
      rw [hp]
      exact hf
    rw [TraverseDecl_field_leaf f st psF top cs owner hi hgf hnf hcs ho, hp]
  · intro m parms psM st top cs owner hm hgm hnm hin hcs ho
    exact TraverseDecl_method_with_parameters m parms psM st top cs owner hm hgm hnm hin hcs ho
  · have kg := TraverseDecl_field_leaf g
      { path := path, classes := [classOf path a psA [] [], classOf path b psB [] []],
        classStack := [1, 0] }
      psG 1 [0] (classOf path b psB [] []) hg hgg hng rfl rfl
    have kb : TraverseDecl (Decl.mk DeclKind.CXXRecord b [Decl.mk DeclKind.Field g []])
        { path := path, classes := [classOf path a psA [] []], classStack := [0] }
        = some { path := path
                 classes := [classOf path a psA [] [], classOf path b psB [variableOf path g psG] []]
                 classStack := [0] } := by
      rw [TraverseDecl, traverseKind,
        TraverseCXXRecordDecl_annotated _ b
          { path := path, classes := [classOf path a psA [] []], classStack := [0] }
          psB hb hgb hnb,
        traverseChildren]
      simp only [List.singleton_append, List.length_singleton]
      rw [kg]
      simp [traverseChildren, classOf]
    have kf := TraverseDecl_field_leaf f
      { path := path
        classes := [classOf path a psA [] [], classOf path b psB [variableOf path g psG] []]
        classStack := [0] }
      psF 0 [] (classOf path a psA [] []) hf hgf hnf rfl rfl
    rw [parseUnit, TraverseDecl, traverseKind, traverseChildren, TraverseDecl, traverseKind,
      TraverseCXXRecordDecl_annotated _ a _ psA ha hga hna, traverseChildren]
    simp only [List.nil_append, List.length_nil]
    rw [kb]
    simp only []
    rw [traverseChildren, kf]
    simp [traverseChildren, classOf]

theorem fields_attach_to_innermost_class_witness :
    parseUnit "/p/a.h".toList
        (Decl.mk DeclKind.Other {}
          [Decl.mk DeclKind.CXXRecord { name := "A".toList, lineAbove := "CGCLASS()".toList }
            [Decl.mk DeclKind.CXXRecord { name := "B".toList, lineAbove := "CGCLASS()".toList }
              [Decl.mk DeclKind.Field
                { name := "g".toList, lineAbove := "CGMEMBER()".toList,
                  source := "int g".toList } []],
             Decl.mk DeclKind.Field
               { name := "f".toList, lineAbove := "CGMEMBER()".toList,
                 source := "int f".toList } []]])
      = some { path := "/p/a.h".toList
               classes :=
                 [classOf "/p/a.h".toList { name := "A".toList, lineAbove := "CGCLASS()".toList }
                    [{ name := "CGCLASS".toList }, { name := [] }]
                    [variableOf "/p/a.h".toList
                      { name := "f".toList, lineAbove := "CGMEMBER()".toList,
                        source := "int f".toList }
                      [{ name := "CGMEMBER".toList }, { name := [] }]] [],
                  classOf "/p/a.h".toList { name := "B".toList, lineAbove := "CGCLASS()".toList }
                    [{ name := "CGCLASS".toList }, { name := [] }]
                    [variableOf "/p/a.h".toList
                      { name := "g".toList, lineAbove := "CGMEMBER()".toList,
                        source := "int g".toList }
                      [{ name := "CGMEMBER".toList }, { name := [] }]] []] } :=
  (fields_attach_to_innermost_class "/p/a.h".toList {}
    { name := "A".toList, lineAbove := "CGCLASS()".toList }
    { name := "B".toList, lineAbove := "CGCLASS()".toList }
    { name := "g".toList, lineAbove := "CGMEMBER()".toList, source := "int g".toList }
    { name := "f".toList, lineAbove := "CGMEMBER()".toList, source := "int f".toList }
    [{ name := "CGCLASS".toList }, { name := [] }] [{ name := "CGCLASS".toList }, { name := [] }]
    [{ name := "CGMEMBER".toList }, { name := [] }] [{ name := "CGMEMBER".toList }, { name := [] }]
    rfl rfl (by simp) rfl rfl (by simp) rfl rfl (by simp) rfl rfl (by simp)).2.2

/-! ## The scope tracker: parameters -/

/-- C16 (counterexample): the free function `void f(int, int)` has two parameter
declarations with the same (empty) name, and the function record of the model holds both:
its parameter names are not pairwise distinct. -/
theorem duplicate_parameter_names_kept :
    (parseUnit "/p/a.h".toList
        (Decl.mk DeclKind.Other {}
          [Decl.mk DeclKind.Function
            { name := "f".toList, lineAbove := "CGFUNCTION()".toList,
              source := "void f(int, int)".toList, file := some "/p/a.h".toList }
            [Decl.mk DeclKind.ParmVar { source := "int".toList, file := some "/p/a.h".toList } [],
             Decl.mk DeclKind.ParmVar { source := "int".toList, file := some "/p/a.h".toList } []]])).map
        (fun parser => parser.functions.map (fun f => f.parameters.map (fun q => q.name)))
      = some [[[], []]] ∧
    ¬ ([[], []] : List Str).Nodup := by
  refine ⟨by rfl, by decide⟩

/-- C16 (amended): for every parser with an open function and every parameter declaration of
the unit, `TraverseParmVarDecl` appends the parameter to the parameters of the function on
top of the open-function stack and then runs the default traversal of the subtree, whatever
names are already in the list: the list is never left unchanged, and when the name is
already there the names of the list are no longer pairwise distinct. In particular an
annotated free function whose children are `n` parameter declarations without children
gets all `n` parameters in order, so the names of that record are pairwise distinct
exactly when the `n` declared names are. -/
theorem parameters_always_appended (path : Str) (unitInfo f : DeclInfo)
    (parms : List DeclInfo) (psF : List Property)
    (hf : DeclIsIncluded { path := path } f = false)
    (hgf : GetProperties f.lineAbove "CGFUNCTION".toList = some psF) (hnf : psF ≠ [])
    (hin : ∀ q ∈ parms, DeclIsIncluded { path := path } q = false) :
    (∀ (base : ASTFileParser → Option ASTFileParser) (decl : DeclInfo) (st : ASTFileParser)
        (function : Function) (rest : List Function),
      DeclIsIncluded st decl = false → st.functionStack = function :: rest →
      TraverseParmVarDecl base decl st =
        base { st with
          functionStack :=
            { function with parameters := function.parameters ++ [parameterOf st.path decl] } ::
              rest }) ∧
    (∀ (decl : DeclInfo) (st : ASTFileParser) (function : Function) (rest : List Function),
      DeclIsIncluded st decl = false → st.functionStack = function :: rest →
      hasParameterNamed function.parameters decl.name = true →
      TraverseDecl (parmLeaf decl) st =
        some { st with
          functionStack :=
            { function with parameters := function.parameters ++ [parameterOf st.path decl] } ::
              rest } ∧
      ¬ ((function.parameters ++ [parameterOf st.path decl]).map (fun q => q.name)).Nodup) ∧
    parseUnit path
        (Decl.mk DeclKind.Other unitInfo [Decl.mk DeclKind.Function f (parms.map parmLeaf)])
      = some { path := path
               functions := [functionOf path f psF (parms.map (parameterOf path))] } ∧
    (((functionOf path f psF (parms.map (parameterOf path))).parameters.map
        (fun q => q.name)).Nodup ↔ (parms.map (fun q => q.name)).Nodup) := by
  refine ⟨fun base decl st function rest hi hfs =>
    TraverseParmVarDecl_open base decl st function rest hi hfs, ?_, ?_, ?_⟩
  · intro decl st function rest hi hfs hdup
    refine ⟨?_, ?_⟩
    · rw [parmLeaf, TraverseDecl, traverseKind,
        TraverseParmVarDecl_open _ decl st function rest hi hfs, traverseChildren]
    · obtain ⟨q, hq, hqn⟩ := (hasParameterNamed_iff _ _).mp hdup
      intro hnd
      rw [List.map_append, List.nodup_append] at hnd
      refine hnd.2.2 (List.mem_map.mpr ⟨q, hq, hqn⟩) ?_
      simp [parameterOf]
  · rw [parseUnit, TraverseDecl, traverseKind, traverseChildren,
      TraverseDecl_function_with_parameters f parms psF { path := path } hf hgf hnf hin]
    simp [traverseChildren]
  · simp [functionOf, parameterOf, List.map_map, Function.comp_def]

theorem parameters_always_appended_witness :
    parseUnit "/p/a.h".toList
        (Decl.mk DeclKind.Other {}
          [Decl.mk DeclKind.Function
            { name := "f".toList, lineAbove := "CGFUNCTION()".toList,
              source := "void f(int, int)".toList }
            ([{ source := "int".toList }, { source := "int".toList }].map parmLeaf)])
      = some { path := "/p/a.h".toList
               functions :=
                 [functionOf "/p/a.h".toList
                   { name := "f".toList, lineAbove := "CGFUNCTION()".toList,
                     source := "void f(int, int)".toList }
                   [{ name := "CGFUNCTION".toList }, { name := [] }]
                   ([{ source := "int".toList }, { source := "int".toList }].map
                     (parameterOf "/p/a.h".toList))] } :=
  (parameters_always_appended "/p/a.h".toList {}
    { name := "f".toList, lineAbove := "CGFUNCTION()".toList,
      source := "void f(int, int)".toList }
    [{ source := "int".toList }, { source := "int".toList }]
    [{ name := "CGFUNCTION".toList }, { name := [] }] rfl rfl (by simp) (by decide)).2.2.1

/-! ## The scope tracker: unannotated classes -/

/-- C18 (counterexample): the class `N` is annotated and nested in the class `U`, which has
no annotation line; the model of the unit has no class at all. -/
theorem nested_class_in_unannotated_class_lost :
    parseUnit "/p/a.h".toList
        (Decl.mk DeclKind.Other {}
          [Decl.mk DeclKind.CXXRecord { name := "U".toList, lineAbove := "".toList, file := some "/p/a.h".toList }
            [Decl.mk DeclKind.CXXRecord
              { name := "N".toList, lineAbove := "CGCLASS()".toList, file := some "/p/a.h".toList } []]])
      = some { path := "/p/a.h".toList, classes := [] } := by
  rfl

/-- C18 (amended): for a class-like declaration of the unit whose `CGCLASS` property list
is empty, `TraverseCXXRecordDecl` makes no class and returns the parser unchanged without
running the default traversal: the children are not traversed, whatever they are. -/
theorem unannotated_class_skipped (decl : DeclInfo) (children : List Decl)
    (st : ASTFileParser) (hi : DeclIsIncluded st decl = false)
    (hg : GetProperties decl.lineAbove "CGCLASS".toList = some []) :
    TraverseDecl (Decl.mk DeclKind.CXXRecord decl children) st = some st ∧
      ∀ base : ASTFileParser → Option ASTFileParser,
        TraverseCXXRecordDecl base decl st = some st := by
  have key : ∀ base : ASTFileParser → Option ASTFileParser,
      TraverseCXXRecordDecl base decl st = some st := by
    intro base
    unfold TraverseCXXRecordDecl
    rw [hi, hg]
    rfl
  refine ⟨?_, key⟩
  rw [TraverseDecl, traverseKind]
  exact key _

theorem unannotated_class_skipped_witness :
    TraverseDecl
        (Decl.mk DeclKind.CXXRecord { name := "U".toList, lineAbove := "class U".toList }
          [Decl.mk DeclKind.CXXRecord { name := "N".toList, lineAbove := "CGCLASS()".toList } []])
        { path := "/p/a.h".toList }
      = some { path := "/p/a.h".toList } :=
  (unannotated_class_skipped { name := "U".toList, lineAbove := "class U".toList }
    [Decl.mk DeclKind.CXXRecord { name := "N".toList, lineAbove := "CGCLASS()".toList } []]
    { path := "/p/a.h".toList } rfl rfl).1

/-! ## The scope tracker: properties of the records -/

theorem ModelAnnotated_set_class (st : ASTFileParser) (top : Nat) (c : Class)
    (h : ModelAnnotated st) (hc : ClassAnnotated c) :
    ModelAnnotated { st with classes := st.classes.set top c } := by
  obtain ⟨h1, h2, h3, h4⟩ := h
  refine ⟨?_, h2, h3, h4⟩
  intro x hx
  rcases List.mem_or_eq_of_mem_set hx with e | e
  · exact h1 x e
  · rw [e]; exact hc

theorem ModelAnnotated_push (st : ASTFileParser) (f : Function) (h : ModelAnnotated st)
    (hf : FunctionAnnotated f) :
    ModelAnnotated { st with functionStack := f :: st.functionStack } := by
  obtain ⟨h1, h2, h3, h4⟩ := h
  refine ⟨h1, h2, h3, ?_⟩
  intro x hx
  rcases List.mem_cons.mp hx with e | e
  · rw [e]; exact hf
  · exact h4 x e

theorem attachToClass_annotated (mid st2 : ASTFileParser) (h : attachToClass mid = some st2)
    (hm : ModelAnnotated mid) : ModelAnnotated st2 := by
  obtain ⟨top, cs, function, rest, owner, _, hfs, ho, hr⟩ := attachToClass_some mid st2 h
  have hown : ClassAnnotated owner := hm.1 owner (List.getElem?_mem ho)
  have hfun : FunctionAnnotated function :=
    hm.2.2.2 function (by rw [hfs]; exact List.mem_cons_self function rest)
  rw [hr]
  obtain ⟨h1, h2, h3, h4⟩ := hm
  refine ⟨?_, h2, h3, ?_⟩
  · intro x hx
    rcases List.mem_or_eq_of_mem_set hx with e | e
    · exact h1 x e
    · rw [e]
      refine ⟨hown.1, hown.2.1, ?_⟩
      intro g hg
      rcases List.mem_append.mp hg with e2 | e2
      · exact hown.2.2 g e2
      · rw [List.mem_singleton.mp e2]; exact hfun
  · intro x hx
    exact h4 x (by rw [hfs]; exact List.mem_cons_of_mem function hx)

theorem traverseKind_annotated (kind : DeclKind) (base : ASTFileParser → Option ASTFileParser)
    (decl : DeclInfo)
    (hb : ∀ s s2, base s = some s2 → ModelAnnotated s → ModelAnnotated s2)
    (st st2 : ASTFileParser) (h : traverseKind kind base decl st = some st2)
    (hm : ModelAnnotated st) : ModelAnnotated st2 := by
  cases kind with
  | CXXRecord =>
    rcases annotatedStep_cases st st2 decl "CGCLASS".toList _ h with h1 | ⟨ps, _, _, hne, h1⟩
    · rw [h1]; exact hm
    · simp only [] at h1
      split at h1
      · exact absurd h1 (by simp)
      · rename_i mid hmid
        have hmid2 : ModelAnnotated mid := by
          apply hb _ _ hmid
          obtain ⟨k1, k2, k3, k4⟩ := hm
          refine ⟨?_, k2, k3, k4⟩
          intro x hx
          rcases List.mem_append.mp hx with e | e
          · exact k1 x e
          · rw [List.mem_singleton.mp e]
            exact ⟨hne, fun v hv => absurd hv (List.not_mem_nil v),
              fun f hf => absurd hf (List.not_mem_nil f)⟩
        split at h1
        · exact absurd h1 (by simp)
        · rw [← Option.some.inj h1]
          exact ⟨hmid2.1, hmid2.2.1, hmid2.2.2.1, hmid2.2.2.2⟩
  | Field =>
    rcases annotatedStep_cases st st2 decl "CGMEMBER".toList _ h with h1 | ⟨ps, _, _, hne, h1⟩
    · rw [h1]; exact hm
    · simp only [] at h1
      split at h1
      · exact absurd h1 (by simp)
      · split at h1
        · exact absurd h1 (by simp)
        · rename_i owner ho
          have hown : ClassAnnotated owner := hm.1 owner (List.getElem?_mem ho)
          apply hb _ _ h1
          apply ModelAnnotated_set_class st _ _ hm
          refine ⟨hown.1, ?_, hown.2.2⟩
          intro v hv
          rcases List.mem_append.mp hv with e | e
          · exact hown.2.1 v e
          · rw [List.mem_singleton.mp e]; exact hne
  | CXXMethod =>
    rcases annotatedStep_cases st st2 decl "CGMETHOD".toList _ h with h1 | ⟨ps, _, _, hne, h1⟩
    · rw [h1]; exact hm
    · simp only [] at h1
      split at h1
      · exact absurd h1 (by simp)
      · rename_i mid hmid
        exact attachToClass_annotated mid st2 h1
          (hb _ _ hmid (ModelAnnotated_push st _ hm
            ⟨hne, fun q hq => absurd hq (List.not_mem_nil q)⟩))
  | CXXConstructor =>
    rcases annotatedStep_cases st st2 decl "CGCONSTRUCTOR".toList _ h with
      h1 | ⟨ps, _, _, hne, h1⟩
    · rw [h1]; exact hm
    · simp only [] at h1
      split at h1
      · exact absurd h1 (by simp)
      · rename_i mid hmid
        exact attachToClass_annotated mid st2 h1
          (hb _ _ hmid (ModelAnnotated_push st _ hm
            ⟨hne, fun q hq => absurd hq (List.not_mem_nil q)⟩))
  | ParmVar =>
    unfold traverseKind TraverseParmVarDecl at h
    simp only [] at h
    split at h
    · rw [← Option.some.inj h]; exact hm
    · split at h
      · rename_i function rest hfs
        apply hb _ _ h
        obtain ⟨k1, k2, k3, k4⟩ := hm
        refine ⟨k1, k2, k3, ?_⟩
        intro x hx
        have hfun : FunctionAnnotated function :=
          k4 function (by rw [hfs]; exact List.mem_cons_self function rest)
        rcases List.mem_cons.mp hx with e | e
        · rw [e]
          refine ⟨hfun.1, ?_⟩
          intro q hq
          rcases List.mem_append.mp hq with e2 | e2
          · exact hfun.2 q e2
          · rw [List.mem_singleton.mp e2]
        · exact k4 x (by rw [hfs]; exact List.mem_cons_of_mem function e)
      · apply hb _ _ h
        exact ⟨hm.1, hm.2.1, hm.2.2.1, hm.2.2.2⟩
  | Var =>
    rcases annotatedStep_cases st st2 decl "CGVARIABLE".toList _ h with h1 | ⟨ps, _, _, hne, h1⟩
    · rw [h1]; exact hm
    · apply hb _ _ h1
      obtain ⟨k1, k2, k3, k4⟩ := hm
      refine ⟨k1, k2, ?_, k4⟩
      intro v hv
      rcases List.mem_append.mp hv with e | e
      · exact k3 v e
      · rw [List.mem_singleton.mp e]; exact hne
  | Function =>
    rcases annotatedStep_cases st st2 decl "CGFUNCTION".toList _ h with h1 | ⟨ps, _, _, hne, h1⟩
    · rw [h1]; exact hm
    · simp only [] at h1
      split at h1
      · exact absurd h1 (by simp)
      · rename_i mid hmid
        have hmid2 : ModelAnnotated mid :=
          hb _ _ hmid (ModelAnnotated_push st _ hm
            ⟨hne, fun q hq => absurd hq (List.not_mem_nil q)⟩)
        split at h1
        · exact absurd h1 (by simp)
        · rename_i top rest hfs
          rw [← Option.some.inj h1]
          obtain ⟨k1, k2, k3, k4⟩ := hmid2
          refine ⟨k1, ?_, k3, ?_⟩
          · intro f hf
            rcases List.mem_append.mp hf with e | e
            · exact k2 f e
            · rw [List.mem_singleton.mp e]
              exact k4 top (by rw [hfs]; exact List.mem_cons_self top rest)
          · intro f hf
            exact k4 f (by rw [hfs]; exact List.mem_cons_of_mem top hf)
  | Other => exact hb st st2 h hm

theorem TraverseDecl_annotated (d : Decl) (st st2 : ASTFileParser)
    (h : TraverseDecl d st = some st2) (hm : ModelAnnotated st) : ModelAnnotated st2 :=
  TraverseDecl_rel (fun s s2 => ModelAnnotated s → ModelAnnotated s2) (fun _ h => h)
    (fun _ _ _ h1 h2 h => h2 (h1 h))
    (fun kind base decl hb st st2 h => traverseKind_annotated kind base decl hb st st2 h)
    d st st2 h hm

/-- C17 (counterexample): the parameter `x` of the annotated free function `int f(int x)`
is a Variable record of the model with an empty property list. -/
theorem parameter_without_properties :
    (parseUnit "/p/a.h".toList
        (Decl.mk DeclKind.Other {}
          [Decl.mk DeclKind.Function
            { name := "f".toList, lineAbove := "CGFUNCTION()".toList,
              source := "int f(int x)".toList, file := some "/p/a.h".toList }
            [Decl.mk DeclKind.ParmVar
              { name := "x".toList, lineAbove := "CGFUNCTION()".toList,
                source := "int x".toList, file := some "/p/a.h".toList } []]])).map
        (fun parser => parser.functions.map
          (fun f => f.parameters.map (fun q => (q.name, q.properties.length))))
      = some [[("x".toList, 0)]] := by
  rfl

/-- C17 (amended): in the model of every unit, every class, every function and every field
and top-level variable has a non-empty property list, and every parameter of every function
has an empty property list; a scoped unit does have a model. -/
theorem records_annotated_but_parameters (path : Str) (d : Decl) :
    (∀ parser, parseUnit path d = some parser →
      (∀ c ∈ parser.classes, c.properties ≠ [] ∧ (∀ v ∈ c.variables_, v.properties ≠ []) ∧
        ∀ f ∈ c.functions, f.properties ≠ [] ∧ ∀ q ∈ f.parameters, q.properties = []) ∧
      (∀ f ∈ parser.functions, f.properties ≠ [] ∧ ∀ q ∈ f.parameters, q.properties = []) ∧
      (∀ v ∈ parser.variables_, v.properties ≠ [])) ∧
    (d.scoped false = true → ∃ parser, parseUnit path d = some parser) := by
  constructor
  · intro parser h
    have hm : ModelAnnotated parser := by
      apply TraverseDecl_annotated d { path := path } parser h
      refine ⟨?_, ?_, ?_, ?_⟩ <;> intro x hx <;> exact absurd hx (List.not_mem_nil x)
    exact ⟨hm.1, hm.2.1, hm.2.2.1⟩
  · intro hs
    exact TraverseDecl_total d false { path := path } hs
      (fun i hi => absurd hi (List.not_mem_nil i)) (fun hb => absurd hb (by decide))

theorem records_annotated_but_parameters_witness :
    ∃ parser,
      parseUnit "/p/a.h".toList
        (Decl.mk DeclKind.Other {}
          [Decl.mk DeclKind.Function
            { name := "f".toList, lineAbove := "CGFUNCTION()".toList,
              source := "int f(int x)".toList }
            [Decl.mk DeclKind.ParmVar { name := "x".toList, source := "int x".toList } []]])
        = some parser :=
  (records_annotated_but_parameters "/p/a.h".toList _).2 (by decide)

/-! ## The scope tracker: constructors, methods and free functions -/

theorem GetProperties_of_mismatch (line keyword : Str)
    (h : ¬ keyword <+: eraseLeadingSpaces line) : GetProperties line keyword = some [] := by
  have h0 : findStr (eraseLeadingSpaces line) keyword ≠ 0 :=
    fun e => h ((findStr_eq_zero_iff _ _).mp e)
  have h1 : (findStr (eraseLeadingSpaces line) keyword != 0) = true := by
    simpa using h0
  unfold GetProperties
  simp only [h1, if_true]

theorem GetProperties_constructor_of_method_line (ws rest : Str)
    (hws : ∀ c ∈ ws, isspace c = true) :
    GetProperties (ws ++ ("CGMETHOD".toList ++ rest)) "CGCONSTRUCTOR".toList = some [] := by
  apply GetProperties_of_mismatch
  rw [eraseLeadingSpaces_append ws _ hws (by
    intro c hc
    simp only [String.toList, List.cons_append, List.head?_cons, Option.mem_def] at hc
    rw [← Option.some.inj hc]
    decide)]
  intro hp
  obtain ⟨t, ht⟩ := hp
  have h2 := congrArg (fun l : Str => l.take 3) ht
  simp only [String.toList, List.cons_append, List.take_succ_cons, List.take_zero] at h2
  exact absurd h2 (by decide)

theorem attached_function_last (function : Function) (st mid st2 : ASTFileParser)
    (hmid : mid.classStack = st.classStack ∧ st.classes.length ≤ mid.classes.length ∧
      mid.path = st.path ∧ ∃ extra, mid.functionStack =
        { function with parameters := function.parameters ++ extra } :: st.functionStack)
    (h : attachToClass mid = some st2) :
    ∃ top cs owner extra, st.classStack = top :: cs ∧ st2.classes[top]? = some owner ∧
      owner.functions.getLast? =
        some { function with parameters := function.parameters ++ extra } := by
  obtain ⟨k1, _, _, extra, k2⟩ := hmid
  obtain ⟨top, cs, f, rest, owner, hcs, hfs, ho, hr⟩ := attachToClass_some mid st2 h
  rw [k2] at hfs
  rw [k1] at hcs
  have hlt : top < mid.classes.length := by
    rcases Nat.lt_or_ge top mid.classes.length with h1 | h1
    · exact h1
    · rw [List.getElem?_eq_none h1] at ho
      exact absurd ho (by simp)
  refine ⟨top, cs, { owner with functions := owner.functions ++ [f] }, extra, hcs, ?_, ?_⟩
  · rw [hr]
    simp only [List.getElem?_set_self hlt]
  · simp only [List.getLast?_concat]
    rw [(List.cons.inj hfs).1]

/-- C20: the function record that a `CGCONSTRUCTOR` constructor adds to its class has the
return type `void` and the constructor flag set; the record that a `CGMETHOD` method adds to
its class and the record that a `CGFUNCTION` free function adds to the top-level list have
the flag unset; and a constructor below a `CGMETHOD` line leaves the parser unchanged. -/
theorem constructor_flag (decl : DeclInfo) (children : List Decl) (st st2 : ASTFileParser)
    (ps : List Property) (hi : DeclIsIncluded st decl = false) (hne : ps ≠ []) :
    (GetProperties decl.lineAbove "CGCONSTRUCTOR".toList = some ps →
      TraverseDecl (Decl.mk DeclKind.CXXConstructor decl children) st = some st2 →
      ∃ top cs owner g, st.classStack = top :: cs ∧ st2.classes[top]? = some owner ∧
        owner.functions.getLast? = some g ∧ g.name = decl.name ∧ g.properties = ps ∧
        g.returnType = "void".toList ∧ g.isConstruptor = true) ∧
    (GetProperties decl.lineAbove "CGMETHOD".toList = some ps →
      TraverseDecl (Decl.mk DeclKind.CXXMethod decl children) st = some st2 →
      ∃ top cs owner g, st.classStack = top :: cs ∧ st2.classes[top]? = some owner ∧
        owner.functions.getLast? = some g ∧ g.name = decl.name ∧ g.properties = ps ∧
        g.returnType = GetTypeAsString decl ∧ g.isConstruptor = false) ∧
    (GetProperties decl.lineAbove "CGFUNCTION".toList = some ps →
      TraverseDecl (Decl.mk DeclKind.Function decl children) st = some st2 →
      ∃ g, st2.functions.getLast? = some g ∧ g.name = decl.name ∧ g.properties = ps ∧
        g.returnType = GetTypeAsString decl ∧ g.isConstruptor = false) ∧
    (∀ ws rest : Str, (∀ c ∈ ws, isspace c = true) →
      decl.lineAbove = ws ++ ("CGMETHOD".toList ++ rest) →
      TraverseDecl (Decl.mk DeclKind.CXXConstructor decl children) st = some st) := by
  refine ⟨?_, ?_, ?_, ?_⟩
  · intro hg h
    rw [TraverseDecl, traverseKind, TraverseCXXConstructorDecl_annotated _ decl st ps hi hg hne]
      at h
    split at h
    · exact absurd h (by simp)
    · rename_i mid hmid
      obtain ⟨top, cs, owner, extra, h1, h2, h3⟩ := attached_function_last _ st mid st2
        (pushed_function_kept _ (fun s s2 hs => traverseChildren_kept children s s2 hs) _ st mid
          hmid) h
      exact ⟨top, cs, owner, _, h1, h2, h3, rfl, rfl, rfl, rfl⟩
  · intro hg h
    rw [TraverseDecl, traverseKind, TraverseCXXMethodDecl_annotated _ decl st ps hi hg hne] at h
    split at h
    · exact absurd h (by simp)
    · rename_i mid hmid
      obtain ⟨top, cs, owner, extra, h1, h2, h3⟩ := attached_function_last _ st mid st2
        (pushed_function_kept _ (fun s s2 hs => traverseChildren_kept children s s2 hs) _ st mid
          hmid) h
      exact ⟨top, cs, owner, _, h1, h2, h3, rfl, rfl, rfl, rfl⟩
  · intro hg h
    rw [TraverseDecl, traverseKind, TraverseFunctionDecl_annotated _ decl st ps hi hg hne] at h
    split at h
    · exact absurd h (by simp)
    · rename_i mid hmid
      obtain ⟨_, _, _, extra, k2⟩ := pushed_function_kept _
        (fun s s2 hs => traverseChildren_kept children s s2 hs) _ st mid hmid
      split at h
      · exact absurd h (by simp)
      · rename_i top rest hfs
        rw [k2] at hfs
        rw [← Option.some.inj h]
        refine ⟨top, by simp only [List.getLast?_concat], ?_⟩
        rw [← (List.cons.inj hfs).1]
        exact ⟨rfl, rfl, rfl, rfl⟩
  · intro ws rest hws hline
    rw [TraverseDecl, traverseKind]
    unfold TraverseCXXConstructorDecl
    rw [hi, hline, GetProperties_constructor_of_method_line ws rest hws]
    rfl

theorem constructor_flag_witness :
    ∃ top cs owner g,
      ({ path := "/p/a.h".toList
         classes := [{ name := "A".toList, properties := [{ name := "CGCLASS".toList }] }]
         classStack := [0] } : ASTFileParser).classStack = top :: cs ∧
      ({ path := "/p/a.h".toList
         classes :=
           [{ name := "A".toList, properties := [{ name := "CGCLASS".toList }]
              functions := [constructorOf "/p/a.h".toList
                { name := "A".toList, qualifiedName := "A::A".toList,
                  lineAbove := "CGCONSTRUCTOR()".toList }
                [{ name := "CGCONSTRUCTOR".toList }, { name := [] }] []] }]
         classStack := [0] } : ASTFileParser).classes[top]? = some owner ∧
      owner.functions.getLast? = some g ∧ g.name = "A".toList ∧
      g.properties = [{ name := "CGCONSTRUCTOR".toList }, { name := [] }] ∧
      g.returnType = "void".toList ∧ g.isConstruptor = true :=
  (constructor_flag
    { name := "A".toList, qualifiedName := "A::A".toList, lineAbove := "CGCONSTRUCTOR()".toList }
    []
    { path := "/p/a.h".toList
      classes := [{ name := "A".toList, properties := [{ name := "CGCLASS".toList }] }]
      classStack := [0] }
    _ [{ name := "CGCONSTRUCTOR".toList }, { name := [] }] rfl (by simp)).1 rfl rfl

/-! ## The include set -/

theorem usetInsert_of_equal (s : List Str) (p : Str)
    (h : ∃ q ∈ s, pathEqual q p = true) : usetInsert s p = s := by
  unfold usetInsert
  rw [if_pos (List.any_eq_true.mpr h)]

theorem usetInsert_of_mem (s : List Str) (p : Str) (h : p ∈ s) : usetInsert s p = s :=
  usetInsert_of_equal s p ⟨p, h, pathEqual_self p⟩

theorem usetInsert_pairwise (s : List Str) (p : Str)
    (h : s.Pairwise (fun a b => pathEqual a b = false)) :
    (usetInsert s p).Pairwise (fun a b => pathEqual a b = false) := by
  unfold usetInsert
  split
  · exact h
  · rename_i hp
    rw [List.pairwise_append]
    refine ⟨h, List.pairwise_singleton _ p, ?_⟩
    intro a ha b hb
    rw [List.mem_singleton] at hb
    rw [hb]
    cases hab : pathEqual a p with
    | false => rfl
    | true => exact absurd (List.any_eq_true.mpr ⟨a, ha, hab⟩) hp

theorem mem_usetInsert (s : List Str) (p x : Str) (h : x ∈ usetInsert s p) : x ∈ s ∨ x = p := by
  unfold usetInsert at h
  split at h
  · exact Or.inl h
  · rw [List.mem_append, List.mem_singleton] at h
    exact h

theorem usetInsert_keeps (s : List Str) (p x : Str) (h : x ∈ s) : x ∈ usetInsert s p := by
  unfold usetInsert
  split
  · exact h
  · exact List.mem_append_left _ h

theorem usetInsert_holds (s : List Str) (p : Str) :
    ∃ q ∈ usetInsert s p, pathEqual q p = true := by
  unfold usetInsert
  split
  · rename_i hp
    exact List.any_eq_true.mp hp
  · exact ⟨p, List.mem_append_right _ (List.mem_singleton.mpr rfl), pathEqual_self p⟩

theorem foldl_usetInsert (ps : List Str) :
    ∀ s : List Str, s.Pairwise (fun a b => pathEqual a b = false) →
      (ps.foldl usetInsert s).Pairwise (fun a b => pathEqual a b = false) ∧
      (∀ x ∈ ps.foldl usetInsert s, x ∈ s ∨ x ∈ ps) ∧
      (∀ x ∈ s, x ∈ ps.foldl usetInsert s) ∧
      (∀ p ∈ ps, ∃ q ∈ ps.foldl usetInsert s, pathEqual q p = true) := by
  induction ps with
  | nil =>
    intro s hs
    exact ⟨hs, fun x hx => Or.inl hx, fun x hx => hx, fun p hp => absurd hp (List.not_mem_nil p)⟩
  | cons p rest ih =>
    intro s hs
    obtain ⟨h1, h2, h3, h4⟩ := ih (usetInsert s p) (usetInsert_pairwise s p hs)
    rw [List.foldl_cons]
    refine ⟨h1, ?_, ?_, ?_⟩
    · intro x hx
      rcases h2 x hx with h | h
      · rcases mem_usetInsert s p x h with h | h
        · exact Or.inl h
        · exact Or.inr (h ▸ List.mem_cons_self p rest)
      · exact Or.inr (List.mem_cons_of_mem p h)
    · intro x hx
      exact h3 x (usetInsert_keeps s p x hx)
    · intro q hq
      rcases List.mem_cons.mp hq with h | h
      · obtain ⟨r, hr, hrp⟩ := usetInsert_holds s p
        exact ⟨r, h3 r hr, h ▸ hrp⟩
      · exact h4 q h

theorem foldl_usetInsert_length (ps : List Str) :
    (ps.foldl usetInsert []).length = ((ps.map pathParts).dedup).length := by
  obtain ⟨h1, h2, _, h4⟩ := foldl_usetInsert ps [] List.Pairwise.nil
  have hnd : ((ps.foldl usetInsert []).map pathParts).Nodup := by
    rw [List.Nodup, List.pairwise_map]
    exact h1.imp (fun h => (pathEqual_eq_false_iff _ _).mp h)
  have hperm : ((ps.foldl usetInsert []).map pathParts).Perm ((ps.map pathParts).dedup) := by
    rw [List.perm_ext_iff_of_nodup hnd (List.nodup_dedup _)]
    intro a
    rw [List.mem_dedup, List.mem_map, List.mem_map]
    constructor
    · rintro ⟨q, hq, rfl⟩
      rcases h2 q hq with h | h
      · exact absurd h (List.not_mem_nil q)
      · exact ⟨q, h, rfl⟩
    · rintro ⟨q, hq, rfl⟩
      obtain ⟨r, hr, hrq⟩ := h4 q hq
      exact ⟨r, hr, (pathEqual_iff r q).mp hrq⟩
  rw [← hperm.length_eq, List.length_map]

/-- C11: after any sequence `ps` of insertions into the include set of a file, and for every
order `it` in which the set is iterated, the file starts with one line per element of the
set, the line of `p` being `GetFileInclude p`, that is `#include "` followed by the text of
the path and `"`; the elements are pairwise different paths, each is one of the inserted
texts, every inserted path is equal to one of them, and so there are as many lines as there
are distinct paths in `ps`. Inserting a path that the set holds changes nothing. The
insertions `b.h`, `a.h`, `a.h` give exactly two include lines, those of `b.h` and `a.h`;
paths are compared as paths, so `/p//a.h` followed by `/p/a.h` gives one line. -/
theorem includes_one_line_per_path (ps header : List Str) (functions : UMap Str FullFunction)
    (it : List Str) (hit : it.Perm (ps.foldl usetInsert [])) :
    (writeFile { includes := it, header := header, functions := functions }).output
      = (it.map (fun p => "#include \"".toList ++ p ++ "\"".toList ++ "\n".toList)).flatten ++
          (writeFile { includes := [], header := header, functions := functions }).output ∧
    it.length = ((ps.map pathParts).dedup).length ∧
    it.Pairwise (fun a b => pathEqual a b = false) ∧
    (∀ q ∈ it, q ∈ ps) ∧
    (∀ p ∈ ps, ∃ q ∈ it, pathEqual q p = true) ∧
    (∀ (s : List Str) (p : Str), (∃ q ∈ s, pathEqual q p = true) → usetInsert s p = s) ∧
    (∀ p : Str, GetFileInclude p = "#include \"".toList ++ p ++ "\"".toList) ∧
    (∀ it2 : List Str,
      it2.Perm (["b.h".toList, "a.h".toList, "a.h".toList].foldl usetInsert []) →
      (it2.map GetFileInclude).length = 2 ∧
      ∀ line, line ∈ it2.map GetFileInclude ↔
        line = "#include \"b.h\"".toList ∨ line = "#include \"a.h\"".toList) ∧
    ["/p//a.h".toList, "/p/a.h".toList].foldl usetInsert [] = ["/p//a.h".toList] := by
  obtain ⟨h1, h2, _, h4⟩ := foldl_usetInsert ps [] List.Pairwise.nil
  refine ⟨?_, ?_, ?_, ?_, ?_, usetInsert_of_equal, fun p => rfl, ?_, by decide⟩
  · rw [writeFile_eq, writeFile_eq]
    simp [GetFileInclude, List.append_assoc]
  · rw [hit.length_eq, foldl_usetInsert_length]
  · refine (List.Perm.pairwise_iff ?_ hit).mpr h1
    intro a b hab
    cases hba : pathEqual b a with
    | false => rfl
    | true => rw [pathEqual_symm b a hba] at hab; exact absurd hab (by decide)
  · intro q hq
    rcases h2 q (hit.mem_iff.mp hq) with h | h
    · exact absurd h (List.not_mem_nil q)
    · exact h
  · intro p hp
    obtain ⟨q, hq, hqp⟩ := h4 p hp
    exact ⟨q, hit.mem_iff.mpr hq, hqp⟩
  · intro it2 hit2
    have e : ["b.h".toList, "a.h".toList, "a.h".toList].foldl usetInsert []
        = ["b.h".toList, "a.h".toList] := by decide
    rw [e] at hit2
    refine ⟨?_, ?_⟩
    · rw [List.length_map, hit2.length_eq]
      rfl
    · intro line
      rw [(hit2.map GetFileInclude).mem_iff]
      simp [GetFileInclude]

theorem includes_one_line_per_path_witness :
    (["a.h".toList, "b.h".toList] : List Str).Perm
        (["b.h".toList, "a.h".toList, "a.h".toList].foldl usetInsert []) ∧
      (writeFile { includes := ["a.h".toList, "b.h".toList], header := [], functions := [] }).output
        = "#include \"a.h\"\n#include \"b.h\"\n\n".toList ∧
      (["a.h".toList, "b.h".toList] : List Str).length = 2 :=
  ⟨List.Perm.swap "b.h".toList "a.h".toList [],
    (includes_one_line_per_path ["b.h".toList, "a.h".toList, "a.h".toList] [] []
      ["a.h".toList, "b.h".toList] (List.Perm.swap "b.h".toList "a.h".toList [])).1.trans
      (by decide),
    rfl⟩

/-! ## End to end -/

theorem GetProperties_LuaClass :
    GetProperties "CGCLASS(LuaClass)".toList "CGCLASS".toList
      = some [{ name := "CGCLASS".toList },
          { name := "LuaClass".toList, value := PropertyValue.str "LuaClass".toList }] := by
  rfl

theorem GetProperties_LuaInspect :
    GetProperties "    CGMEMBER(LuaInspect)".toList "CGMEMBER".toList
      = some [{ name := "CGMEMBER".toList },
          { name := "LuaInspect".toList, value := PropertyValue.str "LuaInspect".toList }] := by
  rw [GetProperties_eq _ _ (by decide)]
  rfl

theorem parseUnit_fooUnit (path : Str) :
    parseUnit path (fooUnit path) = some { path := path, classes := [fooClass path] } := by
  have hfoo : DeclIsIncluded { path := path }
      { name := "Foo".toList, qualifiedName := "Foo".toList,
        lineAbove := "CGCLASS(LuaClass)".toList, source := "class Foo".toList,
        file := some path } = false := by
    simp [DeclIsIncluded, pathEqual_self]
  have hbar : DeclIsIncluded
      { path := path
        classes := [classOf path
          { name := "Foo".toList, qualifiedName := "Foo".toList,
            lineAbove := "CGCLASS(LuaClass)".toList, source := "class Foo".toList,
            file := some path }
          [{ name := "CGCLASS".toList },
            { name := "LuaClass".toList, value := PropertyValue.str "LuaClass".toList }] [] []]
        classStack := [0] }
      { name := "bar".toList, qualifiedName := "Foo::bar".toList,
        lineAbove := "    CGMEMBER(LuaInspect)".toList, source := "int bar".toList,
        file := some path } = false := by
    simp [DeclIsIncluded, pathEqual_self]
  have kbar := TraverseDecl_field_leaf _ _
    [{ name := "CGMEMBER".toList },
      { name := "LuaInspect".toList, value := PropertyValue.str "LuaInspect".toList }]
    0 [] _ hbar GetProperties_LuaInspect (by simp) rfl rfl
  rw [fooUnit, parseUnit, TraverseDecl, traverseKind, traverseChildren, TraverseDecl,
    traverseKind,
    TraverseCXXRecordDecl_annotated _ _ { path := path }
      [{ name := "CGCLASS".toList },
        { name := "LuaClass".toList, value := PropertyValue.str "LuaClass".toList }]
      hfoo GetProperties_LuaClass (by simp),
    traverseChildren]
  simp only [List.nil_append, List.length_nil]
  rw [kbar]
  simp only [traverseChildren, List.set_cons_zero]
  rfl

theorem HandleClass_fooClass (path : Str) :
    HandleClass {} (fooClass path)
      = { files := [(luaBindingsFile,
            { includes := [path]
              functions := [(createBindings,
                { header := { parameters := [luaStateParameter] }
                  body := [("sol::usertype<Foo> Foo_table = lua_state.new_usertype<Foo>(\"Foo\", " ++
                    "sol::constructors<Foo()>\x7b\x7d);").toList] })] })]
          currentClass := some (fooClass path) } := by
  rfl

theorem HandleMember_barVariable (path : Str) (files : UMap Str File) (function : FullFunction)
    (c : Class) (hfiles : files = [(luaBindingsFile,
      { includes := [path], functions := [(createBindings, function)] })])
    (hparm : function.header.parameters = [luaStateParameter]) :
    HandleMember { files := files, currentClass := some c } (barVariable path)
      = some { files := [(luaBindingsFile,
                 { includes := [path]
                   functions := [(createBindings,
                     { function with
                       body := function.body ++
                         [c.name ++ "_table[\"bar\"] = &Foo::bar;".toList] })] })]
               currentClass := some c } := by
  have hg : (GetProperty (barVariable path).properties "LuaInspect".toList).isSome = true := rfl
  have hadd : function.header.AddVariable luaStateParameter = function.header := by
    apply AddVariable_of_present
    rw [hparm]
    exact ⟨luaStateParameter, List.mem_singleton.mpr rfl, rfl⟩
  unfold HandleMember
  rw [if_pos hg, hfiles]
  simp only [contribute, updateFunction, umapUpdate, if_true, emplaceBody, hadd]
  rw [usetInsert_of_mem [path] (barVariable path).path (List.mem_singleton.mpr rfl)]
  simp only [List.append_assoc]
  rfl

/-- C12: the unit with the class `Foo` below `CGCLASS(LuaClass)` and its member `bar`
below `CGMEMBER(LuaInspect)` has the model with the one class `Foo` and its field `bar`;
`FileGenerator::Parse` on this model, with the handlers of `main` and an empty registry,
leaves one file `LuaBindings.cpp.gen` with the include set `{path}` and the one function
`CreateBindings`, whose header has the single parameter `sol::state& lua_state` and whose
body is the line that registers the usertype `Foo` followed by the line that registers the
member `bar`. -/
theorem end_to_end_bindings (path : Str) :
    parseUnit path (fooUnit path) = some { path := path, classes := [fooClass path] } ∧
    mainGenerator.Parse { path := path, classes := [fooClass path] } (some {})
      = some
          { files := [("LuaBindings.cpp.gen".toList,
              { includes := [path]
                header := []
                functions := [("CreateBindings".toList,
                  { prefixText := []
                    header :=
                      { parameters := [Variable.make "sol::state&".toList "lua_state".toList] }
                    body :=
                      [("sol::usertype<Foo> Foo_table = lua_state.new_usertype<Foo>(\"Foo\", " ++
                        "sol::constructors<Foo()>\x7b\x7d);").toList,
                       "Foo_table[\"bar\"] = &Foo::bar;".toList] })] })]
            currentClass := some (fooClass path) } := by
  refine ⟨parseUnit_fooUnit path, ?_⟩
  have hp : mainGenerator.Parse { path := path, classes := [fooClass path] } (some {})
      = (some (HandleClass {} (fooClass path))).bind
          (fun st => HandleMember st (barVariable path)) := rfl
  rw [hp, HandleClass_fooClass, Option.some_bind,
    HandleMember_barVariable path _ _ (fooClass path) rfl rfl]
  rfl

/-! ## The scope tracker: declarations outside their scope -/

/-- C22: with an empty open-class stack, `TraverseFieldDecl` on a field of the unit that
has `CGMEMBER` properties faults on `classStack.top()` (the embedding returns `none`),
whatever the subtree is; a field without properties is skipped: the parser is returned
unchanged. -/
theorem field_outside_class (decl : DeclInfo) (children : List Decl) (st : ASTFileParser)
    (hi : DeclIsIncluded st decl = false) (hcs : st.classStack = []) :
    (∀ ps, GetProperties decl.lineAbove "CGMEMBER".toList = some ps → ps ≠ [] →
      TraverseDecl (Decl.mk DeclKind.Field decl children) st = none ∧
      ∀ base : ASTFileParser → Option ASTFileParser, TraverseFieldDecl base decl st = none) ∧
    (GetProperties decl.lineAbove "CGMEMBER".toList = some [] →
      TraverseDecl (Decl.mk DeclKind.Field decl children) st = some st ∧
      ∀ base : ASTFileParser → Option ASTFileParser, TraverseFieldDecl base decl st = some st) := by
  constructor
  · intro ps hg hne
    have key : ∀ base : ASTFileParser → Option ASTFileParser,
        TraverseFieldDecl base decl st = none := by
      intro base
      have e : TraverseFieldDecl base decl st = annotatedStep st decl "CGMEMBER".toList
          (fun properties =>
            match st.classStack with
            | [] => none
            | top :: _ =>
              match st.classes[top]? with
              | none => none
              | some owner =>
                base { st with
                  classes := st.classes.set top
                    { owner with
                      variables_ := owner.variables_ ++ [variableOf st.path decl properties] } }) :=
        rfl
      rw [e, annotatedStep_of_annotated st decl _ _ ps hi hg hne]
      simp only [hcs]
    refine ⟨?_, key⟩
    rw [TraverseDecl, traverseKind]
    exact key _
  · intro hg
    have key : ∀ base : ASTFileParser → Option ASTFileParser,
        TraverseFieldDecl base decl st = some st := by
      intro base
      unfold TraverseFieldDecl
      rw [hi, hg]
      rfl
    refine ⟨?_, key⟩
    rw [TraverseDecl, traverseKind]
    exact key _

theorem field_outside_class_witness :
    TraverseDecl
        (Decl.mk DeclKind.Field
          { name := "x".toList, lineAbove := "CGMEMBER()".toList, source := "int x".toList } [])
        { path := "/p/a.h".toList } = none ∧
    TraverseDecl
        (Decl.mk DeclKind.Field
          { name := "x".toList, lineAbove := "public:".toList, source := "int x".toList } [])
        { path := "/p/a.h".toList } = some { path := "/p/a.h".toList } :=
  ⟨((field_outside_class
      { name := "x".toList, lineAbove := "CGMEMBER()".toList, source := "int x".toList } []
      { path := "/p/a.h".toList } rfl rfl).1
      [{ name := "CGMEMBER".toList }, { name := [] }] rfl (by simp)).1,
    ((field_outside_class
      { name := "x".toList, lineAbove := "public:".toList, source := "int x".toList } []
      { path := "/p/a.h".toList } rfl rfl).2 rfl).1⟩

/-- C28: on a tree in which every field, method and constructor is a child of a class-like
declaration, the traversal from the initial parser (empty lists, empty stacks) returns a
parser: no `top` or `pop` of an empty stack and no index outside `classes` occurs; the same
holds from every parser whose open-class stack holds valid indices and is non-empty when
the parent of the declaration is class-like. -/
theorem scoped_tree_never_faults (d : Decl) :
    (∀ path : Str, d.scoped false = true → ∃ parser, parseUnit path d = some parser) ∧
    (∀ (b : Bool) (st : ASTFileParser), d.scoped b = true → ClassStackValid st →
      (b = true → st.classStack ≠ []) →
      ∃ st2, TraverseDecl d st = some st2 ∧ ClassStackValid st2) := by
  constructor
  · intro path hs
    exact TraverseDecl_total d false { path := path } hs
      (fun i hi => absurd hi (List.not_mem_nil i)) (fun hb => absurd hb (by decide))
  · intro b st hs hv hcs
    obtain ⟨st2, h⟩ := TraverseDecl_total d b st hs hv hcs
    exact ⟨st2, h, ClassStackValid_of_kept st st2 hv (TraverseDecl_kept d st st2 h)⟩

theorem scoped_tree_never_faults_witness :
    ∃ parser,
      parseUnit "/p/a.h".toList
        (Decl.mk DeclKind.Other {}
          [Decl.mk DeclKind.CXXRecord { name := "A".toList, lineAbove := "CGCLASS()".toList }
            [Decl.mk DeclKind.Field
              { name := "x".toList, lineAbove := "CGMEMBER()".toList,
                source := "int x".toList } [],
             Decl.mk DeclKind.CXXConstructor
              { name := "A".toList, lineAbove := "CGCONSTRUCTOR()".toList,
                source := "A(int y)".toList }
              [Decl.mk DeclKind.ParmVar { name := "y".toList, source := "int y".toList } []]]])
        = some parser :=
  (scoped_tree_never_faults _).1 "/p/a.h".toList (by decide)

/-! ## FileGenerator::GetProperty -/

theorem GetProperty_eq_none_iff (ps : List Property) (name : Str) :
    GetProperty ps name = none ↔ ∀ p ∈ ps, p.name ≠ name := by
  induction ps with
  | nil => simp [GetProperty]
  | cons q rest ih =>
    unfold GetProperty
    by_cases hq : q.name = name
    · simp [hq]
    · rw [if_neg hq, ih]
      simp [hq]

theorem GetProperty_some (ps : List Property) (name : Str) (p : Property)
    (h : GetProperty ps name = some p) :
    ∃ before after, ps = before ++ p :: after ∧ p.name = name ∧
      ∀ q ∈ before, q.name ≠ name := by
  induction ps with
  | nil => simp [GetProperty] at h
  | cons q rest ih =>
    unfold GetProperty at h
    by_cases hq : q.name = name
    · rw [if_pos hq] at h
      rw [← Option.some.inj h]
      exact ⟨[], rest, rfl, hq, fun x hx => absurd hx (List.not_mem_nil x)⟩
    · rw [if_neg hq] at h
      obtain ⟨before, after, h1, h2, h3⟩ := ih h
      refine ⟨q :: before, after, by rw [h1]; rfl, h2, ?_⟩
      intro x hx
      rcases List.mem_cons.mp hx with e | e
      · rw [e]; exact hq
      · exact h3 x e

theorem parseEntries_extends (es : List Str) :
    ∀ (result ps : List Property), parseEntries es result = some ps →
      ∃ more, ps = result ++ more := by
  induction es with
  | nil =>
    intro result ps h
    rw [parseEntries] at h
    exact ⟨[], by rw [← Option.some.inj h]; simp⟩
  | cons e rest ih =>
    intro result ps h
    rw [parseEntries] at h
    split at h
    · exact absurd h (by simp)
    · rename_i p _
      obtain ⟨more, hm⟩ := ih _ _ h
      exact ⟨p :: more, by rw [hm]; simp⟩

theorem GetProperties_head (line keyword : Str) (ps : List Property)
    (h : GetProperties line keyword = some ps) (hne : ps ≠ []) :
    ∃ more, ps = { name := keyword, value := PropertyValue.str [] } :: more := by
  unfold GetProperties at h
  simp only [] at h
  split at h
  · exact absurd (Option.some.inj h).symm hne
  · split at h
    · exact absurd h (by simp)
    · split at h
      · exact absurd h (by simp)
      · obtain ⟨more, hm⟩ := parseEntries_extends _ _ _ h
        exact ⟨more, hm⟩

/-- C27: `GetProperty` returns the first property of the list whose name is the given name
(every property before it has another name), and returns null exactly when no property of
the list has that name; on a non-empty result of `GetProperties` it returns, for the
keyword of that call, the sentinel, whose value is the empty string. -/
theorem GetProperty_first_match (ps : List Property) (name : Str) :
    (GetProperty ps name = none ↔ ∀ p ∈ ps, p.name ≠ name) ∧
    (∀ p, GetProperty ps name = some p →
      ∃ before after, ps = before ++ p :: after ∧ p.name = name ∧
        ∀ q ∈ before, q.name ≠ name) ∧
    (∀ line : Str, GetProperties line name = some ps → ps ≠ [] →
      GetProperty ps name = some { name := name, value := PropertyValue.str [] }) := by
  refine ⟨GetProperty_eq_none_iff ps name, fun p h => GetProperty_some ps name p h, ?_⟩
  intro line h hne
  obtain ⟨more, hm⟩ := GetProperties_head line name ps h hne
  rw [hm]
  simp [GetProperty]

theorem GetProperty_first_match_witness :
    GetProperty
        [{ name := "CGMEMBER".toList },
         { name := "a".toList, value := PropertyValue.str "1".toList },
         { name := "b".toList, value := PropertyValue.str "b".toList }]
        "CGMEMBER".toList
      = some { name := "CGMEMBER".toList, value := PropertyValue.str [] } :=
  (GetProperty_first_match _ "CGMEMBER".toList).2.2 "CGMEMBER(a=1,b)".toList rfl (by simp)

/-! ## GetProperties is total -/

/-- C29: for every line and keyword `GetProperties` returns a property list: no call of
`substr` has its position past the end of its string and the comma loop ends; this covers
the empty line, a line without `(`, without `)`, with `(` as its last character and with
`=` as the last character of an entry. -/
theorem GetProperties_total (line keyword : Str) (hl : line.length < npos) :
    (∃ ps, GetProperties line keyword = some ps) ∧
    GetProperties [] "CGCLASS".toList = some [] ∧
    GetProperties "CGCLASS a)".toList "CGCLASS".toList
      = some [{ name := "CGCLASS".toList },
              { name := "CGCLASSa)".toList, value := PropertyValue.str "CGCLASSa)".toList }] ∧
    GetProperties "CGCLASS(a".toList "CGCLASS".toList
      = some [{ name := "CGCLASS".toList },
              { name := "a".toList, value := PropertyValue.str "a".toList }] ∧
    GetProperties "CGCLASS(".toList "CGCLASS".toList
      = some [{ name := "CGCLASS".toList }, { name := [] }] ∧
    GetProperties "CGCLASS(a=)".toList "CGCLASS".toList
      = some [{ name := "CGCLASS".toList }, { name := "a".toList }] := by
  refine ⟨⟨_, GetProperties_eq line keyword hl⟩, by rfl, by rfl, by rfl, by rfl, by rfl⟩

theorem GetProperties_total_witness :
    ∃ ps, GetProperties "CGMEMBER(a=1,b".toList "CGMEMBER".toList = some ps :=
  (GetProperties_total "CGMEMBER(a=1,b".toList "CGMEMBER".toList (by decide)).1

/-! ## GetTypeAsString -/

/-- C26 (the code at the failing input): for the declaration `int i` the name `i` first
occurs inside the type, at index 0; no space is at or before that index, so `rfind` gives
`npos` and the function returns the whole text `int i`, not the type `int`. For
`static int count` the name first occurs after the type and the result is `int`. -/
theorem GetTypeAsString_name_inside_type :
    GetTypeAsString { name := "i".toList, source := "int i".toList } = "int i".toList ∧
    findStr "int i".toList "i".toList = 0 ∧
    rfindChar "int i".toList ' ' 0 = npos ∧
    GetTypeAsString { name := "count".toList, source := "static int count".toList }
      = "int".toList := by
  refine ⟨by rfl, by rfl, by rfl, by rfl⟩

/-! ## The parenthesised list of a directive -/

theorem eraseLeadingSpaces_head (line : Str) :
    ∀ c ∈ (eraseLeadingSpaces line).head?, isspace c = false := by
  intro c hc
  have h := List.head?_dropWhile_not isspace line
  unfold eraseLeadingSpaces at hc
  rw [Option.mem_def] at hc
  rw [hc] at h
  simpa using h

theorem eraseLeadingSpaces_of_head (t : Str) (ht : ∀ c ∈ t.head?, isspace c = false) :
    eraseLeadingSpaces t = t := by
  have h := eraseLeadingSpaces_append [] t (fun c hc => absurd hc (List.not_mem_nil c)) ht
  simpa using h

theorem indexOf_open_le (K rest : Str) :
    (K ++ '(' :: rest).indexOf '(' ≤ K.length := by
  by_cases h : '(' ∈ K
  · rw [List.indexOf_append_of_mem h]
    exact List.indexOf_le_length
  · rw [List.indexOf_append_of_not_mem h, List.indexOf_cons_self]
    omega

theorem directiveList_append (t S : Str) (hopen : '(' ∈ t)
    (hclose : ')' ∈ t.drop (t.indexOf '(' + 1)) :
    directiveList (t ++ S) = directiveList t := by
  have hlt : t.indexOf '(' < t.length := List.indexOf_lt_length.mpr hopen
  have hidx : (t ++ S).indexOf '(' = t.indexOf '(' := List.indexOf_append_of_mem hopen
  have hlt2 : (t ++ S).indexOf '(' < (t ++ S).length := by
    rw [hidx, List.length_append]
    omega
  have hdrop : (t ++ S).drop (t.indexOf '(' + 1) = t.drop (t.indexOf '(' + 1) ++ S :=
    List.drop_append_of_le_length hlt
  unfold directiveList
  rw [if_pos hlt2, if_pos hlt, hidx, hdrop, List.indexOf_append_of_mem hclose,
    List.take_append_of_le_length (List.indexOf_le_length)]

theorem directiveList_simple (K I S : Str) (hK : '(' ∉ K) (hI : ')' ∉ I) :
    directiveList (K ++ '(' :: (I ++ ')' :: S)) = I := by
  have hidx : (K ++ '(' :: (I ++ ')' :: S)).indexOf '(' = K.length := by
    rw [List.indexOf_append_of_not_mem hK, List.indexOf_cons_self]
    rfl
  have hdrop : (K ++ '(' :: (I ++ ')' :: S)).drop (K.length + 1) = I ++ ')' :: S := by
    have e : K ++ '(' :: (I ++ ')' :: S) = (K ++ ['(']) ++ (I ++ ')' :: S) := by simp
    rw [e]
    exact List.drop_left' (by simp)
  have hclose : (I ++ ')' :: S).indexOf ')' = I.length := by
    rw [List.indexOf_append_of_not_mem hI, List.indexOf_cons_self]
    rfl
  unfold directiveList
  rw [hidx, if_pos (by simp), hdrop, hclose, List.take_left]

theorem GetProperties_suffix_irrelevant (K I S : Str)
    (hl : (K ++ '(' :: (I ++ ')' :: S)).length < npos) :
    GetProperties (K ++ '(' :: (I ++ ')' :: S)) K
      = GetProperties (K ++ '(' :: (I ++ [')'])) K := by
  have hl2 : (K ++ '(' :: (I ++ [')'])).length < npos := by
    simp only [List.length_append, List.length_cons, List.length_nil] at hl ⊢
    omega
  have happ : K ++ '(' :: (I ++ ')' :: S) = (K ++ '(' :: (I ++ [')'])) ++ S := by simp
  by_cases hhead : ∀ c ∈ (K ++ '(' :: (I ++ [')'])).head?, isspace c = false
  · have hhead2 : ∀ c ∈ (K ++ '(' :: (I ++ ')' :: S)).head?, isspace c = false := by
      intro c hc
      apply hhead c
      cases K with
      | nil => simpa using hc
      | cons k K1 => simpa using hc
    have hopen : '(' ∈ K ++ '(' :: (I ++ [')']) := by simp
    have hclose : ')' ∈ (K ++ '(' :: (I ++ [')'])).drop
        ((K ++ '(' :: (I ++ [')'])).indexOf '(' + 1) := by
      have e : K ++ '(' :: (I ++ [')']) = (K ++ '(' :: I) ++ [')'] := by simp
      have hle : (K ++ '(' :: (I ++ [')'])).indexOf '(' + 1 ≤ (K ++ '(' :: I).length := by
        have := indexOf_open_le K (I ++ [')'])
        simp only [List.length_append, List.length_cons]
        omega
      rw [e] at hle ⊢
      rw [List.drop_append_of_le_length hle]
      simp
    rw [GetProperties_eq _ _ hl, GetProperties_eq _ _ hl2, eraseLeadingSpaces_of_head _ hhead2,
      eraseLeadingSpaces_of_head _ hhead, happ, directiveList_append _ S hopen hclose]
    have hp1 : K <+: K ++ '(' :: (I ++ [')']) ++ S := by
      rw [List.append_assoc]
      exact List.prefix_append K _
    rw [if_pos hp1, if_pos (List.prefix_append K _)]
  · have hK : ∃ k K1, K = k :: K1 ∧ isspace k = true := by
      cases K with
      | nil =>
        exfalso
        apply hhead
        intro c hc
        simp only [List.nil_append, List.head?_cons, Option.mem_def] at hc
        rw [← Option.some.inj hc]
        decide
      | cons k K1 =>
        refine ⟨k, K1, rfl, ?_⟩
        by_contra hk
        apply hhead
        intro c hc
        simp only [List.cons_append, List.head?_cons, Option.mem_def] at hc
        rw [← Option.some.inj hc]
        simpa using hk
    obtain ⟨k, K1, hKeq, hk⟩ := hK
    have hnot : ∀ line : Str, ¬ K <+: eraseLeadingSpaces line := by
      intro line hp
      obtain ⟨t, ht⟩ := hp
      have hh := eraseLeadingSpaces_head line k (by rw [← ht, hKeq]; simp)
      rw [hk] at hh
      exact absurd hh (by decide)
    rw [GetProperties_of_mismatch _ _ (hnot _), GetProperties_of_mismatch _ _ (hnot _)]

/-- C23: the entries are parsed from the text strictly between the first `(` of the line
and the first `)` after it. For every keyword `K`, text `I` without `)` and suffix `S`, the
line `K(I)S` parses as the line `K(I)`; for a keyword without whitespace or `(` the
properties after the sentinel are those of the comma-separated pieces of `I`; and in
`CGMEMBER(a=f(x),b)` the list is cut at the first `)`: the single entry is `a` with the
value `f(x`. -/
theorem directive_cut_at_first_close (K I S : Str) (hI : ')' ∉ I)
    (hl : (K ++ '(' :: (I ++ ')' :: S)).length < npos) :
    GetProperties (K ++ '(' :: (I ++ ')' :: S)) K
      = GetProperties (K ++ '(' :: (I ++ [')'])) K ∧
    ((∀ c ∈ K, isspace c = false ∧ c ≠ '(') →
      GetProperties (K ++ '(' :: (I ++ ')' :: S)) K
        = some ({ name := K, value := PropertyValue.str [] } ::
            (splitOnChar ',' I).map entryProperty)) ∧
    GetProperties "CGMEMBER(a=f(x),b)".toList "CGMEMBER".toList
      = some [{ name := "CGMEMBER".toList },
              { name := "a".toList, value := PropertyValue.str "f(x".toList }] := by
  refine ⟨GetProperties_suffix_irrelevant K I S hl, ?_, by rfl⟩
  intro hK
  have hhead : ∀ c ∈ (K ++ '(' :: (I ++ ')' :: S)).head?, isspace c = false := by
    intro c hc
    cases K with
    | nil =>
      simp only [List.nil_append, List.head?_cons, Option.mem_def] at hc
      rw [← Option.some.inj hc]
      decide
    | cons k K1 =>
      simp only [List.cons_append, List.head?_cons, Option.mem_def] at hc
      rw [← Option.some.inj hc]
      exact (hK k (List.mem_cons_self k K1)).1
  rw [GetProperties_eq _ _ hl, eraseLeadingSpaces_of_head _ hhead,
    if_pos (List.prefix_append K _),
    directiveList_simple K I S (fun h => (hK _ h).2 rfl) hI]

theorem directive_cut_at_first_close_witness :
    GetProperties "CGCLASS(a,b=1) // note (x)".toList "CGCLASS".toList
      = GetProperties "CGCLASS(a,b=1)".toList "CGCLASS".toList :=
  (directive_cut_at_first_close "CGCLASS".toList "a,b=1".toList " // note (x)".toList
    (by decide) (by decide)).1

/-! ## The entries of a directive -/

theorem splitOnChar_append_sep (c : Char) (e rest : Str) (he : c ∉ e) :
    splitOnChar c (e ++ c :: rest) = e :: splitOnChar c rest := by
  have hidx : (e ++ c :: rest).indexOf c = e.length := by
    rw [List.indexOf_append_of_not_mem he, List.indexOf_cons_self]
    rfl
  rw [splitOnChar_of_mem c _ (by simp), hidx, List.take_left]
  have e2 : e ++ c :: rest = (e ++ [c]) ++ rest := by simp
  rw [e2, List.drop_left' (by simp)]

theorem splitOnChar_entries (es : List Str) (last : Str) (hes : ∀ e ∈ es, ',' ∉ e)
    (hlast : ',' ∉ last) :
    splitOnChar ',' ((es.map (fun e => e ++ [','])).flatten ++ last) = es ++ [last] := by
  induction es with
  | nil => simpa using splitOnChar_of_not_mem ',' last hlast
  | cons e rest ih =>
    have h1 : ((e :: rest).map (fun e => e ++ [','])).flatten ++ last
        = e ++ ',' :: ((rest.map (fun e => e ++ [','])).flatten ++ last) := by
      simp
    rw [h1, splitOnChar_append_sep ',' e _ (hes e (List.mem_cons_self e rest)),
      ih (fun x hx => hes x (List.mem_cons_of_mem e hx))]
    rfl

theorem not_mem_entries (c : Char) (hc : c ≠ ',') (es : List Str) (last : Str)
    (hes : ∀ e ∈ es, c ∉ e) (hlast : c ∉ last) :
    c ∉ (es.map (fun e => e ++ [','])).flatten ++ last := by
  intro h
  rcases List.mem_append.mp h with h1 | h1
  · obtain ⟨l, hl, hcl⟩ := List.mem_flatten.mp h1
    obtain ⟨e, he, hle⟩ := List.mem_map.mp hl
    rw [← hle] at hcl
    rcases List.mem_append.mp hcl with h2 | h2
    · exact hes e he h2
    · exact hc (List.mem_singleton.mp h2)
  · exact hlast h1

theorem intercalate_concat (es : List Str) (last : Str) :
    [','].intercalate (es ++ [last]) = (es.map (fun e => e ++ [','])).flatten ++ last := by
  induction es with
  | nil => simp [List.intercalate]
  | cons e rest ih =>
    cases rest with
    | nil => simp [List.intercalate]
    | cons e2 rest2 =>
      have h : [','].intercalate ((e :: e2 :: rest2) ++ [last])
          = e ++ ',' :: [','].intercalate ((e2 :: rest2) ++ [last]) := by
        simp [List.intercalate]
      rw [h, ih]
      simp

theorem GetProperties_entries (K : Str) (es : List Str) (last : Str)
    (hK : ∀ c ∈ K, isspace c = false ∧ c ≠ '(')
    (hes : ∀ e ∈ es, ',' ∉ e ∧ ')' ∉ e) (hlast : ',' ∉ last ∧ ')' ∉ last)
    (hl : (K ++ '(' :: (((es.map (fun e => e ++ [','])).flatten ++ last) ++ [')'])).length
      < npos) :
    GetProperties (K ++ '(' :: (((es.map (fun e => e ++ [','])).flatten ++ last) ++ [')'])) K
      = some ({ name := K, value := PropertyValue.str [] } ::
          (es ++ [last]).map entryProperty) := by
  have hhead : ∀ c ∈ (K ++ '(' :: (((es.map (fun e => e ++ [','])).flatten ++ last)
      ++ [')'])).head?, isspace c = false := by
    intro c hc
    cases K with
    | nil =>
      simp only [List.nil_append, List.head?_cons, Option.mem_def] at hc
      rw [← Option.some.inj hc]
      decide
    | cons k K1 =>
      simp only [List.cons_append, List.head?_cons, Option.mem_def] at hc
      rw [← Option.some.inj hc]
      exact (hK k (List.mem_cons_self k K1)).1
  rw [GetProperties_eq _ _ hl, eraseLeadingSpaces_of_head _ hhead,
    if_pos (List.prefix_append K _),
    directiveList_simple K _ [] (fun h => (hK _ h).2 rfl)
      (not_mem_entries ')' (by decide) es last (fun e he => (hes e he).2) hlast.2),
    splitOnChar_entries es last (fun e he => (hes e he).1) hlast.1]

theorem entryProperty_with_equals (n v : Str) (hn : '=' ∉ n) :
    entryProperty (n ++ '=' :: v)
      = { name := removeSpaces n, value := PropertyValue.str (removeSpaces v) } := by
  have hidx : (n ++ '=' :: v).indexOf '=' = n.length := by
    rw [List.indexOf_append_of_not_mem hn, List.indexOf_cons_self]
    rfl
  have hdrop : (n ++ '=' :: v).drop (n.length + 1) = v := by
    have e2 : n ++ '=' :: v = (n ++ ['=']) ++ v := by simp
    rw [e2]
    exact List.drop_left' (by simp)
  unfold entryProperty
  rw [hidx, List.take_left, if_pos (by simp), hdrop]

/-- C24: for a keyword without whitespace or `(` and a list of entries `e1,...,en` (none
with `,` or `)`), the result is the sentinel followed by one property per entry, in the
order of the entries; the property of an entry `n=v` whose `n` has no `=` has the name `n`
and the value `v`, each with whitespace removed, so later `=` stay in the value: `a=b=c`
gives the name `a` and the value `b=c`. -/
theorem entries_split_at_first_equals (K : Str) (es : List Str) (last : Str)
    (hK : ∀ c ∈ K, isspace c = false ∧ c ≠ '(')
    (hes : ∀ e ∈ es, ',' ∉ e ∧ ')' ∉ e) (hlast : ',' ∉ last ∧ ')' ∉ last)
    (hl : (K ++ '(' :: ([','].intercalate (es ++ [last]) ++ [')'])).length < npos) :
    GetProperties (K ++ '(' :: ([','].intercalate (es ++ [last]) ++ [')'])) K
      = some ({ name := K, value := PropertyValue.str [] } ::
          (es ++ [last]).map entryProperty) ∧
    (∀ n v : Str, '=' ∉ n → (n ++ '=' :: v).length < npos →
      parseEntry (n ++ '=' :: v)
        = some { name := removeSpaces n, value := PropertyValue.str (removeSpaces v) }) ∧
    (∀ n v : Str, '=' ∉ n →
      entryProperty (n ++ '=' :: v)
        = { name := removeSpaces n, value := PropertyValue.str (removeSpaces v) }) ∧
    GetProperties "CGMEMBER(x = 1,a=b=c)".toList "CGMEMBER".toList
      = some [{ name := "CGMEMBER".toList },
              { name := "x".toList, value := PropertyValue.str "1".toList },
              { name := "a".toList, value := PropertyValue.str "b=c".toList }] := by
  refine ⟨?_, ?_, entryProperty_with_equals, ?_⟩
  · rw [intercalate_concat] at hl ⊢
    exact GetProperties_entries K es last hK hes hlast hl
  · intro n v hn hlen
    rw [parseEntry_eq _ hlen, entryProperty_with_equals n v hn]
  · rw [GetProperties_eq _ _ (by decide)]
    rfl

theorem entries_split_at_first_equals_witness :
    GetProperties "CGMEMBER(x = 1,a=b=c)".toList "CGMEMBER".toList
      = some ({ name := "CGMEMBER".toList, value := PropertyValue.str [] } ::
          (["x = 1".toList] ++ ["a=b=c".toList]).map entryProperty) :=
  (entries_split_at_first_equals "CGMEMBER".toList ["x = 1".toList] "a=b=c".toList
    (by decide) (by decide) (by decide) (by decide)).1

/-- C25: for a keyword without whitespace or `(` and a directive `K(e1,...,en,)` whose list
ends with a comma, the result has `n + 2` elements: the sentinel, the properties of
`e1`, ..., `en` in order, and a last property whose name and value are the empty string. -/
theorem trailing_comma_property (K : Str) (es : List Str)
    (hK : ∀ c ∈ K, isspace c = false ∧ c ≠ '(')
    (hes : ∀ e ∈ es, ',' ∉ e ∧ ')' ∉ e)
    (hl : (K ++ '(' :: ((es.map (fun e => e ++ [','])).flatten ++ [')'])).length < npos) :
    GetProperties (K ++ '(' :: ((es.map (fun e => e ++ [','])).flatten ++ [')'])) K
      = some ({ name := K, value := PropertyValue.str [] } ::
          (es.map entryProperty ++ [{ name := [], value := PropertyValue.str [] }])) ∧
    ({ name := K, value := PropertyValue.str [] } ::
      (es.map entryProperty ++
        [({ name := [], value := PropertyValue.str [] } : Property)])).length
      = es.length + 2 ∧
    GetProperties "CGCLASS(a,b=1,)".toList "CGCLASS".toList
      = some [{ name := "CGCLASS".toList },
              { name := "a".toList, value := PropertyValue.str "a".toList },
              { name := "b".toList, value := PropertyValue.str "1".toList },
              { name := [], value := PropertyValue.str [] }] := by
  refine ⟨?_, by simp, by rfl⟩
  have h := GetProperties_entries K es [] hK hes
    ⟨fun h => absurd h (List.not_mem_nil _), fun h => absurd h (List.not_mem_nil _)⟩
    (by simpa using hl)
  simp only [List.append_nil, List.map_append, List.map_cons, List.map_nil] at h
  rw [h]
  rfl

theorem trailing_comma_property_witness :
    GetProperties "CGCLASS(a,b=1,)".toList "CGCLASS".toList
      = some ({ name := "CGCLASS".toList, value := PropertyValue.str [] } ::
          (["a".toList, "b=1".toList].map entryProperty ++
            [{ name := [], value := PropertyValue.str [] }])) :=
  (trailing_comma_property "CGCLASS".toList ["a".toList, "b=1".toList]
    (by decide) (by decide) (by decide)).1

/-! ## The handlers of main and currentClass -/

theorem HandleClass_currentClass (st : GenState) (c : Class) :
    (HandleClass st c).currentClass = some c := by
  unfold HandleClass
  split <;> rfl

theorem HandleMember_some (st : GenState) (v : Variable) (c : Class)
    (h : st.currentClass = some c) :
    ∃ st2, HandleMember st v = some st2 ∧ st2.currentClass = some c := by
  unfold HandleMember
  split
  · rw [h]
    exact ⟨_, rfl, rfl⟩
  · exact ⟨st, rfl, h⟩

theorem HandleMethod_some (st : GenState) (f : Function) (c : Class)
    (h : st.currentClass = some c) :
    ∃ st2, HandleMethod st f = some st2 ∧ st2.currentClass = some c := by
  unfold HandleMethod
  split
  · rw [h]
    exact ⟨_, rfl, rfl⟩
  · exact ⟨st, rfl, h⟩

theorem foldl_callSlot_none {σ α : Type} (l : List α) (s : σ) :
    l.foldl (fun st x => callSlot (none : Option (σ → α → σ)) st x) s = s := by
  induction l with
  | nil => rfl
  | cons x rest ih => rw [List.foldl_cons]; exact ih

theorem observed_members (c : Class) (vs : List Variable) :
    ∀ (st : GenState) (log : List (Call × Option Class)), st.currentClass = some c →
      ∃ st2, st2.currentClass = some c ∧
        vs.foldl (fun u var => callSlot observingGenerator.ParseMember u var) (some st, log)
          = (some st2, log ++ vs.map (fun v => (Call.member v, some c))) ∧
        vs.foldl (fun u var => callSlot mainGenerator.ParseMember u var) (some st) = some st2 := by
  induction vs with
  | nil => intro st log h; exact ⟨st, h, by simp, rfl⟩
  | cons v rest ih =>
    intro st log h
    obtain ⟨st1, h1, h2⟩ := HandleMember_some st v c h
    obtain ⟨st2, k1, k2, k3⟩ := ih st1 (log ++ [(Call.member v, some c)]) h2
    refine ⟨st2, k1, ?_, ?_⟩
    · rw [List.foldl_cons]
      have e : callSlot observingGenerator.ParseMember (some st, log) v
          = (some st1, log ++ [(Call.member v, some c)]) := by
        simp only [callSlot, observingGenerator, mainGenerator, observedClass, Option.some_bind,
          h1, h]
      rw [e, k2]
      simp
    · rw [List.foldl_cons]
      have e : callSlot mainGenerator.ParseMember (some st) v = some st1 := by
        simp only [callSlot, mainGenerator, Option.some_bind, h1]
      rw [e, k3]

theorem observed_methods (c : Class) (fs : List Function) :
    ∀ (st : GenState) (log : List (Call × Option Class)), st.currentClass = some c →
      ∃ st2, st2.currentClass = some c ∧
        fs.foldl (fun u function => callSlot observingGenerator.ParseMethod u function)
            (some st, log)
          = (some st2, log ++ fs.map (fun f => (Call.method f, some c))) ∧
        fs.foldl (fun u function => callSlot mainGenerator.ParseMethod u function) (some st)
          = some st2 := by
  induction fs with
  | nil => intro st log h; exact ⟨st, h, by simp, rfl⟩
  | cons f rest ih =>
    intro st log h
    obtain ⟨st1, h1, h2⟩ := HandleMethod_some st f c h
    obtain ⟨st2, k1, k2, k3⟩ := ih st1 (log ++ [(Call.method f, some c)]) h2
    refine ⟨st2, k1, ?_, ?_⟩
    · rw [List.foldl_cons]
      have e : callSlot observingGenerator.ParseMethod (some st, log) f
          = (some st1, log ++ [(Call.method f, some c)]) := by
        simp only [callSlot, observingGenerator, mainGenerator, observedClass, Option.some_bind,
          h1, h]
      rw [e, k2]
      simp
    · rw [List.foldl_cons]
      have e : callSlot mainGenerator.ParseMethod (some st) f = some st1 := by
        simp only [callSlot, mainGenerator, Option.some_bind, h1]
      rw [e, k3]

theorem observed_classes (cs : List Class) :
    ∀ (st : GenState) (log : List (Call × Option Class)),
      ∃ st2,
        cs.foldl (fun u class_ =>
            class_.variables_.foldl (fun w var => callSlot observingGenerator.ParseMember w var)
              (class_.functions.foldl
                (fun w function => callSlot observingGenerator.ParseMethod w function)
                (callSlot observingGenerator.ParseClass u class_))) (some st, log)
          = (some st2, log ++ (cs.map (fun c =>
              c.functions.map (fun f => (Call.method f, some c)) ++
                c.variables_.map (fun v => (Call.member v, some c)))).flatten) ∧
        cs.foldl (fun u class_ =>
            class_.variables_.foldl (fun w var => callSlot mainGenerator.ParseMember w var)
              (class_.functions.foldl
                (fun w function => callSlot mainGenerator.ParseMethod w function)
                (callSlot mainGenerator.ParseClass u class_))) (some st) = some st2 := by
  induction cs with
  | nil => intro st log; exact ⟨st, by simp, rfl⟩
  | cons c rest ih =>
    intro st log
    have e1 : callSlot observingGenerator.ParseClass (some st, log) c
        = (some (HandleClass st c), log) := rfl
    have e2 : callSlot mainGenerator.ParseClass (some st) c = some (HandleClass st c) := rfl
    obtain ⟨st1, a1, a2, a3⟩ := observed_methods c c.functions (HandleClass st c) log
      (HandleClass_currentClass st c)
    obtain ⟨st2, b1, b2, b3⟩ := observed_members c c.variables_ st1
      (log ++ c.functions.map (fun f => (Call.method f, some c))) a1
    obtain ⟨st3, c1, c2⟩ := ih st2
      (log ++ c.functions.map (fun f => (Call.method f, some c)) ++
        c.variables_.map (fun v => (Call.member v, some c)))
    refine ⟨st3, ?_, ?_⟩
    · rw [List.foldl_cons, e1, a2, b2, c1]
      simp [List.append_assoc]
    · rw [List.foldl_cons, e2, a3, b3, c2]

/-- C30: when `FileGenerator::Parse` runs with the handlers of `main`, from any registry
and for any model, every invocation of the member handler or the method handler finds in
`currentClass` the class that owns the entity (so the pointer is not null), the invocations
being those of each class, methods first, in class order; and the dispatch ends without a
null dereference. -/
theorem currentClass_is_owner (parser : ASTFileParser) (st : GenState) :
    (observingGenerator.Parse parser (some st, [])).2
      = (parser.classes.map (fun c =>
          c.functions.map (fun f => (Call.method f, some c)) ++
            c.variables_.map (fun v => (Call.member v, some c)))).flatten ∧
    (observingGenerator.Parse parser (some st, [])).1 = mainGenerator.Parse parser (some st) ∧
    ∃ st2, mainGenerator.Parse parser (some st) = some st2 := by
  obtain ⟨st2, h1, h2⟩ := observed_classes parser.classes st []
  have hobs : observingGenerator.Parse parser (some st, [])
      = parser.classes.foldl (fun u class_ =>
            class_.variables_.foldl (fun w var => callSlot observingGenerator.ParseMember w var)
              (class_.functions.foldl
                (fun w function => callSlot observingGenerator.ParseMethod w function)
                (callSlot observingGenerator.ParseClass u class_))) (some st, []) := by
    unfold FileGenerator.Parse
    simp only []
    have ef : observingGenerator.ParseFunction = none := rfl
    have ev : observingGenerator.ParseVariable = none := rfl
    have eu : observingGenerator.ParseFile = none := rfl
    rw [ef, ev, eu, foldl_callSlot_none, foldl_callSlot_none]
    rfl
  have hmain : mainGenerator.Parse parser (some st)
      = parser.classes.foldl (fun u class_ =>
            class_.variables_.foldl (fun w var => callSlot mainGenerator.ParseMember w var)
              (class_.functions.foldl
                (fun w function => callSlot mainGenerator.ParseMethod w function)
                (callSlot mainGenerator.ParseClass u class_))) (some st) := by
    unfold FileGenerator.Parse
    simp only []
    have ef : mainGenerator.ParseFunction = none := rfl
    have ev : mainGenerator.ParseVariable = none := rfl
    have eu : mainGenerator.ParseFile = none := rfl
    rw [ef, ev, eu, foldl_callSlot_none, foldl_callSlot_none]
    rfl
  rw [hobs, hmain, h1, h2]
  exact ⟨by simp, rfl, st2, rfl⟩

end CodeGenerator
